import Mathlib

/-!
# DocuGenius — verification of the repair/extraction pipeline

Shallow embedding of the text-repair pipeline of the DocuGenius repository:

* `GS`   — `src/services/geminiService.ts` (sanitizer `cleanJson`, escape
  normalizer `fixEscapedNewlines`, fuzzy extractor `fuzzyExtractBetweenKeys`,
  `extractJsonObject`, `extractFunctionFallback`, `parseRobustJson`, and the
  validation section of `analyzeDocument`);
* `P04`  — `src/unnamed/part_004` (its `cleanJson` and the bracket-counting
  truncation repairer inside its `parseRobustJson`);
* `PB`   — `src/unnamed/part_001` (the balanced-block scanner
  `extractBalancedBlock` used by the PDF preview);
* `JP`   — an embedding of the JavaScript library function `JSON.parse`
  (strict RFC 8259 grammar, duplicate keys resolved last-wins at lookup);
* `RJ`   — a canonical minified renderer of JSON values, used to state the
  truncation-repair theorem for `P04`.

JavaScript strings are modelled as `List Char`; JavaScript runtime values as
`JsVal` (with an explicit `undef`); thrown exceptions as `Except (List Char)`.
-/

set_option maxHeartbeats 2000000
set_option maxRecDepth 16384

namespace DG

/-! ## Character classes and basic string (`List Char`) operations -/

/-- Whitespace recognised by a JSON text (`JSON.parse`): space, tab, LF, CR. -/
def isWsJson (c : Char) : Bool := c == ' ' || c == '\t' || c == '\n' || c == '\r'

/-- Whitespace for JavaScript `String.prototype.trim` and the regex class
`\s`: WhiteSpace plus LineTerminator code points. -/
def isWsBig (c : Char) : Bool :=
  c == ' ' || c == '\t' || c == '\n' || c == '\r' ||
  c == Char.ofNat 0x0B || c == Char.ofNat 0x0C || c == Char.ofNat 0xA0 ||
  c == Char.ofNat 0x1680 ||
  (0x2000 ≤ c.toNat && c.toNat ≤ 0x200A) ||
  c == Char.ofNat 0x2028 || c == Char.ofNat 0x2029 ||
  c == Char.ofNat 0x202F || c == Char.ofNat 0x205F ||
  c == Char.ofNat 0x3000 || c == Char.ofNat 0xFEFF

def isDigitC (c : Char) : Bool := '0' ≤ c && c ≤ '9'

/-- `[a-zA-Z0-9_]`, the regex word class used by the bare-key fixer. -/
def isWordC (c : Char) : Bool :=
  ('a' ≤ c && c ≤ 'z') || ('A' ≤ c && c ≤ 'Z') || isDigitC c || c == '_'

/-- The zero-width characters removed by the sanitizers: U+200B through
U+200D and the byte-order mark U+FEFF. -/
def isZW (c : Char) : Bool :=
  (0x200B ≤ c.toNat && c.toNat ≤ 0x200D) || c.toNat == 0xFEFF

/-- Single-quote character (apostrophe). -/
def sq : Char := Char.ofNat 0x27

/-- Backtick character. -/
def bt : Char := Char.ofNat 0x60

/-- Case-insensitive character comparison (the regex `i` flag; ASCII-exact). -/
def charCI (a b : Char) : Bool := a.toLower == b.toLower

def startsWithL : List Char → List Char → Bool
  | _, [] => true
  | [], _ :: _ => false
  | c :: t, p :: ps => c == p && startsWithL t ps

/-- Case-insensitive `startsWithL`. -/
def startsWithCI : List Char → List Char → Bool
  | _, [] => true
  | [], _ :: _ => false
  | c :: t, p :: ps => charCI c p && startsWithCI t ps

def endsWithL (l p : List Char) : Bool :=
  if p.length ≤ l.length then startsWithL (l.drop (l.length - p.length)) p else false

/-- `String.prototype.includes` (contiguous substring occurrence). -/
def hasSub : List Char → List Char → Bool
  | l, p =>
    match l with
    | [] => p.isEmpty
    | _ :: t => startsWithL l p || hasSub t p

/-- Case-insensitive substring occurrence. -/
def hasSubCI : List Char → List Char → Bool
  | l, p =>
    match l with
    | [] => p.isEmpty
    | _ :: t => startsWithCI l p || hasSubCI t p

/-- `String.prototype.trim`. -/
def jsTrim (l : List Char) : List Char :=
  ((l.dropWhile isWsBig).reverse.dropWhile isWsBig).reverse

/-- `indexOf` of a single character. -/
def indexOfChar : List Char → Char → Option Nat
  | [], _ => none
  | c :: t, x => if c == x then some 0 else (indexOfChar t x).map (· + 1)

/-- `lastIndexOf` of a single character. -/
def lastIndexOfChar (l : List Char) (x : Char) : Option Nat :=
  (indexOfChar l.reverse x).map (fun i => l.length - 1 - i)

/-- `String.prototype.substring a b`: clamps both arguments to the length and
swaps them when `a > b`. -/
def jsSubstring (l : List Char) (a b : Nat) : List Char :=
  let a' := min a l.length
  let b' := min b l.length
  if a' ≤ b' then (l.take b').drop a' else (l.take a').drop b'

/-- Remove the zero-width characters (the global zero-width-class replace). -/
def removeZW (l : List Char) : List Char := l.filter (fun c => !isZW c)

def countCh (x : Char) (l : List Char) : Nat := (l.filter (fun c => c == x)).length

def repC (n : Nat) (c : Char) : List Char := List.replicate n c

def toLowerL (l : List Char) : List Char := l.map Char.toLower

/-! ## Regex engines: global replace and first-match search

A replacement matcher inspects a suffix of the text and yields
`(matched length, replacement)`; `replaceScan` applies it left-to-right,
resuming after each match — the semantics of `String.replace` with a `g`-flag
regex (all our patterns match at least one character). A search matcher yields
the matched length only; `findFirst` returns the leftmost match with its
index — the semantics of `String.match` (`match.index` / `match[0].length`). -/

def replaceScanAux (f : List Char → Option (Nat × List Char)) :
    Nat → List Char → List Char
  | _, [] => []
  | 0, l => l
  | fuel + 1, c :: t =>
    match f (c :: t) with
    | some (len, rep) => rep ++ replaceScanAux f fuel (t.drop (len - 1))
    | none => c :: replaceScanAux f fuel t

/-- Global replace: the fuel (one unit per character emitted or skipped)
bounds the scan; `input.length` always suffices since every match consumes
at least one character. -/
def replaceScan (f : List Char → Option (Nat × List Char)) (l : List Char) : List Char :=
  replaceScanAux f l.length l

def findFirstAux (m : List Char → Option Nat) : List Char → Nat → Option (Nat × Nat)
  | l, i =>
    match m l with
    | some len => some (i, len)
    | none =>
      match l with
      | [] => none
      | _ :: t => findFirstAux m t (i + 1)

/-- Leftmost match of a search matcher: `(index, length)`. -/
def findFirst (m : List Char → Option Nat) (l : List Char) : Option (Nat × Nat) :=
  findFirstAux m l 0

/-! ## JavaScript runtime values -/

/-- A JavaScript value as produced/consumed by the pipeline.  `numF` carries
the raw text of a number with a fractional part or exponent (its float value
is never inspected by the code under verification). -/
inductive JsVal where
  | undef
  | null
  | bool (b : Bool)
  | num (n : Int)
  | numF (raw : List Char)
  | str (s : List Char)
  | arr (elems : List JsVal)
  | obj (members : List (List Char × JsVal))

namespace JsVal

/-- JavaScript truthiness. -/
def truthy : JsVal → Bool
  | undef => false
  | null => false
  | bool b => b
  | num n => n != 0
  | numF _ => true
  | str s => !s.isEmpty
  | arr _ => true
  | obj _ => true

def isStr : JsVal → Bool
  | str _ => true
  | _ => false

def isNum : JsVal → Bool
  | num _ => true
  | numF _ => true
  | _ => false

def isArr : JsVal → Bool
  | arr _ => true
  | _ => false

def isObj : JsVal → Bool
  | obj _ => true
  | _ => false

/-- Property lookup on an object member list; a duplicate key takes the last
value, matching what repeated assignment during `JSON.parse` produces. -/
def lookupLast (ms : List (List Char × JsVal)) (k : List Char) : Option JsVal :=
  ms.foldl (fun acc kv => if kv.1 = k then some kv.2 else acc) none

/-- Total property access `v[k]` for claim statements: `undef` when the value
is not an object or lacks the key (never throws). -/
def getF (v : JsVal) (k : List Char) : JsVal :=
  match v with
  | obj ms => (lookupLast ms k).getD undef
  | _ => undef

/-- `v[k] = x` on an object: overwrite the last binding of `k` in place, or
append a new one (JS property-creation order). -/
def setF (v : JsVal) (k : List Char) (x : JsVal) : JsVal :=
  match v with
  | obj ms =>
    if (lookupLast ms k).isSome then
      obj (ms.map (fun kv => if kv.1 = k then (kv.1, x) else kv))
    else obj (ms ++ [(k, x)])
  | v => v

end JsVal

/-! ## `JSON.parse` (namespace `JP`)

A faithful embedding of the JavaScript library function: RFC 8259 grammar —
whitespace is space/tab/LF/CR; strings are double-quoted with the eight
escapes plus `\uXXXX` and no raw control characters; numbers forbid leading
zeros; no trailing input.  Structural recursion on a fuel bounded by the input
length. -/

namespace JP

def skipWs : List Char → List Char
  | c :: cs => if isWsJson c then skipWs cs else c :: cs
  | [] => []

def hexVal (c : Char) : Option Nat :=
  let n := c.toNat
  if 48 ≤ n ∧ n ≤ 57 then some (n - 48)
  else if 97 ≤ n ∧ n ≤ 102 then some (n - 87)
  else if 65 ≤ n ∧ n ≤ 70 then some (n - 55)
  else none

def escChar : Char → Option Char
  | '"' => some '"'
  | '\\' => some '\\'
  | '/' => some '/'
  | 'b' => some (Char.ofNat 8)
  | 'f' => some (Char.ofNat 12)
  | 'n' => some '\n'
  | 'r' => some '\r'
  | 't' => some '\t'
  | _ => none

/-- Parse a string body after the opening quote; yields the decoded
characters and the input after the closing quote. -/
def strBody (acc : List Char) : List Char → Option (List Char × List Char)
  | '"' :: rest => some (acc.reverse, rest)
  | '\\' :: 'u' :: a :: b :: c :: d :: rest =>
    match hexVal a, hexVal b, hexVal c, hexVal d with
    | some va, some vb, some vc, some vd =>
      strBody (Char.ofNat (((va * 16 + vb) * 16 + vc) * 16 + vd) :: acc) rest
    | _, _, _, _ => none
  | '\\' :: 'u' :: _ => none
  | '\\' :: e :: rest =>
    match escChar e with
    | some ch => strBody (ch :: acc) rest
    | none => none
  | c :: rest => if c.toNat < 0x20 then none else strBody (c :: acc) rest
  | [] => none

def takeDigits : List Char → List Char × List Char
  | c :: cs =>
    if isDigitC c then
      let (ds, r) := takeDigits cs
      (c :: ds, r)
    else ([], c :: cs)
  | [] => ([], [])

def digitsToNat (ds : List Char) : Nat :=
  ds.foldl (fun acc c => acc * 10 + (c.toNat - '0'.toNat)) 0

/-- The integer part: `0`, or a nonzero digit followed by digits (the JSON
grammar rejects leading zeros).  Yields the digit characters. -/
def intDigits : List Char → Option (List Char × List Char)
  | '0' :: c :: rest => if isDigitC c then none else some (['0'], c :: rest)
  | ['0'] => some (['0'], [])
  | c :: rest =>
    if isDigitC c then
      let (ds, r) := takeDigits rest
      some (c :: ds, r)
    else none
  | [] => none

/-- The optional leading minus sign. -/
def numSign : List Char → Bool × List Char
  | '-' :: r => (true, r)
  | l => (false, l)

/-- The optional fraction part `.digits`; `none` rejects a bare dot. -/
def numFracPart : List Char → Option (List Char × List Char)
  | '.' :: r =>
    match takeDigits r with
    | ([], _) => none
    | (ds, r2) => some ('.' :: ds, r2)
  | l => some ([], l)

/-- The optional sign of an exponent. -/
def numExpSign : List Char → List Char × List Char
  | '+' :: r2 => (['+'], r2)
  | '-' :: r2 => (['-'], r2)
  | l => ([], l)

/-- The optional exponent part `e`/`E`, optional sign, digits. -/
def numExpPart : List Char → Option (List Char × List Char)
  | 'e' :: r | 'E' :: r =>
    match numExpSign r with
    | (sgn, r1) =>
      match takeDigits r1 with
      | ([], _) => none
      | (ds, r2) => some ('e' :: sgn ++ ds, r2)
  | l => some ([], l)

/-- Parse a JSON number.  A plain integer becomes `JsVal.num`; a number with a
fraction or exponent is kept as its raw text (`JsVal.numF`). -/
def parseNum (cs : List Char) : Option (JsVal × List Char) :=
  match numSign cs with
  | (neg, cs1) =>
    match intDigits cs1 with
    | none => none
    | some (ids, cs2) =>
      match numFracPart cs2 with
      | none => none
      | some (fds, cs3) =>
        match numExpPart cs3 with
        | none => none
        | some (eds, cs4) =>
          if fds.isEmpty && eds.isEmpty then
            some (JsVal.num (if neg then -(digitsToNat ids : Int) else (digitsToNat ids : Int)),
              cs4)
          else
            some (JsVal.numF ((if neg then ['-'] else []) ++ ids ++ fds ++ eds), cs4)

mutual

def parseVal (fuel : Nat) (cs : List Char) : Option (JsVal × List Char) :=
  match fuel with
  | 0 => none
  | fuel + 1 =>
    match skipWs cs with
    | 'n' :: 'u' :: 'l' :: 'l' :: r => some (JsVal.null, r)
    | 't' :: 'r' :: 'u' :: 'e' :: r => some (JsVal.bool true, r)
    | 'f' :: 'a' :: 'l' :: 's' :: 'e' :: r => some (JsVal.bool false, r)
    | '"' :: r =>
      match strBody [] r with
      | some (s, r2) => some (JsVal.str s, r2)
      | none => none
    | '[' :: r =>
      match skipWs r with
      | ']' :: r2 => some (JsVal.arr [], r2)
      | r2 =>
        match parseElems fuel r2 with
        | some (es, r3) => some (JsVal.arr es, r3)
        | none => none
    | '{' :: r =>
      match skipWs r with
      | '}' :: r2 => some (JsVal.obj [], r2)
      | r2 =>
        match parseMembers fuel r2 with
        | some (ms, r3) => some (JsVal.obj ms, r3)
        | none => none
    | c :: rest =>
      if c == '-' || isDigitC c then parseNum (c :: rest) else none
    | [] => none

def parseElems (fuel : Nat) (cs : List Char) : Option (List JsVal × List Char) :=
  match fuel with
  | 0 => none
  | fuel + 1 =>
    match parseVal fuel cs with
    | none => none
    | some (v, r) =>
      match skipWs r with
      | ',' :: r2 =>
        match parseElems fuel (skipWs r2) with
        | some (vs, r3) => some (v :: vs, r3)
        | none => none
      | ']' :: r2 => some ([v], r2)
      | _ => none

def parseMembers (fuel : Nat) (cs : List Char) :
    Option (List (List Char × JsVal) × List Char) :=
  match fuel with
  | 0 => none
  | fuel + 1 =>
    match skipWs cs with
    | '"' :: r =>
      match strBody [] r with
      | none => none
      | some (key, r1) =>
        match skipWs r1 with
        | ':' :: r2 =>
          match parseVal fuel (skipWs r2) with
          | none => none
          | some (v, r3) =>
            match skipWs r3 with
            | ',' :: r4 =>
              match parseMembers fuel (skipWs r4) with
              | some (ms, r5) => some ((key, v) :: ms, r5)
              | none => none
            | '}' :: r4 => some ([(key, v)], r4)
            | _ => none
        | _ => none
    | _ => none

end

end JP

/-- The embedding of `JSON.parse`: `none` models a thrown `SyntaxError`. -/
def jsonParse (cs : List Char) : Option JsVal :=
  match JP.parseVal (cs.length + 1) cs with
  | some (v, rest) => if (JP.skipWs rest).isEmpty then some v else none
  | none => none

end DG

namespace DG

/-! ## String constants of the pipeline -/

def pdfKey : List Char := "pdfMakeCode".data
def excelKey : List Char := "excelJSCode".data
def dataKey : List Char := "extractedData".data
def summaryKey : List Char := "summary".data
def dtKey : List Char := "detectedTables".data
def dimsKey : List Char := "dimensions".data
def countKey : List Char := "count".data
def funcLit : List Char := "function".data
def importLit : List Char := "import".data
def slashesLit : List Char := "//".data
def exportPdfName : List Char := "exportPDF".data
def exportExcelName : List Char := "exportToExcel".data
def asyncLit : List Char := "async".data
def functionLit : List Char := "function".data
def constLit : List Char := "const".data
def fenceJsonLit : List Char := "\x60\x60\x60json".data
def fenceLit : List Char := "\x60\x60\x60".data
def sentinelPdf : List Char := "// PDF generation code failed to generate.".data
def sentinelExcel : List Char := "// Excel generation code failed to generate.".data
def pdfImportPrefix : List Char :=
  "// Imports added by system\nimport \x7b text \x7d from \x27@/plugins/pdfmake-style\x27;\n\n".data
def excelImportPrefix : List Char :=
  "// Imports added by system\nimport ExcelJS from \x27exceljs\x27;\nimport \x7b saveAs \x7d from \x27file-saver\x27;\n\n".data
def typeErrMsg : List Char := "TypeError".data
def emptyMsg : List Char := "Empty response from AI.".data
def parseFailMsg : List Char :=
  "Failed to parse AI response. The model output was likely truncated or malformed.".data
def incompleteMsg : List Char := "Incomplete JSON structure returned".data
def tooLargeMsg : List Char :=
  "Input too large: The Reference Library or Target File exceeds the token limit.".data
def err400Msg : List Char := "API Error 400: Bad Request.".data
def msg400 : List Char := "400".data
def msgInvalidArg : List Char := "INVALID_ARGUMENT".data
def msgTokenCount : List Char := "token count".data
def msg04 : List Char :=
  "Failed to parse AI response. The model output may have been truncated due to complexity. Try simplifying the document.".data
def unknownLit : List Char := "unknown".data
def generatedDocLit : List Char := "Generated Document".data
def fileTypeKey : List Char := "fileType".data
def headersKey : List Char := "headers".data
def titleKey : List Char := "title".data
def subtitleKey : List Char := "subtitle".data

/-- The default summary object substituted on the fuzzy path. -/
def defaultSummary : JsVal :=
  JsVal.obj
    [(fileTypeKey, JsVal.str unknownLit),
     (dtKey, JsVal.obj [(countKey, JsVal.num 0), (dimsKey, JsVal.arr [])]),
     (headersKey, JsVal.obj [(titleKey, JsVal.str generatedDocLit), (subtitleKey, JsVal.str [])])]

/-- The default `detectedTables` object substituted by the validator. -/
def defaultDT : JsVal := JsVal.obj [(countKey, JsVal.num 0), (dimsKey, JsVal.arr [])]

/-! ## Pattern matchers

Each matcher tries the corresponding regex at the *start* of the given
suffix, returning the matched length (search matchers) or matched length plus
replacement text (replacement matchers).  `findFirst`/`replaceScan` supply the
leftmost-match and global-replace semantics.  Every pattern below is
deterministic: in each of them, a greedy subpattern (`\s*`, `[^"]+`,
`[a-zA-Z0-9_]+?` before `\s*:`) stops at a character disjoint from what the
next part of the pattern can begin with, so no backtracking case analysis
is needed. -/

def quoteC (c : Char) : Bool := c == '"' || c == sq

/-- `["']key["']\s*:\s*["']` with the `i` flag (fuzzy start marker). -/
def startPat (key : List Char) (l : List Char) : Option Nat :=
  match l with
  | q1 :: r1 =>
    if quoteC q1 && startsWithCI r1 key then
      match r1.drop key.length with
      | q2 :: r3 =>
        if quoteC q2 then
          let ws1 := r3.takeWhile isWsBig
          match r3.drop ws1.length with
          | ':' :: r4 =>
            let ws2 := r4.takeWhile isWsBig
            match r4.drop ws2.length with
            | q3 :: _ =>
              if quoteC q3 then
                some (1 + key.length + 1 + ws1.length + 1 + ws2.length + 1)
              else none
            | [] => none
          | _ => none
        else none
      | [] => none
    else none
  | [] => none

/-- `["'],\s*[\r\n]*\s*["']key["']` with the `i` flag (fuzzy end marker).
`[\r\n]` is contained in `\s`, so the three star-runs match exactly the
maximal whitespace run after the comma. -/
def endPat (key : List Char) (l : List Char) : Option Nat :=
  match l with
  | q1 :: ',' :: r =>
    if quoteC q1 then
      let ws := r.takeWhile isWsBig
      match r.drop ws.length with
      | q2 :: r2 =>
        if quoteC q2 && startsWithCI r2 key then
          match r2.drop key.length with
          | q3 :: _ =>
            if quoteC q3 then some (2 + ws.length + 1 + key.length + 1) else none
          | [] => none
        else none
      | [] => none
    else none
  | _ => none

/-- The `\s*:\s*{` tail of the `extractJsonObject` pattern; returns its length
(including the opening brace). -/
def contColonBrace (r : List Char) : Option Nat :=
  let ws1 := r.takeWhile isWsBig
  match r.drop ws1.length with
  | ':' :: r2 =>
    let ws2 := r2.takeWhile isWsBig
    match r2.drop ws2.length with
    | '{' :: _ => some (ws1.length + 1 + ws2.length + 1)
    | _ => none
  | _ => none

/-- `(["']?)key\1\s*:\s*({)` with the `i` flag: an optionally quoted key (the
backreference forces matching quotes), then colon and opening brace. -/
def objKeyPat (key : List Char) (l : List Char) : Option Nat :=
  match l with
  | q :: r =>
    if quoteC q then
      if startsWithCI r key then
        match r.drop key.length with
        | q2 :: r2 =>
          if q2 == q then (contColonBrace r2).map (fun n => 1 + key.length + 1 + n) else none
        | [] => none
      else none
    else
      if startsWithCI l key then
        (contColonBrace (l.drop key.length)).map (fun n => key.length + n)
      else none
  | [] => none

/-- Case-insensitive literal: returns the rest after the literal. -/
def litCI (lit : List Char) (l : List Char) : Option (List Char) :=
  if startsWithCI l lit then some (l.drop lit.length) else none

/-- Branch 1 of the `extractFunctionFallback` pattern:
`async\\s+function\\s+name\\s*\\(` with the `i` flag. -/
def funcPatA (name : List Char) (l : List Char) : Option Nat :=
  match litCI asyncLit l with
  | none => none
  | some r1 =>
    let w1 := r1.takeWhile isWsBig
    if w1.isEmpty then none
    else
      match litCI functionLit (r1.drop w1.length) with
      | none => none
      | some r2 =>
        let w2 := r2.takeWhile isWsBig
        if w2.isEmpty then none
        else
          match litCI name (r2.drop w2.length) with
          | none => none
          | some r3 =>
            let w3 := r3.takeWhile isWsBig
            match r3.drop w3.length with
            | '(' :: _ =>
              some (asyncLit.length + w1.length + functionLit.length + w2.length +
                    name.length + w3.length + 1)
            | _ => none

/-- Branch 2: `const\\s+name\\s*=s*async` with the `i` flag (in the source the
`=\\s*` was written inside a non-raw template literal, so the backslash is
dropped and this branch really asks for `=` followed by literal `s`s). -/
def funcPatB (name : List Char) (l : List Char) : Option Nat :=
  match litCI constLit l with
  | none => none
  | some r1 =>
    let w1 := r1.takeWhile isWsBig
    if w1.isEmpty then none
    else
      match litCI name (r1.drop w1.length) with
      | none => none
      | some r2 =>
        let w2 := r2.takeWhile isWsBig
        match r2.drop w2.length with
        | '=' :: r3 =>
          let sRun := r3.takeWhile (fun c => charCI c 's')
          match litCI asyncLit (r3.drop sRun.length) with
          | none => none
          | some _ =>
            some (constLit.length + w1.length + name.length + w2.length + 1 +
                  sRun.length + asyncLit.length)
        | _ => none

/-- The `extractFunctionFallback` pattern, trying the two alternation branches
in order. -/
def funcPat (name : List Char) (l : List Char) : Option Nat :=
  match funcPatA name l with
  | some n => some n
  | none => funcPatB name l

/-- `["']?extractedData["']?\s*:` (no flags, case-sensitive). -/
def extractedDataPat (l : List Char) : Option Nat :=
  let q1 : Nat := match l with
    | c :: _ => if quoteC c then 1 else 0
    | [] => 0
  let l1 := l.drop q1
  if startsWithL l1 dataKey then
    let l2 := l1.drop dataKey.length
    let q2 : Nat := match l2 with
      | c :: _ => if quoteC c then 1 else 0
      | [] => 0
    let l3 := l2.drop q2
    let ws := l3.takeWhile isWsBig
    match l3.drop ws.length with
    | ':' :: _ => some (q1 + dataKey.length + q2 + ws.length + 1)
    | _ => none
  else none

/-- `(\[|\{)`. -/
def brktPat (l : List Char) : Option Nat :=
  match l with
  | c :: _ => if c == '[' || c == '{' then some 1 else none
  | [] => none

/-- A literal pattern for the chained `unescapeJsonString` replaces. -/
def litPat (pat rep : List Char) (l : List Char) : Option (Nat × List Char) :=
  if !pat.isEmpty && startsWithL l pat then some (pat.length, rep) else none

/-- `\\n\s*\/\/` replaced by a real newline before the comment marker. -/
def fixPatA (l : List Char) : Option (Nat × List Char) :=
  match l with
  | '\\' :: 'n' :: r =>
    let ws := r.takeWhile isWsBig
    if startsWithL (r.drop ws.length) slashesLit then
      some (2 + ws.length + 2, '\n' :: ' ' :: slashesLit)
    else none
  | _ => none

/-- The lazy scan of `\/\/(.*?)\\n`: after `//`, the shortest run of
non-line-terminator characters up to a literal backslash-n. -/
def fixBScan : List Char → Option (List Char × Nat)
  | '\\' :: 'n' :: _ => some ([], 2)
  | c :: r =>
    if c == '\n' || c == '\r' || c == Char.ofNat 0x2028 || c == Char.ofNat 0x2029 then none
    else (fixBScan r).map (fun (cap, n) => (c :: cap, n + 1))
  | [] => none

/-- `\/\/(.*?)\\n` replaced by `//$1` and a real newline. -/
def fixPatB (l : List Char) : Option (Nat × List Char) :=
  if startsWithL l slashesLit then
    match fixBScan (l.drop 2) with
    | some (cap, n) => some (2 + n, slashesLit ++ cap ++ ['\n'])
    | none => none
  else none

/-- `c\s*\\n` replaced by `c` and a real newline, for a structural `c`. -/
def fixPatC (x : Char) (l : List Char) : Option (Nat × List Char) :=
  match l with
  | c :: r =>
    if c == x then
      let ws := r.takeWhile isWsBig
      match r.drop ws.length with
      | '\\' :: 'n' :: _ => some (1 + ws.length + 2, [x, '\n'])
      | _ => none
    else none
  | [] => none

/-- `([{,]\s*)([a-zA-Z0-9_]+?)\s*:` replaced by `$1"$2":` (bare-key quoting;
the lazy word run is equivalent to the maximal one here because a word
character can neither be whitespace nor a colon). -/
def bareKeyPat (l : List Char) : Option (Nat × List Char) :=
  match l with
  | c :: r =>
    if c == '{' || c == ',' then
      let ws1 := r.takeWhile isWsBig
      let r1 := r.drop ws1.length
      let word := r1.takeWhile isWordC
      if word.isEmpty then none
      else
        let r2 := r1.drop word.length
        let ws2 := r2.takeWhile isWsBig
        match r2.drop ws2.length with
        | ':' :: _ =>
          some (1 + ws1.length + word.length + ws2.length + 1,
                c :: ws1 ++ '"' :: word ++ '"' :: [':'])
        | _ => none
    else none
  | [] => none

/-- `""([^"]+)""` replaced by `"$1"` (the double-double-quote fix of the
`part_004` sanitizer). -/
def qqPat (l : List Char) : Option (Nat × List Char) :=
  match l with
  | '"' :: '"' :: r =>
    let mid := r.takeWhile (fun c => c != '"')
    if mid.isEmpty then none
    else
      match r.drop mid.length with
      | '"' :: '"' :: _ => some (2 + mid.length + 2, '"' :: mid ++ ['"'])
      | _ => none
  | _ => none

end DG

namespace DG.GS

/-! ## `src/services/geminiService.ts` -/

/-- The fence-stripping step of `cleanJson` (lines 63–65): an `else if` pair
for the leading fence, then the trailing-fence check. -/
def fenceStrip (c0 : List Char) : List Char :=
  let c1 :=
    if startsWithL c0 fenceJsonLit then c0.drop 7
    else if startsWithL c0 fenceLit then c0.drop 3
    else c0
  if endsWithL c1 fenceLit then c1.take (c1.length - 3) else c1

/-- The outermost-brace extraction step of `cleanJson` (lines 66–70); JS
`substring` swaps reversed indices. -/
def braceCut (c2 : List Char) : List Char :=
  match indexOfChar c2 '{', lastIndexOfChar c2 '}' with
  | some fb, some lb => jsSubstring c2 fb (lb + 1)
  | _, _ => c2

/-- `cleanJson` (lines 61–72): trim, strip code fences, cut to the outermost
brace span, drop zero-width characters, trim again. -/
def cleanJson (text : List Char) : List Char :=
  jsTrim (removeZW (braceCut (fenceStrip (jsTrim text))))

/-- `unescapeJsonString` (lines 74–82): five chained global replaces. -/
def unescapeJsonString (s : List Char) : List Char :=
  if s.isEmpty then []
  else
    let s1 := replaceScan (litPat ['\\', '"'] ['"']) s
    let s2 := replaceScan (litPat ['\\', 'n'] ['\n']) s1
    let s3 := replaceScan (litPat ['\\', 'r'] ['\r']) s2
    let s4 := replaceScan (litPat ['\\', 't'] ['\t']) s3
    replaceScan (litPat ['\\', '\\'] ['\\']) s4

/-- `fixEscapedNewlines` (lines 84–97) on a string: eight chained global
replaces restoring real newlines at structural punctuation. -/
def fixEscapedNewlinesS (code : List Char) : List Char :=
  let s1 := replaceScan fixPatA code
  let s2 := replaceScan fixPatB s1
  let s3 := replaceScan (fixPatC ';') s2
  let s4 := replaceScan (fixPatC '{') s3
  let s5 := replaceScan (fixPatC '}') s4
  let s6 := replaceScan (fixPatC ',') s5
  let s7 := replaceScan (fixPatC '[') s6
  replaceScan (fixPatC ')') s7

/-- `fixEscapedNewlines` on a JavaScript value: a falsy argument is returned
unchanged (`if (!code) return code`); `.replace` on a truthy non-string
throws a `TypeError`. -/
def fixEscapedNewlinesV (v : JsVal) : Except (List Char) JsVal :=
  if !v.truthy then .ok v
  else
    match v with
    | .str s => .ok (.str (fixEscapedNewlinesS s))
    | _ => .error typeErrMsg

/-- Property read `v[k]` with JavaScript semantics: throws a `TypeError` on
`null`/`undefined`, yields `undefined` on other non-objects. -/
def jsGetField (v : JsVal) (k : List Char) : Except (List Char) JsVal :=
  match v with
  | .undef => .error typeErrMsg
  | .null => .error typeErrMsg
  | .obj ms => .ok ((JsVal.lookupLast ms k).getD .undef)
  | _ => .ok ( .undef)

/-- Property write `v[k] = x` (strict mode): throws a `TypeError` unless `v`
is an object. -/
def jsSetField (v : JsVal) (k : List Char) (x : JsVal) : Except (List Char) JsVal :=
  match v with
  | .obj _ => .ok (v.setF k x)
  | _ => .error typeErrMsg

/-- `fuzzyExtractBetweenKeys` (lines 103–140). -/
def fuzzyExtractBetweenKeys (fullText keyStart : List Char) (keyEnd : Option (List Char)) :
    Option (List Char) :=
  match findFirst (startPat keyStart) fullText with
  | none => none
  | some (idx, len) =>
    let contentStartIndex := idx + len
    let ce1 : Option Nat :=
      match keyEnd with
      | some ke =>
        match findFirst (endPat ke) (fullText.drop contentStartIndex) with
        | some (eidx, _) => some (contentStartIndex + eidx)
        | none => none
      | none => none
    let contentEndIndex : Nat :=
      match ce1 with
      | some e => e
      | none =>
        match lastIndexOfChar fullText '"' with
        | some lastQuote =>
          if contentStartIndex < lastQuote then lastQuote else fullText.length
        | none => fullText.length
    some (unescapeJsonString (jsSubstring fullText contentStartIndex contentEndIndex))

/-- The brace-counting loop of `extractJsonObject` (lines 150–168): plain
brace counting (not string-aware); at balance zero the block is parsed, a
parse failure returning `null`. -/
def braceScanAux (full : List Char) (startIdx : Nat) :
    List Char → Nat → Int → Option JsVal
  | [], _, _ => none
  | c :: t, i, bal =>
    let b2 := if c == '{' then bal + 1 else if c == '}' then bal - 1 else bal
    if b2 == 0 then jsonParse (jsSubstring full startIdx (startIdx + i + 1))
    else braceScanAux full startIdx t (i + 1) b2

/-- `extractJsonObject` (lines 142–170). -/
def extractJsonObject (fullText key : List Char) : Option JsVal :=
  match findFirst (objKeyPat key) fullText with
  | none => none
  | some (idx, len) =>
    let startIdx := idx + len - 1
    braceScanAux fullText startIdx (fullText.drop startIdx) 0 0

/-- The brace-counting loop of `extractFunctionFallback` (lines 184–200). -/
def funcScanAux (full : List Char) (matchIdx : Nat) :
    List Char → Nat → Int → Bool → Option (List Char)
  | [], _, _, _ => none
  | c :: t, i, bal, found =>
    let found2 := if c == '{' then true else found
    let b2 := if c == '{' then bal + 1 else if c == '}' then bal - 1 else bal
    if found2 && b2 == 0 then some (jsSubstring full matchIdx (matchIdx + i + 1))
    else funcScanAux full matchIdx t (i + 1) b2 found2

/-- `extractFunctionFallback` (lines 172–202). -/
def extractFunctionFallback (fullText funcName : List Char) : Option (List Char) :=
  match findFirst (funcPat funcName) fullText with
  | none => none
  | some (idx, _) => funcScanAux fullText idx (fullText.drop idx) 0 0 false

/-- The bracket-matching loop of the `extractedData` scan (lines 294–302):
a parse failure is caught, leaving the empty-array default. -/
def dataScanAux (full : List Char) (absStart : Nat) (oc cc : Char) :
    List Char → Nat → Int → JsVal
  | [], _, _ => .arr []
  | c :: t, i, bal =>
    let b1 := if c == oc then bal + 1 else bal
    let b2 := if c == cc then b1 - 1 else b1
    if b2 == 0 then
      match jsonParse (jsSubstring full absStart (absStart + i + 1)) with
      | some v => v
      | none => .arr []
    else dataScanAux full absStart oc cc t (i + 1) b2

/-- The `extractedData` recovery of the fuzzy path (lines 273–307). -/
def extractDataScan (current : List Char) : JsVal :=
  match findFirst extractedDataPat current with
  | none => .arr []
  | some (kidx, klen) =>
    let afterKeyIndex := kidx + klen
    let remaining := current.drop afterKeyIndex
    match findFirst brktPat remaining with
    | none => .arr []
    | some (ridx, _) =>
      let absoluteStart := afterKeyIndex + ridx
      match remaining.drop ridx with
      | [] => .arr []
      | sc :: _ =>
        let oc := sc
        let cc := if sc == '[' then ']' else '}'
        dataScanAux current absoluteStart oc cc (current.drop absoluteStart) 0 0

/-- The shared body of parse attempts 1 and 2 (lines 208–222 and 226–235):
parse, and if the result's `pdfMakeCode` is truthy, normalize the two code
fields, default `extractedData`, and return; any internal throw or a falsy
`pdfMakeCode` falls through (`none`). -/
def tryDirect (cs : List Char) : Option JsVal :=
  match jsonParse cs with
  | none => none
  | some result =>
    match jsGetField result pdfKey with
    | .error _ => none
    | .ok pdfv =>
      if pdfv.truthy then
        match fixEscapedNewlinesV pdfv with
        | .error _ => none
        | .ok pdf2 =>
          let r1 := result.setF pdfKey pdf2
          match jsGetField r1 excelKey with
          | .error _ => none
          | .ok excelv =>
            match fixEscapedNewlinesV excelv with
            | .error _ => none
            | .ok ex2 =>
              let r2 := r1.setF excelKey ex2
              let r3 :=
                match r2.getF dataKey with
                | .undef => r2.setF dataKey (.arr [])
                | .null => r2.setF dataKey (.arr [])
                | _ => r2
              some r3
      else none

/-- Truthiness of an optional string local (`pdfMakeCode` is `string | null`). -/
def optStrTruthy : Option (List Char) → Bool
  | some s => !s.isEmpty
  | none => false

/-- The fuzzy extraction stage (lines 240–324). -/
def fuzzyStage (current text : List Char) : Except (List Char) JsVal :=
  let p0 := fuzzyExtractBetweenKeys current pdfKey (some excelKey)
  let e0 := fuzzyExtractBetweenKeys current excelKey (some dataKey)
  let p1 :=
    if !optStrTruthy p0 || (p0.getD []).length < 50 then
      extractFunctionFallback text exportPdfName
    else p0
  let e1 :=
    if !optStrTruthy e0 || (e0.getD []).length < 50 then
      extractFunctionFallback text exportExcelName
    else e0
  let p2 :=
    match p1 with
    | some p => if !hasSub p importLit then some (pdfImportPrefix ++ p) else some p
    | none => none
  let e2 :=
    match e1 with
    | some e => if !hasSub e importLit then some (excelImportPrefix ++ e) else some e
    | none => none
  let p3 :=
    match p2 with
    | some p => if !p.isEmpty then some (fixEscapedNewlinesS p) else some p
    | none => none
  let e3 :=
    match e2 with
    | some e => if !e.isEmpty then some (fixEscapedNewlinesS e) else some e
    | none => none
  let summary := (extractJsonObject current summaryKey).getD defaultSummary
  let extractedData := extractDataScan current
  if optStrTruthy p3 || optStrTruthy e3 then
    .ok (JsVal.obj
      [(summaryKey, summary),
       (pdfKey, JsVal.str (if optStrTruthy p3 then p3.getD [] else sentinelPdf)),
       (excelKey, JsVal.str (if optStrTruthy e3 then e3.getD [] else sentinelExcel)),
       (dataKey, extractedData)])
  else .error parseFailMsg

/-- `parseRobustJson` (lines 204–325). -/
def parseRobustJson (text : List Char) : Except (List Char) JsVal :=
  let current := cleanJson text
  match tryDirect current with
  | some r => .ok r
  | none =>
    let fixedChars := replaceScan bareKeyPat current
    match tryDirect fixedChars with
    | some r => .ok r
    | none => fuzzyStage current text

end DG.GS

namespace DG.GS

/-! ## The validation section of `analyzeDocument` (lines 516–544) -/

/-- `String.prototype.includes` as a method call: a `TypeError` on values
without it; on an array, `Array.prototype.includes` (SameValueZero). -/
def includesV (v : JsVal) (needle : List Char) : Except (List Char) Bool :=
  match v with
  | .str s => .ok (hasSub s needle)
  | .arr es => .ok (es.any (fun e => match e with | .str s => decide (s = needle) | _ => false))
  | _ => .error typeErrMsg

/-- `String.prototype.startsWith` as a method call. -/
def startsWithV (v : JsVal) (p : List Char) : Except (List Char) Bool :=
  match v with
  | .str s => .ok (startsWithL s p)
  | _ => .error typeErrMsg

mutual

/-- `String(v)` (array elements join with commas; `null`/`undefined`
elements render empty, as in `Array.prototype.join`). -/
def jsStringOf : JsVal → List Char
  | .str s => s
  | .num n => (toString n).data
  | .numF raw => raw
  | .bool true => "true".data
  | .bool false => "false".data
  | .null => "null".data
  | .undef => "undefined".data
  | .arr es => jsStringOfList es
  | .obj _ => "[object Object]".data

def jsStringOfList : List JsVal → List Char
  | [] => []
  | v :: rest =>
    let s := match v with
      | .null => []
      | .undef => []
      | v => jsStringOf v
    match rest with
    | [] => s
    | _ => s ++ ',' :: jsStringOfList rest

end

/-- `Number(v) || 0`: numeric coercion with the falsy results (`0`, `NaN`)
collapsed to `0`.  String conversion covers the JSON-number syntax after
trimming (the source never feeds it hex or signed-plus forms). -/
def jsNumberOr0 (v : JsVal) : JsVal :=
  match v with
  | .num n => .num n
  | .numF raw => .numF raw
  | .bool b => .num (if b then 1 else 0)
  | .null => .num 0
  | .undef => .num 0
  | .str s =>
    let t := jsTrim s
    if t.isEmpty then .num 0
    else
      match JP.parseNum t with
      | some (v2, []) => v2
      | _ => .num 0
  | .arr _ => .num 0
  | .obj _ => .num 0

/-- The relaxed code-field check (lines 519–523), with JavaScript
short-circuit evaluation order. -/
def relaxedCheck (parsed : JsVal) : Except (List Char) Unit := do
  let pdfv ← jsGetField parsed pdfKey
  let b1 ← includesV pdfv funcLit
  if b1 then return ()
  let exv ← jsGetField parsed excelKey
  let b2 ← includesV exv funcLit
  if b2 then return ()
  let s1 ← startsWithV pdfv slashesLit
  if !s1 then return ()
  let s2 ← startsWithV exv slashesLit
  if s2 then throw incompleteMsg
  return ()

/-- The summary-field sanitizing block (lines 526–536).  The in-place
mutations of `parsed.summary.detectedTables` are modelled as a path update
(parsed values are trees, so there is no aliasing to observe). -/
def sanitizeSummary (parsed : JsVal) : Except (List Char) JsVal := do
  let sumv ← jsGetField parsed summaryKey
  let dtv : JsVal ←
    match sumv with
    | .undef => pure .undef
    | .null => pure .undef
    | _ => jsGetField sumv dtKey
  if dtv.truthy then do
    let dims ← jsGetField dtv dimsKey
    let dtv1 ←
      if !dims.isArr then
        jsSetField dtv dimsKey
          (if dims.truthy then .arr [.str (jsStringOf dims)] else .arr [])
      else pure dtv
    let cnt ← jsGetField dtv1 countKey
    let dtv2 ←
      if !cnt.isNum then jsSetField dtv1 countKey (jsNumberOr0 cnt) else pure dtv1
    pure (parsed.setF summaryKey (sumv.setF dtKey dtv2))
  else if sumv.truthy then do
    let sumv1 ← jsSetField sumv dtKey defaultDT
    pure (parsed.setF summaryKey sumv1)
  else pure parsed

/-- The final `extractedData` safety default (lines 539–541). -/
def finalizeData (parsed : JsVal) : Except (List Char) JsVal := do
  let ed ← jsGetField parsed dataKey
  match ed with
  | .undef => jsSetField parsed dataKey (.arr [])
  | .null => jsSetField parsed dataKey (.arr [])
  | _ => pure parsed

/-- The post-parse validation of `analyzeDocument` (lines 519–541). -/
def validateParsed (parsed : JsVal) : Except (List Char) JsVal := do
  relaxedCheck parsed
  let p1 ← sanitizeSummary parsed
  finalizeData p1

end DG.GS

namespace DG

/-- The error-translating catch of `analyzeDocument` (lines 546–555). -/
def errTransform : Except (List Char) JsVal → Except (List Char) JsVal
  | .ok v => .ok v
  | .error m =>
    if hasSub m msg400 || hasSub m msgInvalidArg then
      if hasSub m msgTokenCount then .error tooLargeMsg else .error err400Msg
    else .error m

/-- The response-parsing segment of `analyzeDocument` (lines 508–544) as a
function of the response text: the empty-response diagnostic, then
`parseRobustJson` and the validation block, under the outer catch. -/
def analyzeParse (responseText : List Char) : Except (List Char) JsVal :=
  errTransform
    (if responseText.isEmpty then .error emptyMsg
     else
       match GS.parseRobustJson responseText with
       | .error m => .error m
       | .ok parsed => GS.validateParsed parsed)

end DG

namespace DG.P04

/-! ## `src/unnamed/part_004` -/

/-- The fence-stripping step of its `cleanJson` (lines 88–90); unlike the
`geminiService` variant both leading checks are independent `if`s. -/
def fenceStrip04 (c0 : List Char) : List Char :=
  let c1 := if startsWithL c0 fenceJsonLit then c0.drop 7 else c0
  let c2 := if startsWithL c1 fenceLit then c1.drop 3 else c1
  if endsWithL c2 fenceLit then c2.take (c2.length - 3) else c2

/-- Its `cleanJson` (lines 84–106): trim, strip fences, cut to the outermost
brace span, fix doubled double-quotes, trim. -/
def cleanJson (text : List Char) : List Char :=
  jsTrim (replaceScan qqPat (GS.braceCut (fenceStrip04 (jsTrim text))))

/-- The truncation-repair step of its `parseRobustJson` (lines 120–133):
global bracket counting over the cleaned text, appending the deficit of
closers, braces first and then square brackets. -/
def repairStep (text : List Char) : List Char :=
  let repaired := cleanJson text
  let ob := countCh '{' repaired
  let cb := countCh '}' repaired
  let os := countCh '[' repaired
  let cq := countCh ']' repaired
  let r1 := if cb < ob then repaired ++ repC (ob - cb) '}' else repaired
  if cq < os then r1 ++ repC (os - cq) ']' else r1

/-- Its `parseRobustJson` (lines 109–142). -/
def parseRobustJson (text : List Char) : Except (List Char) JsVal :=
  match jsonParse (cleanJson text) with
  | some v => .ok v
  | none =>
    match jsonParse (repairStep text) with
    | some v => .ok v
    | none => .error msg04

end DG.P04

namespace DG.PB

/-! ## `src/unnamed/part_001`: the balanced-block scanner -/

/-- The scanner state (`openBraces`, `foundStart`, `inString`, `inComment`);
`inComment = some false` is a line comment, `some true` a block comment. -/
structure BState where
  openBraces : Int
  foundStart : Bool
  inString : Option Char
  inComment : Option Bool
deriving DecidableEq

def initState : BState := ⟨0, false, none, none⟩

/-- The loop's success condition (`foundStart && openBraces === 0`). -/
def stopCond (st : BState) : Bool := st.foundStart && st.openBraces == 0

/-- The string step of the loop (guarded by not-in-comment). -/
def stringStep (st : BState) (c : Char) : BState :=
  if st.inComment.isNone then
    match st.inString with
    | some q => if c == q then { st with inString := none } else st
    | none =>
      if c == '"' || c == sq || c == bt then { st with inString := some c } else st
  else st

/-- The comment step (guarded by the updated not-in-string); the flag says
whether the lookahead character was consumed too (`i++`). -/
def commentStep (st1 : BState) (c : Char) (next : Option Char) : BState × Bool :=
  if st1.inString.isNone then
    match st1.inComment with
    | some false => (if c == '\n' then { st1 with inComment := none } else st1, false)
    | some true =>
      if c == '*' && next == some '/' then ({ st1 with inComment := none }, true)
      else (st1, false)
    | none =>
      if c == '/' && next == some '/' then ({ st1 with inComment := some false }, true)
      else if c == '/' && next == some '*' then ({ st1 with inComment := some true }, true)
      else (st1, false)
  else (st1, false)

/-- The brace step (only outside strings and comments). -/
def braceStep (st2 : BState) (c : Char) : BState :=
  if st2.inString.isNone && st2.inComment.isNone then
    if c == '{' then { st2 with foundStart := true, openBraces := st2.openBraces + 1 }
    else if c == '}' then { st2 with openBraces := st2.openBraces - 1 }
    else st2
  else st2

/-- One loop iteration of `extractBalancedBlock` (lines 32–83) on the current
character `c` with lookahead `next` (`source[i+1] || ` the empty string). -/
def stepChar (st : BState) (c : Char) (next : Option Char) : BState × Bool :=
  match commentStep (stringStep st c) c next with
  | (st2, extra) => (braceStep st2 c, extra)

/-- The scan loop: the number of characters consumed up to and including the
terminating character, or `none` if the input ends first.  The escape branch
(`inString && char === '\\'`) skips the next character and `continue`s,
bypassing the termination check of that iteration.  The fuel (one unit per
iteration) is for structural recursion; `input.length` always suffices since
every iteration consumes at least one character. -/
def scanAux (st : BState) : Nat → List Char → Option Nat
  | _, [] => none
  | 0, _ :: _ => none
  | fuel + 1, c :: t =>
    if st.inString.isSome && c == '\\' then
      match t with
      | [] => none
      | _ :: t2 => (scanAux st fuel t2).map (· + 2)
    else
      let (st3, extra) := stepChar st c t.head?
      let k := if extra then 2 else 1
      if stopCond st3 then some k
      else (scanAux st3 fuel (if extra then t.drop 1 else t)).map (· + k)

/-- `extractBalancedBlock` (lines 26–86): `source.substring(startIdx, i + 1)`
on success, `null` otherwise. -/
def extractBalancedBlock (source : List Char) (startIdx : Nat) : Option (List Char) :=
  match scanAux initState (source.drop startIdx).length (source.drop startIdx) with
  | some n => some ((source.drop startIdx).take n)
  | none => none

/-- The quote/zero-width normalization opening `cleanAndRun` in the preview
executor (lines 106–108): remove zero-width characters, then map curly
quotes to straight ones. -/
def previewNormalize (code : List Char) : List Char :=
  (removeZW code).map (fun c =>
    if c == Char.ofNat 0x2018 || c == Char.ofNat 0x2019 then sq
    else if c == Char.ofNat 0x201C || c == Char.ofNat 0x201D then '"'
    else c)

end DG.PB

namespace DG

/-! ## Bridge lemmas for the string operations -/

theorem startsWithL_iff : ∀ (p l : List Char), startsWithL l p = true ↔ ∃ t, l = p ++ t := by
  intro p
  induction p with
  | nil =>
    intro l
    simp [startsWithL]
  | cons x xs ih =>
    intro l
    cases l with
    | nil => simp [startsWithL]
    | cons c t =>
      simp only [startsWithL, Bool.and_eq_true, beq_iff_eq, ih, List.cons_append,
        List.cons.injEq]
      constructor
      · rintro ⟨rfl, u, rfl⟩
        exact ⟨u, rfl, rfl⟩
      · rintro ⟨u, rfl, rfl⟩
        exact ⟨rfl, u, rfl⟩

theorem startsWithL_false_of_head {c p : Char} {t ps : List Char} (h : c ≠ p) :
    startsWithL (c :: t) (p :: ps) = false := by
  simp [startsWithL, h]

theorem startsWithCI_exists : ∀ (p l : List Char), startsWithCI l p = true →
    ∃ q t, l = q ++ t ∧ q.length = p.length := by
  intro p
  induction p with
  | nil =>
    intro l _
    exact ⟨[], l, rfl, rfl⟩
  | cons x xs ih =>
    intro l h
    cases l with
    | nil => simp [startsWithCI] at h
    | cons c t =>
      simp only [startsWithCI, Bool.and_eq_true] at h
      obtain ⟨q, u, rfl, hlen⟩ := ih t h.2
      exact ⟨c :: q, u, rfl, by simp [hlen]⟩


/-- Any occurrence (some suffix of `l` starts with `p`) makes `hasSub` true. -/
theorem hasSub_of_drop : ∀ (l : List Char) (i : Nat) (p : List Char),
    startsWithL (l.drop i) p = true → hasSub l p = true := by
  intro l
  induction l with
  | nil =>
    intro i p h
    simp only [List.drop_nil] at h
    cases p with
    | nil => simp [hasSub]
    | cons x xs => simp [startsWithL] at h
  | cons c t ih =>
    intro i p h
    cases i with
    | zero =>
      rw [hasSub]
      simp only [List.drop_zero] at h
      simp [h]
    | succ j =>
      rw [hasSub]
      have := ih j p (by simpa using h)
      simp [this]

/-- Any case-insensitive occurrence makes `hasSubCI` true. -/
theorem hasSubCI_of_drop : ∀ (l : List Char) (i : Nat) (p : List Char),
    startsWithCI (l.drop i) p = true → hasSubCI l p = true := by
  intro l
  induction l with
  | nil =>
    intro i p h
    simp only [List.drop_nil] at h
    cases p with
    | nil => simp [hasSubCI]
    | cons x xs => simp [startsWithCI] at h
  | cons c t ih =>
    intro i p h
    cases i with
    | zero =>
      rw [hasSubCI]
      simp only [List.drop_zero] at h
      simp [h]
    | succ j =>
      rw [hasSubCI]
      have := ih j p (by simpa using h)
      simp [this]

theorem findFirstAux_some : ∀ (l : List Char) (m : List Char → Option Nat) (i0 i n : Nat),
    findFirstAux m l i0 = some (i, n) →
    i0 ≤ i ∧ m (l.drop (i - i0)) = some n ∧ ∀ j, i0 ≤ j → j < i → m (l.drop (j - i0)) = none := by
  intro l
  induction l with
  | nil =>
    intro m i0 i n h
    rw [findFirstAux] at h
    cases hm : m [] with
    | none => simp [hm] at h
    | some k =>
      rw [hm] at h
      simp only [Option.some.injEq, Prod.mk.injEq] at h
      obtain ⟨rfl, rfl⟩ := h
      exact ⟨le_refl _, by simpa using hm, fun j hj1 hj2 => absurd hj1 (by omega)⟩
  | cons c t ih =>
    intro m i0 i n h
    rw [findFirstAux] at h
    cases hm : m (c :: t) with
    | some k =>
      rw [hm] at h
      simp only [Option.some.injEq, Prod.mk.injEq] at h
      obtain ⟨rfl, rfl⟩ := h
      exact ⟨le_refl _, by simpa using hm, fun j hj1 hj2 => absurd hj1 (by omega)⟩
    | none =>
      rw [hm] at h
      obtain ⟨h1, h2, h3⟩ := ih m (i0 + 1) i n h
      refine ⟨by omega, ?_, ?_⟩
      · have he : i - i0 = (i - (i0 + 1)) + 1 := by omega
        rw [he]
        simpa using h2
      · intro j hj1 hj2
        rcases Nat.eq_or_lt_of_le hj1 with rfl | hlt
        · simpa using hm
        · have he : j - i0 = (j - (i0 + 1)) + 1 := by omega
          rw [he]
          simpa using h3 j hlt hj2

/-- `findFirst` is the leftmost match: the matcher succeeds at the returned
index and at no earlier one. -/
theorem findFirst_leftmost (m : List Char → Option Nat) (l : List Char) (i n : Nat)
    (h : findFirst m l = some (i, n)) :
    m (l.drop i) = some n ∧ ∀ j, j < i → m (l.drop j) = none := by
  obtain ⟨_, h2, h3⟩ := findFirstAux_some l m 0 i n h
  exact ⟨by simpa using h2, fun j hj => by simpa using h3 j (Nat.zero_le j) hj⟩

theorem findFirstAux_none : ∀ (l : List Char) (m : List Char → Option Nat) (i0 : Nat),
    findFirstAux m l i0 = none → ∀ j, m (l.drop j) = none := by
  intro l
  induction l with
  | nil =>
    intro m i0 h j
    rw [findFirstAux] at h
    cases hm : m [] with
    | none => simpa using hm
    | some k => simp [hm] at h
  | cons c t ih =>
    intro m i0 h j
    rw [findFirstAux] at h
    cases hm : m (c :: t) with
    | some k => simp [hm] at h
    | none =>
      rw [hm] at h
      cases j with
      | zero => simpa using hm
      | succ j2 => simpa using ih m (i0 + 1) h j2

/-- Contrapositive form: if the matcher succeeds at some offset, `findFirst`
cannot be `none`. -/
theorem findFirst_none (m : List Char → Option Nat) (l : List Char)
    (h : findFirst m l = none) : ∀ j, m (l.drop j) = none := by
  cases hf : findFirst m l with
  | some p =>
    rw [hf] at h
    cases h
  | none => exact findFirstAux_none l m 0 hf

/-! ## Marker lemmas: a pattern match implies the key occurs in the text -/

theorem startPat_has_key {key l : List Char} {n : Nat} (h : startPat key l = some n) :
    ∃ i, startsWithCI (l.drop i) key = true := by
  cases l with
  | nil => simp [startPat] at h
  | cons q1 r1 =>
    by_cases hs : startsWithCI r1 key = true
    · exact ⟨1, by simpa using hs⟩
    · exfalso
      rw [startPat] at h
      rw [if_neg (by simp [hs])] at h
      cases h

theorem litCI_some {lit l r : List Char} (h : litCI lit l = some r) :
    startsWithCI l lit = true ∧ r = l.drop lit.length := by
  rw [litCI] at h
  split at h
  · next hsw =>
    injection h with h2
    exact ⟨hsw, h2.symm⟩
  · cases h

theorem funcPatA_has_name {name l : List Char} {n : Nat} (h : funcPatA name l = some n) :
    ∃ i, startsWithCI (l.drop i) name = true := by
  rw [funcPatA] at h
  cases ha : litCI asyncLit l with
  | none =>
    rw [ha] at h
    cases h
  | some r1 =>
    rw [ha] at h
    obtain ⟨_, rfl⟩ := litCI_some ha
    simp only at h
    split at h
    · cases h
    · cases hf : litCI functionLit ((l.drop asyncLit.length).drop
        ((l.drop asyncLit.length).takeWhile isWsBig).length) with
      | none =>
        rw [hf] at h
        cases h
      | some r2 =>
        rw [hf] at h
        obtain ⟨_, rfl⟩ := litCI_some hf
        simp only at h
        split at h
        · cases h
        · set base := ((l.drop asyncLit.length).drop
            ((l.drop asyncLit.length).takeWhile isWsBig).length).drop functionLit.length with hbase
          cases hn : litCI name (base.drop (base.takeWhile isWsBig).length) with
          | none =>
            rw [hn] at h
            cases h
          | some r3 =>
            obtain ⟨hsw, _⟩ := litCI_some hn
            refine ⟨asyncLit.length + (((l.drop asyncLit.length).takeWhile isWsBig).length +
              (functionLit.length + (base.takeWhile isWsBig).length)), ?_⟩
            simpa [← List.drop_drop] using hsw

theorem funcPatB_has_name {name l : List Char} {n : Nat} (h : funcPatB name l = some n) :
    ∃ i, startsWithCI (l.drop i) name = true := by
  rw [funcPatB] at h
  cases hc : litCI constLit l with
  | none =>
    rw [hc] at h
    cases h
  | some r1 =>
    rw [hc] at h
    obtain ⟨_, rfl⟩ := litCI_some hc
    simp only at h
    split at h
    · cases h
    · cases hn : litCI name ((l.drop constLit.length).drop
        ((l.drop constLit.length).takeWhile isWsBig).length) with
      | none =>
        rw [hn] at h
        cases h
      | some r2 =>
        obtain ⟨hsw, _⟩ := litCI_some hn
        refine ⟨constLit.length + ((l.drop constLit.length).takeWhile isWsBig).length, ?_⟩
        simpa [← List.drop_drop] using hsw

theorem funcPat_has_name {name l : List Char} {n : Nat} (h : funcPat name l = some n) :
    ∃ i, startsWithCI (l.drop i) name = true := by
  rw [funcPat] at h
  cases ha : funcPatA name l with
  | some k =>
    exact funcPatA_has_name ha
  | none =>
    rw [ha] at h
    exact funcPatB_has_name h

/-! ## Index and trim lemmas -/

theorem indexOfChar_some : ∀ (l : List Char) (x : Char) (i : Nat),
    indexOfChar l x = some i → ∃ a b, l = a ++ x :: b ∧ a.length = i ∧ x ∉ a := by
  intro l
  induction l with
  | nil =>
    intro x i h
    simp [indexOfChar] at h
  | cons c t ih =>
    intro x i h
    rw [indexOfChar] at h
    by_cases hc : c == x
    · rw [if_pos hc] at h
      injection h with h2
      subst h2
      exact ⟨[], t, by simp [(beq_iff_eq ..).mp hc], rfl, by simp⟩
    · rw [if_neg hc] at h
      cases hi : indexOfChar t x with
      | none => rw [hi] at h; cases h
      | some j =>
        rw [hi] at h
        injection h with h2
        obtain ⟨a, b, rfl, rfl, hna⟩ := ih x j hi
        refine ⟨c :: a, b, rfl, by simp [← h2], ?_⟩
        intro hmem
        rcases List.mem_cons.mp hmem with rfl | hmem2
        · exact hc (beq_iff_eq .. |>.mpr rfl)
        · exact hna hmem2

theorem indexOfChar_isSome_of_mem {l : List Char} {x : Char} (h : x ∈ l) :
    (indexOfChar l x).isSome = true := by
  induction l with
  | nil => cases h
  | cons c t ih =>
    rw [indexOfChar]
    by_cases hc : c == x
    · simp [hc]
    · rcases List.mem_cons.mp h with rfl | hm
      · exact absurd (beq_iff_eq .. |>.mpr rfl) hc
      · rw [if_neg hc]
        cases hi : indexOfChar t x with
        | none => rw [hi] at ih; simpa using ih hm
        | some j => simp

theorem lastIndexOfChar_some {l : List Char} {x : Char} {i : Nat}
    (h : lastIndexOfChar l x = some i) :
    ∃ a b, l = a ++ x :: b ∧ a.length = i ∧ x ∉ b := by
  rw [lastIndexOfChar] at h
  cases hr : indexOfChar l.reverse x with
  | none => rw [hr] at h; cases h
  | some j =>
    rw [hr] at h
    have h2 : l.length - 1 - j = i := by simpa using h
    obtain ⟨a, b, hrev, hlen, hna⟩ := indexOfChar_some l.reverse x j hr
    have hl : l = b.reverse ++ x :: a.reverse := by
      have := congrArg List.reverse hrev
      simpa [List.reverse_append] using this
    refine ⟨b.reverse, a.reverse, hl, ?_, by simpa using hna⟩
    have hlen2 : l.length = a.length + 1 + b.length := by
      have := congrArg List.length hrev
      simp at this
      omega
    simp only [List.length_reverse]
    omega

theorem lastIndexOfChar_isSome_of_mem {l : List Char} {x : Char} (h : x ∈ l) :
    (lastIndexOfChar l x).isSome = true := by
  rw [lastIndexOfChar]
  have hm : x ∈ l.reverse := by simpa using h
  cases hi : indexOfChar l.reverse x with
  | none =>
    have := indexOfChar_isSome_of_mem hm
    rw [hi] at this
    cases this
  | some j => simp

/-- A character of the trimmed string is a character of the string. -/
theorem mem_jsTrim {c : Char} {l : List Char} (h : c ∈ jsTrim l) : c ∈ l := by
  rw [jsTrim] at h
  have h1 : c ∈ (l.dropWhile isWsBig).reverse.dropWhile isWsBig := by simpa using h
  have h2 := (List.dropWhile_sublist isWsBig).mem h1
  have h3 : c ∈ l.dropWhile isWsBig := by simpa using h2
  exact (List.dropWhile_sublist isWsBig).mem h3

/-- An input with an opening brace somewhere before a closing brace. -/
def hasBracePair (y : List Char) : Prop := ∃ u m v, y = u ++ '{' :: (m ++ '}' :: v)

theorem hasBracePair_reassoc {u m v : List Char} :
    u ++ '{' :: (m ++ '}' :: v) = (u ++ '{' :: m) ++ '}' :: v := by simp

theorem hasBracePair_take {y : List Char} {n : Nat} (h : hasBracePair y)
    (hno : '}' ∉ y.drop n) : hasBracePair (y.take n) := by
  obtain ⟨u, m, v, rfl⟩ := h
  rw [hasBracePair_reassoc] at hno ⊢
  set e := u ++ '{' :: m with he
  by_cases hn : e.length < n
  · refine ⟨u, m, v.take (n - (e.length + 1)), ?_⟩
    have hsplit : (e ++ '}' :: v).take n = (e ++ ['}']) ++ v.take (n - (e.length + 1)) := by
      have h1 : e ++ '}' :: v = (e ++ ['}']) ++ v := by simp
      have h2 : n = (e ++ ['}']).length + (n - (e.length + 1)) := by
        simp
        omega
      rw [h1]
      conv_lhs => rw [h2]
      rw [List.take_append]
    rw [hsplit]
    simp [he]
  · exfalso
    apply hno
    have hget : ((e ++ '}' :: v).drop n)[e.length - n]? = some '}' := by
      rw [List.getElem?_drop]
      have harith : n + (e.length - n) = e.length := by omega
      rw [harith, List.getElem?_append_right (le_refl _)]
      simp
    exact List.getElem?_mem hget

theorem hasBracePair_drop {y : List Char} {n : Nat} (h : hasBracePair y)
    (hno : '{' ∉ y.take n) : hasBracePair (y.drop n) := by
  obtain ⟨u, m, v, rfl⟩ := h
  by_cases hn : n ≤ u.length
  · refine ⟨u.drop n, m, v, ?_⟩
    rw [List.drop_append_of_le_length hn]
  · exfalso
    apply hno
    have hget : ((u ++ '{' :: (m ++ '}' :: v)).take n)[u.length]? = some '{' := by
      rw [List.getElem?_take, if_pos (by omega), List.getElem?_append_right (le_refl _)]
      simp
    exact List.getElem?_mem hget

theorem hasBracePair_dropWhile (p : Char → Bool) (hp : p '{' = false) {y : List Char}
    (h : hasBracePair y) : hasBracePair (y.dropWhile p) := by
  obtain ⟨u, m, v, rfl⟩ := h
  rw [List.dropWhile_append]
  split
  · rw [List.dropWhile_cons, if_neg (by simp [hp])]
    exact ⟨[], m, v, rfl⟩
  · exact ⟨List.dropWhile p u, m, v, rfl⟩

/-- The mirrored pair shape used for the trailing trim. -/
theorem hasRev_of_pair {y : List Char} (h : hasBracePair y) :
    ∃ a m b, y.reverse = a ++ '}' :: (m ++ '{' :: b) := by
  obtain ⟨u, m, v, rfl⟩ := h
  exact ⟨v.reverse, m.reverse, u.reverse, by simp⟩

theorem hasPair_of_rev {z : List Char} (h : ∃ a m b, z = a ++ '}' :: (m ++ '{' :: b)) :
    hasBracePair z.reverse := by
  obtain ⟨a, m, b, rfl⟩ := h
  exact ⟨b.reverse, m.reverse, a.reverse, by simp⟩

theorem hasRev_dropWhile (p : Char → Bool) (hp : p '}' = false) {z : List Char}
    (h : ∃ a m b, z = a ++ '}' :: (m ++ '{' :: b)) :
    ∃ a m b, z.dropWhile p = a ++ '}' :: (m ++ '{' :: b) := by
  obtain ⟨a, m, b, rfl⟩ := h
  rw [List.dropWhile_append]
  split
  · rw [List.dropWhile_cons, if_neg (by simp [hp])]
    exact ⟨[], m, b, rfl⟩
  · exact ⟨List.dropWhile p a, m, b, rfl⟩

theorem hasBracePair_jsTrim {y : List Char} (h : hasBracePair y) :
    hasBracePair (jsTrim y) := by
  rw [jsTrim]
  exact hasPair_of_rev (hasRev_dropWhile isWsBig (by decide)
    (hasRev_of_pair (hasBracePair_dropWhile isWsBig (by decide) h)))

/-- `endsWith` a code fence forces a trailing backtick. -/
theorem endsWith_fence_last {l : List Char} (h : endsWithL l fenceLit = true) :
    l.getLast? = some bt := by
  rw [endsWithL] at h
  split at h
  · next hlen =>
    obtain ⟨t, ht⟩ := (startsWithL_iff fenceLit (l.drop (l.length - fenceLit.length))).mp h
    have hlt : t = [] := by
      have hlen3 : (l.drop (l.length - fenceLit.length)).length = fenceLit.length + t.length := by
        rw [ht]
        simp
      rw [List.length_drop] at hlen3
      have h4 : fenceLit.length ≤ l.length := by assumption
      have h5 : t.length = 0 := by omega
      exact List.length_eq_zero.mp h5
    subst hlt
    rw [List.append_nil] at ht
    have hsplit := List.take_append_drop (l.length - fenceLit.length) l
    have : l.getLast? = (l.drop (l.length - fenceLit.length)).getLast? := by
      conv_lhs => rw [← hsplit]
      rw [List.getLast?_append]
      rw [ht]
      rfl
    rw [this, ht]
    rfl
  · cases h

/-- The outermost-brace extraction step maps any brace-paired text to a
braced block. -/
theorem braceSpanStep {y : List Char} (h : hasBracePair y) {fb lb : Nat}
    (hfb : indexOfChar y '{' = some fb) (hlb : lastIndexOfChar y '}' = some lb) :
    ∃ w, jsSubstring y fb (lb + 1) = '{' :: (w ++ ['}']) := by
  obtain ⟨u, m, v, hy⟩ := h
  obtain ⟨a1, b1, hy1, hlen1, hna1⟩ := indexOfChar_some y '{' fb hfb
  obtain ⟨a2, b2, hy2, hlen2, hnb2⟩ := lastIndexOfChar_some hlb
  have hyfb : y[fb]? = some '{' := by
    rw [hy1, ← hlen1, List.getElem?_append_right (le_refl _)]
    simp
  have hylb : y[lb]? = some '}' := by
    rw [hy2, ← hlen2, List.getElem?_append_right (le_refl _)]
    simp
  -- fb is at most the position of the hypothesis '{'
  have hfb_le : fb ≤ u.length := by
    by_contra hgt
    apply hna1
    have hget : y[u.length]? = some '{' := by
      rw [hy, List.getElem?_append_right (le_refl _)]
      simp
    have : a1[u.length]? = some '{' := by
      rw [hy1] at hget
      rwa [List.getElem?_append, if_pos (by omega)] at hget
    exact List.getElem?_mem this
  -- lb is at least the position of the hypothesis '}'
  have hlb_ge : u.length + m.length + 1 ≤ lb := by
    by_contra hlt
    apply hnb2
    have hlen4 : (u ++ '{' :: m).length = u.length + m.length + 1 := by
      simp only [List.length_append, List.length_cons]
      omega
    have hget : y[u.length + m.length + 1]? = some '}' := by
      rw [hy, hasBracePair_reassoc, List.getElem?_append_right (by omega)]
      rw [hlen4]
      simp
    rw [hy2] at hget
    rw [List.getElem?_append_right (by omega)] at hget
    have harith : u.length + m.length + 1 - a2.length = (u.length + m.length - a2.length) + 1 := by
      omega
    rw [harith] at hget
    simp only [List.getElem?_cons_succ] at hget
    exact List.getElem?_mem hget
  have hfb_lt : fb < lb := by omega
  have hlb_lt : lb < y.length := by
    have h5 := congrArg List.length hy2
    simp only [List.length_append, List.length_cons] at h5
    omega
  -- the substring
  have hsub : jsSubstring y fb (lb + 1) = (y.take (lb + 1)).drop fb := by
    have hm1 : min fb y.length = fb := min_eq_left (by omega)
    have hm2 : min (lb + 1) y.length = lb + 1 := min_eq_left (by omega)
    rw [jsSubstring]
    simp only [hm1, hm2]
    rw [if_pos (by omega)]
  have htake : y.take (lb + 1) = a2 ++ ['}'] := by
    rw [hy2]
    have h1 : a2 ++ '}' :: b2 = (a2 ++ ['}']) ++ b2 := by simp
    have h2 : lb + 1 = (a2 ++ ['}']).length + 0 := by simp [hlen2]
    rw [h1, h2, List.take_append]
    simp
  have hdrop : (a2 ++ ['}']).drop fb = a2.drop fb ++ ['}'] :=
    List.drop_append_of_le_length (by omega)
  have hhead : (a2.drop fb)[0]? = some '{' := by
    rw [List.getElem?_drop]
    have h6 : a2[fb + 0]? = y[fb]? := by
      rw [hy2, List.getElem?_append, if_pos (by omega)]
      simp
    rw [h6, hyfb]
  cases hd : a2.drop fb with
  | nil =>
    rw [hd] at hhead
    cases hhead
  | cons c w0 =>
    rw [hd] at hhead
    simp only [List.getElem?_cons_zero, Option.some.injEq] at hhead
    subst hhead
    exact ⟨w0, by rw [hsub, htake, hdrop, hd]; simp⟩

/-! ## The sanitizer on brace-paired input -/

theorem take_fence_of_startsWith {c0 : List Char} (h : startsWithL c0 fenceJsonLit = true) :
    c0.take 7 = fenceJsonLit := by
  obtain ⟨t, rfl⟩ := (startsWithL_iff fenceJsonLit c0).mp h
  have h7 : (7 : Nat) = fenceJsonLit.length + 0 := by decide
  rw [h7, List.take_append]
  simp

theorem take_fence3_of_startsWith {c0 : List Char} (h : startsWithL c0 fenceLit = true) :
    c0.take 3 = fenceLit := by
  obtain ⟨t, rfl⟩ := (startsWithL_iff fenceLit c0).mp h
  have h3 : (3 : Nat) = fenceLit.length + 0 := by decide
  rw [h3, List.take_append]
  simp

theorem endsWith_fence_drop {l : List Char} (h : endsWithL l fenceLit = true) :
    l.drop (l.length - 3) = fenceLit := by
  rw [endsWithL] at h
  split at h
  · next hlen =>
    obtain ⟨t, ht⟩ := (startsWithL_iff fenceLit (l.drop (l.length - fenceLit.length))).mp h
    have hlen3 : (l.drop (l.length - fenceLit.length)).length = fenceLit.length + t.length := by
      rw [ht]
      simp
    rw [List.length_drop] at hlen3
    have h4 : fenceLit.length = 3 := by decide
    have h5 : t = [] := by
      have h6 : t.length = 0 := by omega
      exact List.length_eq_zero.mp h6
    subst h5
    rw [List.append_nil] at ht
    rw [← h4]
    exact ht
  · cases h

theorem fenceStrip_pair {c0 : List Char} (h : hasBracePair c0) :
    hasBracePair (GS.fenceStrip c0) := by
  rw [GS.fenceStrip]
  have hstep1 : hasBracePair
      (if startsWithL c0 fenceJsonLit then c0.drop 7
       else if startsWithL c0 fenceLit then c0.drop 3 else c0) := by
    by_cases h1 : startsWithL c0 fenceJsonLit = true
    · rw [if_pos h1]
      refine hasBracePair_drop h ?_
      rw [take_fence_of_startsWith h1]
      decide
    · rw [if_neg (by simpa using h1)]
      by_cases h2 : startsWithL c0 fenceLit = true
      · rw [if_pos h2]
        refine hasBracePair_drop h ?_
        rw [take_fence3_of_startsWith h2]
        decide
      · rw [if_neg (by simpa using h2)]
        exact h
  set c1 := if startsWithL c0 fenceJsonLit then c0.drop 7
    else if startsWithL c0 fenceLit then c0.drop 3 else c0 with hc1
  by_cases h3 : endsWithL c1 fenceLit = true
  · rw [if_pos h3]
    refine hasBracePair_take hstep1 ?_
    rw [endsWith_fence_drop h3]
    decide
  · rw [if_neg (by simpa using h3)]
    exact hstep1

theorem fenceStrip04_pair {c0 : List Char} (h : hasBracePair c0) :
    hasBracePair (P04.fenceStrip04 c0) := by
  rw [P04.fenceStrip04]
  have hstep1 : hasBracePair (if startsWithL c0 fenceJsonLit then c0.drop 7 else c0) := by
    by_cases h1 : startsWithL c0 fenceJsonLit = true
    · rw [if_pos h1]
      refine hasBracePair_drop h ?_
      rw [take_fence_of_startsWith h1]
      decide
    · rw [if_neg (by simpa using h1)]
      exact h
  set c1 := if startsWithL c0 fenceJsonLit then c0.drop 7 else c0 with hc1
  have hstep2 : hasBracePair (if startsWithL c1 fenceLit then c1.drop 3 else c1) := by
    by_cases h2 : startsWithL c1 fenceLit = true
    · rw [if_pos h2]
      refine hasBracePair_drop hstep1 ?_
      rw [take_fence3_of_startsWith h2]
      decide
    · rw [if_neg (by simpa using h2)]
      exact hstep1
  set c2 := if startsWithL c1 fenceLit then c1.drop 3 else c1 with hc2
  by_cases h3 : endsWithL c2 fenceLit = true
  · rw [if_pos h3]
    refine hasBracePair_take hstep2 ?_
    rw [endsWith_fence_drop h3]
    decide
  · rw [if_neg (by simpa using h3)]
    exact hstep2

theorem braceCut_shape {y : List Char} (h : hasBracePair y) :
    ∃ w, GS.braceCut y = '{' :: (w ++ ['}']) := by
  have hmo : '{' ∈ y := by
    obtain ⟨u, m, v, rfl⟩ := h
    simp
  have hmc : '}' ∈ y := by
    obtain ⟨u, m, v, rfl⟩ := h
    simp
  rw [GS.braceCut]
  cases hfb : indexOfChar y '{' with
  | none =>
    have := indexOfChar_isSome_of_mem hmo
    rw [hfb] at this
    cases this
  | some fb =>
    cases hlb : lastIndexOfChar y '}' with
    | none =>
      have := lastIndexOfChar_isSome_of_mem hmc
      rw [hlb] at this
      cases this
    | some lb => exact braceSpanStep h hfb hlb

theorem removeZW_braced (w : List Char) :
    removeZW ('{' :: (w ++ ['}'])) = '{' :: (removeZW w ++ ['}']) := by
  have ho : (fun c => !isZW c) '{' = true := by decide
  have hc : (fun c => !isZW c) '}' = true := by decide
  simp [removeZW, List.filter_cons, List.filter_append, ho, hc]

theorem jsTrim_braced (w : List Char) :
    jsTrim ('{' :: (w ++ ['}'])) = '{' :: (w ++ ['}']) := by
  rw [jsTrim]
  rw [List.dropWhile_cons, if_neg (by decide)]
  have hrev : ('{' :: (w ++ ['}'])).reverse = '}' :: (w.reverse ++ ['{']) := by simp
  rw [hrev, List.dropWhile_cons, if_neg (by decide)]
  simp

theorem indexOfChar_braced (t : List Char) : indexOfChar ('{' :: t) '{' = some 0 := by
  rw [indexOfChar]
  simp

theorem lastIndexOfChar_braced (w : List Char) :
    lastIndexOfChar ('{' :: (w ++ ['}'])) '}' = some (w.length + 1) := by
  have hrev : ('{' :: (w ++ ['}'])).reverse = '}' :: (w.reverse ++ ['{']) := by simp
  rw [lastIndexOfChar, hrev, indexOfChar]
  simp

theorem braceCut_braced (w : List Char) :
    GS.braceCut ('{' :: (w ++ ['}'])) = '{' :: (w ++ ['}']) := by
  rw [GS.braceCut, indexOfChar_braced, lastIndexOfChar_braced]
  simp only [jsSubstring]
  have hlen : ('{' :: (w ++ ['}'])).length = w.length + 2 := by simp
  simp only [hlen]
  have hm1 : min 0 (w.length + 2) = 0 := by omega
  have hm2 : min (w.length + 1 + 1) (w.length + 2) = w.length + 2 := by omega
  rw [hm1, hm2, if_pos (by omega)]
  rw [List.drop_zero]
  have : ('{' :: (w ++ ['}'])).take (w.length + 2) = '{' :: (w ++ ['}']) := by
    rw [← hlen, List.take_length]
  rw [← hlen] at this ⊢
  exact this

theorem startsWith_fenceJson_braced (t : List Char) :
    startsWithL ('{' :: t) fenceJsonLit = false := by
  have h : fenceJsonLit = bt :: "\x60\x60json".data := rfl
  rw [h]
  simp only [startsWithL]
  rw [show (('{' : Char) == bt) = false from by decide]
  simp

theorem startsWith_fence_braced (t : List Char) :
    startsWithL ('{' :: t) fenceLit = false := by
  have h : fenceLit = bt :: "\x60\x60".data := rfl
  rw [h]
  simp only [startsWithL]
  rw [show (('{' : Char) == bt) = false from by decide]
  simp

theorem endsWith_fence_braced (w : List Char) :
    endsWithL ('{' :: (w ++ ['}'])) fenceLit = false := by
  cases hE : endsWithL ('{' :: (w ++ ['}'])) fenceLit with
  | false => rfl
  | true =>
    exfalso
    have hlast := endsWith_fence_last hE
    have : ('{' :: (w ++ ['}'])).getLast? = some '}' := by
      rw [show '{' :: (w ++ ['}']) = ('{' :: w) ++ ['}'] from by simp]
      exact List.getLast?_concat _
    rw [this] at hlast
    injection hlast with h2
    exact absurd h2 (by decide)

theorem fenceStrip_braced (w : List Char) :
    GS.fenceStrip ('{' :: (w ++ ['}'])) = '{' :: (w ++ ['}']) := by
  rw [GS.fenceStrip]
  simp [startsWith_fenceJson_braced, startsWith_fence_braced, endsWith_fence_braced]

/-- On input that already is a braced block free of zero-width characters,
the sanitizer is the identity. -/
theorem cleanJson_braced_fix (w : List Char) (hzw : ∀ c ∈ w, isZW c = false) :
    GS.cleanJson ('{' :: (w ++ ['}'])) = '{' :: (w ++ ['}']) := by
  rw [GS.cleanJson, jsTrim_braced, fenceStrip_braced, braceCut_braced]
  have hrm : removeZW ('{' :: (w ++ ['}'])) = '{' :: (w ++ ['}']) := by
    rw [removeZW, List.filter_eq_self]
    intro a ha
    rcases List.mem_cons.mp ha with rfl | ha2
    · decide
    · rcases List.mem_append.mp ha2 with ha3 | ha4
      · simp [hzw a ha3]
      · rcases List.mem_singleton.mp ha4 with rfl
        decide
  rw [hrm, jsTrim_braced]

/-- The sanitizer maps any brace-paired input to a zero-width-free braced
block. -/
theorem cleanJson_shape {x : List Char} (h : hasBracePair x) :
    ∃ w, GS.cleanJson x = '{' :: (w ++ ['}']) ∧ ∀ c ∈ w, isZW c = false := by
  obtain ⟨w, hw⟩ := braceCut_shape (fenceStrip_pair (hasBracePair_jsTrim h))
  refine ⟨removeZW w, ?_, ?_⟩
  · rw [GS.cleanJson, hw, removeZW_braced, jsTrim_braced]
  · intro c hc
    have := List.mem_filter.mp hc
    simpa using this.2

/-! ## Trim idempotence and output characterization -/

theorem dropWhile_eq_dropLen (p : Char → Bool) :
    ∀ l : List Char, l.dropWhile p = l.drop (l.takeWhile p).length := by
  intro l
  induction l with
  | nil => rfl
  | cons c t ih =>
    rw [List.dropWhile_cons, List.takeWhile_cons]
    by_cases hc : p c = true
    · simp [hc, ih]
    · simp [hc]

theorem head?_dropWhile (p : Char → Bool) :
    ∀ (l : List Char) (c : Char), (l.dropWhile p).head? = some c → p c = false := by
  intro l
  induction l with
  | nil =>
    intro c h
    cases h
  | cons a t ih =>
    intro c h
    rw [List.dropWhile_cons] at h
    by_cases ha : p a = true
    · rw [if_pos ha] at h
      exact ih c h
    · rw [if_neg ha] at h
      injection h with h2
      subst h2
      simpa using ha

theorem jsTrim_head_not_ws {l : List Char} {c : Char} (h : (jsTrim l).head? = some c) :
    isWsBig c = false := by
  rw [jsTrim] at h
  set A := l.dropWhile isWsBig with hA
  rw [dropWhile_eq_dropLen isWsBig A.reverse] at h
  set k := (A.reverse.takeWhile isWsBig).length with hk
  rw [List.drop_reverse, List.reverse_reverse] at h
  rw [List.head?_take] at h
  split at h
  · cases h
  · exact head?_dropWhile isWsBig l c h

theorem jsTrim_last_not_ws {l : List Char} {c : Char} (h : (jsTrim l).getLast? = some c) :
    isWsBig c = false := by
  rw [jsTrim, List.getLast?_reverse] at h
  exact head?_dropWhile isWsBig _ c h

theorem jsTrim_eq_self {l : List Char} (h1 : ∀ c, l.head? = some c → isWsBig c = false)
    (h2 : ∀ c, l.getLast? = some c → isWsBig c = false) : jsTrim l = l := by
  rw [jsTrim]
  have hd : l.dropWhile isWsBig = l := by
    cases l with
    | nil => rfl
    | cons a t => rw [List.dropWhile_cons, if_neg (by simp [h1 a rfl])]
  rw [hd]
  have hd2 : l.reverse.dropWhile isWsBig = l.reverse := by
    cases hr : l.reverse with
    | nil => rfl
    | cons a t =>
      rw [List.dropWhile_cons, if_neg ?_]
      have ha : l.getLast? = some a := by
        rw [← List.head?_reverse, hr]
        rfl
      simp [h2 a ha]
  rw [hd2, List.reverse_reverse]

theorem jsTrim_idem (l : List Char) : jsTrim (jsTrim l) = jsTrim l := by
  apply jsTrim_eq_self
  · intro c h
    exact jsTrim_head_not_ws h
  · intro c h
    exact jsTrim_last_not_ws h

/-! ## Claim C7 — idempotence of the sanitizer -/

def c7x : List Char := "\x7d \x60\x60\x60json \x7b".data

/-- Claim C7, counterexample: `cleanJson` is *not* idempotent on every
string.  On `"} ```json {"` the brace cut (with JS `substring` swapping the
reversed indices) uncovers a fresh fence marker, which only the second
application strips: the first application yields `"```json"`, the second the
empty string. -/
theorem claim_C7_counterexample :
    GS.cleanJson c7x = "\x60\x60\x60json".data ∧
    GS.cleanJson (GS.cleanJson c7x) = [] ∧
    ("\x60\x60\x60json".data : List Char) ≠ [] := by
  refine ⟨by decide, by decide, by decide⟩

/-- Claim C7 (amended): the sanitizer `cleanJson` is idempotent on every
input in which an opening brace occurs before a closing brace — in
particular on any text containing a JSON object — because the first
application then produces a brace-delimited, zero-width-free block, which is
a fixed point of every stage. -/
theorem claim_C7_sanitizer_idempotent (x u m v : List Char)
    (hx : x = u ++ '{' :: (m ++ '}' :: v)) :
    GS.cleanJson (GS.cleanJson x) = GS.cleanJson x := by
  obtain ⟨w, hw, hzw⟩ := cleanJson_shape ⟨u, m, v, hx⟩
  rw [hw, cleanJson_braced_fix w hzw]

theorem claim_C7_witness :
    GS.cleanJson (GS.cleanJson ("x \x7b\"a\": 1\x7d y".data)) =
      GS.cleanJson ("x \x7b\"a\": 1\x7d y".data) :=
  claim_C7_sanitizer_idempotent ("x \x7b\"a\": 1\x7d y".data)
    ("x ".data) ("\"a\": 1".data) (" y".data) (by decide)

/-! ## Claim C9 — what the sanitizer does -/

/-- The four curly-quote code points. -/
def isCurlyQ (c : Char) : Bool :=
  c == Char.ofNat 0x2018 || c == Char.ofNat 0x2019 ||
  c == Char.ofNat 0x201C || c == Char.ofNat 0x201D

def c9x : List Char := [Char.ofNat 0x201C, 'h', 'i', Char.ofNat 0x201D]

/-- Claim C9, counterexample: the parse-pipeline sanitizer `cleanJson` does
*not* map curly quotes to straight quotes — curly-quoted input passes
through unchanged. -/
theorem claim_C9_counterexample :
    GS.cleanJson c9x = c9x ∧ Char.ofNat 0x201C ∈ GS.cleanJson c9x := by
  refine ⟨by decide, by decide⟩

/-- Claim C9 (amended): the parse-pipeline sanitizer `cleanJson` is a total
function that removes every zero-width/byte-order-mark character, returns
trimmed output, and strips a leading language-tagged code fence and a
trailing bare fence (concrete instance); the curly-quote mapping is
performed not by it but by the preview executor's normalization
(`previewNormalize`), whose output never contains a curly quote. -/
theorem claim_C9_sanitizer :
    (∀ x c, c ∈ GS.cleanJson x → isZW c = false) ∧
    (∀ x, jsTrim (GS.cleanJson x) = GS.cleanJson x) ∧
    (∀ x c, c ∈ PB.previewNormalize x → isCurlyQ c = false) ∧
    GS.cleanJson ("\x60\x60\x60json\n\x7b\"a\": 1\x7d\n\x60\x60\x60".data) =
      "\x7b\"a\": 1\x7d".data := by
  refine ⟨?_, ?_, ?_, by decide⟩
  · intro x c hc
    rw [GS.cleanJson] at hc
    have h1 := mem_jsTrim hc
    have h2 := List.mem_filter.mp h1
    simpa using h2.2
  · intro x
    rw [GS.cleanJson]
    exact jsTrim_idem _
  · intro x c hc
    rw [PB.previewNormalize] at hc
    obtain ⟨a, _, rfl⟩ := List.mem_map.mp hc
    by_cases h1 : (a == Char.ofNat 0x2018 || a == Char.ofNat 0x2019) = true
    · rw [if_pos h1]
      decide
    · rw [if_neg h1]
      by_cases h2 : (a == Char.ofNat 0x201C || a == Char.ofNat 0x201D) = true
      · rw [if_pos h2]
        decide
      · rw [if_neg h2]
        simp only [Bool.or_eq_true, beq_iff_eq, not_or] at h1 h2
        rw [isCurlyQ]
        simp only [Bool.or_eq_false_iff, beq_eq_false_iff_ne]
        exact ⟨⟨⟨h1.1, h1.2⟩, h2.1⟩, h2.2⟩

theorem claim_C9_witness :
    isZW 'a' = false ∧ isCurlyQ '"' = false :=
  ⟨claim_C9_sanitizer.1 ("\x7ba\x7d".data) 'a' (by decide),
   claim_C9_sanitizer.2.2.1 [Char.ofNat 0x201C] '"' (by decide)⟩

/-! ## Claim C4 — the fuzzy key-bounded extractor -/

def c4text : List Char :=
  ("\x7b\"summary\": \x7b\x7d, \"pdfMakeCode\": \"async function exportPDF()" ++
   "\x7breturn 1;\x7d\", \"excelJSCode\": \"async function exportToExcel(data)" ++
   "\x7b\x7d\"\x7d").data

def c4expected : List Char := "async function exportPDF()\x7breturn 1;\x7d".data

/-- Claim C4: `fuzzyExtractBetweenKeys` records the offset just past the
opening quote of the first `"key": "` marker as the content start; with a
next key, the content end is the offset of the closing quote at the first
match of quote–comma–whitespace–next-key; the captured span is unescaped.
Conjuncts: the concrete example of the specification; the general formula
when both markers are found; and the leftmost-match law of the search. -/
theorem claim_C4_fuzzy_extractor :
    GS.fuzzyExtractBetweenKeys c4text pdfKey (some excelKey) = some c4expected ∧
    (∀ text k ke i len e elen,
      findFirst (startPat k) text = some (i, len) →
      findFirst (endPat ke) (text.drop (i + len)) = some (e, elen) →
      GS.fuzzyExtractBetweenKeys text k (some ke) =
        some (GS.unescapeJsonString (jsSubstring text (i + len) (i + len + e)))) ∧
    (∀ m l i n, findFirst m l = some (i, n) →
      m (l.drop i) = some n ∧ ∀ j, j < i → m (l.drop j) = none) := by
  refine ⟨by decide, ?_, fun m l i n h => findFirst_leftmost m l i n h⟩
  intro text k ke i len e elen h1 h2
  rw [GS.fuzzyExtractBetweenKeys, h1]
  simp only [h2]

theorem claim_C4_witness :
    GS.fuzzyExtractBetweenKeys c4text pdfKey (some excelKey) =
      some (GS.unescapeJsonString (jsSubstring c4text (16 + 16) (16 + 16 + 37))) := by
  have h := claim_C4_fuzzy_extractor.2.1 c4text pdfKey excelKey 16 16 37 16
  exact h (by decide) (by decide)

/-! ## Support for claims C8 and C10: falling through to the fuzzy path -/

theorem mem_skipWs {c : Char} : ∀ {l : List Char}, c ∈ JP.skipWs l → c ∈ l := by
  intro l
  induction l with
  | nil => intro h; exact h
  | cons a t ih =>
    intro h
    rw [JP.skipWs] at h
    by_cases ha : isWsJson a = true
    · rw [if_pos ha] at h
      exact List.mem_cons_of_mem a (ih h)
    · rw [if_neg ha] at h
      exact h

theorem parseNum_no_obj {l r : List Char} {ms : List (List Char × JsVal)}
    (h : JP.parseNum l = some (JsVal.obj ms, r)) : False := by
  rw [JP.parseNum] at h
  cases hs : JP.numSign l with
  | mk neg cs1 =>
    rw [hs] at h
    dsimp only at h
    cases hi : JP.intDigits cs1 with
    | none => rw [hi] at h; cases h
    | some p =>
      rw [hi] at h
      obtain ⟨ids, cs2⟩ := p
      dsimp only at h
      cases hf : JP.numFracPart cs2 with
      | none => rw [hf] at h; cases h
      | some q =>
        rw [hf] at h
        obtain ⟨fds, cs3⟩ := q
        dsimp only at h
        cases he : JP.numExpPart cs3 with
        | none => rw [he] at h; cases h
        | some w =>
          rw [he] at h
          obtain ⟨eds, cs4⟩ := w
          dsimp only at h
          split at h
          · simp at h
          · simp at h

theorem parseVal_obj_mem {f : Nat} {cs r : List Char} {ms : List (List Char × JsVal)}
    (h : JP.parseVal f cs = some (.obj ms, r)) : '{' ∈ cs := by
  cases f with
  | zero =>
    rw [JP.parseVal] at h
    cases h
  | succ f2 =>
    rw [JP.parseVal] at h
    split at h
    · cases h
    · cases h
    · cases h
    · split at h
      · simp at h
      · cases h
    · -- the '[' branch cannot return an object
      exfalso
      split at h
      · simp at h
      · split at h
        · simp at h
        · cases h
    · -- the '{' branch
      next r0 heq =>
      apply mem_skipWs
      rw [heq]
      simp
    · -- the number branch
      split at h
      · exact absurd h (fun hx => parseNum_no_obj hx)
      · cases h
    · cases h

theorem mem_take {c : Char} {l : List Char} {n : Nat} (h : c ∈ l.take n) : c ∈ l :=
  (List.take_sublist n l).mem h

theorem mem_drop {c : Char} {l : List Char} {n : Nat} (h : c ∈ l.drop n) : c ∈ l :=
  (List.drop_sublist n l).mem h

theorem mem_jsSubstring {c : Char} {l : List Char} {a b : Nat}
    (h : c ∈ jsSubstring l a b) : c ∈ l := by
  simp only [jsSubstring] at h
  split at h
  · exact mem_take (mem_drop h)
  · exact mem_take (mem_drop h)

theorem mem_fenceStrip {c : Char} {l : List Char} (h : c ∈ GS.fenceStrip l) : c ∈ l := by
  simp only [GS.fenceStrip] at h
  have key : ∀ m : List Char, (∀ d, d ∈ m → d ∈ l) →
      c ∈ (if endsWithL m fenceLit then m.take (m.length - 3) else m) → c ∈ l := by
    intro m hm hc
    by_cases he : endsWithL m fenceLit = true
    · rw [if_pos he] at hc
      exact hm c (mem_take hc)
    · rw [if_neg he] at hc
      exact hm c hc
  refine key
    (if startsWithL l fenceJsonLit then l.drop 7
     else if startsWithL l fenceLit then l.drop 3 else l) ?_ h
  intro d hd
  by_cases h1 : startsWithL l fenceJsonLit = true
  · rw [if_pos h1] at hd
    exact mem_drop hd
  · rw [if_neg h1] at hd
    by_cases h2 : startsWithL l fenceLit = true
    · rw [if_pos h2] at hd
      exact mem_drop hd
    · rw [if_neg h2] at hd
      exact hd

theorem mem_braceCut {c : Char} {l : List Char} (h : c ∈ GS.braceCut l) : c ∈ l := by
  rw [GS.braceCut] at h
  cases h1 : indexOfChar l '{' with
  | none =>
    rw [h1] at h
    cases h2 : lastIndexOfChar l '}' with
    | none =>
      rw [h2] at h
      dsimp only at h
      exact h
    | some lb =>
      rw [h2] at h
      dsimp only at h
      exact h
  | some fb =>
    rw [h1] at h
    cases h2 : lastIndexOfChar l '}' with
    | none =>
      rw [h2] at h
      dsimp only at h
      exact h
    | some lb =>
      rw [h2] at h
      dsimp only at h
      exact mem_jsSubstring h

theorem mem_cleanJson {c : Char} {t : List Char} (h : c ∈ GS.cleanJson t) : c ∈ t := by
  rw [GS.cleanJson] at h
  have h1 := mem_jsTrim h
  rw [removeZW] at h1
  have h2 := List.mem_of_mem_filter h1
  exact mem_jsTrim (mem_fenceStrip (mem_braceCut h2))

theorem jsonParse_obj_mem {cs : List Char} {ms : List (List Char × JsVal)}
    (h : jsonParse cs = some (JsVal.obj ms)) : '{' ∈ cs := by
  rw [jsonParse] at h
  cases hp : JP.parseVal (cs.length + 1) cs with
  | none =>
    rw [hp] at h
    cases h
  | some p =>
    obtain ⟨v, rest⟩ := p
    rw [hp] at h
    dsimp only at h
    by_cases hw : (JP.skipWs rest).isEmpty = true
    · rw [if_pos hw] at h
      injection h with h2
      subst h2
      exact parseVal_obj_mem hp
    · rw [if_neg hw] at h
      cases h

theorem tryDirect_none_of_no_brace {cs : List Char} (h : '{' ∉ cs) :
    GS.tryDirect cs = none := by
  rw [GS.tryDirect]
  cases hj : jsonParse cs with
  | none => rfl
  | some result =>
    cases result
    case obj ms => exact absurd (jsonParse_obj_mem hj) h
    all_goals simp [GS.jsGetField, JsVal.truthy]

theorem bareKeyPat_rep_no_brace {l rep : List Char} {n : Nat}
    (hm : bareKeyPat l = some (n, rep)) (h : '{' ∉ l) : '{' ∉ rep := by
  cases l with
  | nil =>
    rw [bareKeyPat] at hm
    cases hm
  | cons c r =>
    simp only [bareKeyPat] at hm
    split at hm
    · split at hm
      · cases hm
      · split at hm
        · simp only [Option.some.injEq, Prod.mk.injEq] at hm
          obtain ⟨-, hrep⟩ := hm
          subst hrep
          intro hmem
          have hnc : c ≠ '{' := fun he => h (by rw [he]; exact List.mem_cons_self _ _)
          have hws : '{' ∉ r.takeWhile isWsBig := fun hx =>
            h (List.mem_cons_of_mem c ((List.takeWhile_sublist _).mem hx))
          have hword :
              '{' ∉ ((r.drop (r.takeWhile isWsBig).length).takeWhile isWordC) := fun hx =>
            h (List.mem_cons_of_mem c (mem_drop ((List.takeWhile_sublist _).mem hx)))
          rcases List.mem_cons.mp hmem with h1 | h1
          · exact hnc h1.symm
          rcases List.mem_append.mp h1 with h2 | h2
          · rcases List.mem_append.mp h2 with h3 | h3
            · exact hws h3
            rcases List.mem_cons.mp h3 with h4 | h4
            · exact absurd h4 (by decide)
            · exact hword h4
          · exact absurd h2 (by decide)
        · cases hm
    · cases hm

theorem replaceScanAux_bareKey_no_brace :
    ∀ (fuel : Nat) (l : List Char), '{' ∉ l →
      '{' ∉ replaceScanAux bareKeyPat fuel l := by
  intro fuel
  induction fuel with
  | zero =>
    intro l h
    cases l with
    | nil =>
      intro hx
      simp [replaceScanAux] at hx
    | cons c t =>
      intro hx
      simp only [replaceScanAux] at hx
      exact h hx
  | succ f ih =>
    intro l h
    cases l with
    | nil =>
      intro hx
      simp [replaceScanAux] at hx
    | cons c t =>
      cases hm : bareKeyPat (c :: t) with
      | none =>
        intro hx
        simp only [replaceScanAux, hm] at hx
        rcases List.mem_cons.mp hx with h1 | h1
        · exact h (by rw [h1]; exact List.mem_cons_self c t)
        · exact ih t (fun hz => h (List.mem_cons_of_mem c hz)) h1
      | some p =>
        obtain ⟨len, rep⟩ := p
        intro hx
        simp only [replaceScanAux, hm] at hx
        rcases List.mem_append.mp hx with h1 | h1
        · exact bareKeyPat_rep_no_brace hm h h1
        · exact ih _ (fun hz => h (List.mem_cons_of_mem c (mem_drop hz))) h1

theorem replaceScan_bareKey_no_brace {l : List Char} (h : '{' ∉ l) :
    '{' ∉ replaceScan bareKeyPat l := by
  rw [replaceScan]
  exact replaceScanAux_bareKey_no_brace l.length l h

theorem fuzzyExtract_none {full key : List Char} {e : Option (List Char)}
    (h : hasSubCI full key = false) :
    GS.fuzzyExtractBetweenKeys full key e = none := by
  have hf : findFirst (startPat key) full = none := by
    cases hfx : findFirst (startPat key) full with
    | none => rfl
    | some p =>
      exfalso
      obtain ⟨i, n⟩ := p
      obtain ⟨hm, -⟩ := findFirst_leftmost _ _ _ _ hfx
      obtain ⟨j, hj⟩ := startPat_has_key hm
      rw [List.drop_drop] at hj
      exact absurd (hasSubCI_of_drop full (i + j) key hj) (by simp [h])
  rw [GS.fuzzyExtractBetweenKeys, hf]

theorem extractFunctionFallback_none {text name : List Char}
    (h : hasSubCI text name = false) :
    GS.extractFunctionFallback text name = none := by
  have hf : findFirst (funcPat name) text = none := by
    cases hfx : findFirst (funcPat name) text with
    | none => rfl
    | some p =>
      exfalso
      obtain ⟨i, n⟩ := p
      obtain ⟨hm, -⟩ := findFirst_leftmost _ _ _ _ hfx
      obtain ⟨j, hj⟩ := funcPat_has_name hm
      rw [List.drop_drop] at hj
      exact absurd (hasSubCI_of_drop text (i + j) name hj) (by simp [h])
  rw [GS.extractFunctionFallback, hf]

theorem fuzzyStage_error {current text : List Char}
    (h1 : hasSubCI current pdfKey = false)
    (h2 : hasSubCI current excelKey = false)
    (h3 : hasSubCI text exportPdfName = false)
    (h4 : hasSubCI text exportExcelName = false) :
    GS.fuzzyStage current text = .error parseFailMsg := by
  have hp0 := @fuzzyExtract_none current pdfKey (some excelKey) h1
  have he0 := @fuzzyExtract_none current excelKey (some dataKey) h2
  have hpf := extractFunctionFallback_none h3
  have hef := extractFunctionFallback_none h4
  simp [GS.fuzzyStage, hp0, he0, hpf, hef, GS.optStrTruthy]

theorem parseRobustJson_error {text : List Char}
    (hb : '{' ∉ GS.cleanJson text)
    (h1 : hasSubCI (GS.cleanJson text) pdfKey = false)
    (h2 : hasSubCI (GS.cleanJson text) excelKey = false)
    (h3 : hasSubCI text exportPdfName = false)
    (h4 : hasSubCI text exportExcelName = false) :
    GS.parseRobustJson text = .error parseFailMsg := by
  have ht1 := tryDirect_none_of_no_brace hb
  have ht2 := tryDirect_none_of_no_brace (replaceScan_bareKey_no_brace hb)
  have hfz := fuzzyStage_error h1 h2 h3 h4
  rw [GS.parseRobustJson]
  simp only [ht1, ht2, hfz]

/-! ## Claim C8 — prose input is rejected with a single diagnostic -/

def c8text : List Char := "The quick brown fox jumps over the lazy dog.".data

/-- C8: a nonempty response with no opening brace anywhere and no recognizable
key markers (no case-insensitive occurrence of the code-field key names in the
sanitized text and no exported-function names in the raw text) makes the
pipeline terminate in the single parse-failure diagnostic; the empty response
yields a distinct diagnostic. -/
theorem claim_C8_prose_rejected :
    (∀ text : List Char, text ≠ [] → '{' ∉ text →
      hasSubCI (GS.cleanJson text) pdfKey = false →
      hasSubCI (GS.cleanJson text) excelKey = false →
      hasSubCI text exportPdfName = false →
      hasSubCI text exportExcelName = false →
      analyzeParse text = .error parseFailMsg) ∧
    analyzeParse [] = .error emptyMsg ∧ parseFailMsg ≠ emptyMsg := by
  refine ⟨?_, by rfl, by decide⟩
  intro text hne hnb h1 h2 h3 h4
  have hb : '{' ∉ GS.cleanJson text := fun hc => hnb (mem_cleanJson hc)
  have hpr := parseRobustJson_error hb h1 h2 h3 h4
  rw [analyzeParse]
  rw [if_neg (by simpa [List.isEmpty_iff] using hne)]
  rw [hpr]
  rfl

/-- C8 witness: the concrete prose sentence is rejected with the
parse-failure diagnostic. -/
theorem claim_C8_witness : analyzeParse c8text = .error parseFailMsg :=
  claim_C8_prose_rejected.1 c8text (by decide) (by decide) (by decide) (by decide)
    (by decide) (by decide)

/-! ## Claim C10 — a falsy pdfMakeCode field falls through to the fuzzy path -/

theorem tryDirect_none_of_falsy_pdf {cs : List Char} {v : JsVal}
    (hj : jsonParse cs = some v)
    (hp : v.getF pdfKey = JsVal.undef ∨ v.getF pdfKey = JsVal.str []) :
    GS.tryDirect cs = none := by
  rw [GS.tryDirect, hj]
  cases v
  case obj ms =>
    dsimp only
    rcases hp with hp | hp
    · have hx : (JsVal.lookupLast ms pdfKey).getD JsVal.undef = JsVal.undef := hp
      rw [show GS.jsGetField (JsVal.obj ms) pdfKey
          = Except.ok ((JsVal.lookupLast ms pdfKey).getD JsVal.undef) from rfl, hx]
      rfl
    · have hx : (JsVal.lookupLast ms pdfKey).getD JsVal.undef = JsVal.str [] := hp
      rw [show GS.jsGetField (JsVal.obj ms) pdfKey
          = Except.ok ((JsVal.lookupLast ms pdfKey).getD JsVal.undef) from rfl, hx]
      rfl
  all_goals rfl

theorem parseRobustJson_fuzzy {text : List Char}
    (h1 : GS.tryDirect (GS.cleanJson text) = none)
    (h2 : GS.tryDirect (replaceScan bareKeyPat (GS.cleanJson text)) = none) :
    GS.parseRobustJson text = GS.fuzzyStage (GS.cleanJson text) text := by
  rw [GS.parseRobustJson]
  simp only [h1, h2]

def c10text : List Char := "\x7b\"a\": 1\x7d".data

/-- C10: when the sanitized input parses as JSON (directly, or — covered by
the universally quantified third hypothesis — after bare-key quoting) but the
parsed value has an absent or empty `pdfMakeCode` field, `parseRobustJson`
does not return that value: it proceeds to the fuzzy-extraction stage, and if
no key marker or exported-function name is recoverable from the text it
throws the parse-failure diagnostic. -/
theorem claim_C10_falsy_pdf_falls_through (text : List Char) (v : JsVal)
    (hj : jsonParse (GS.cleanJson text) = some v)
    (hp : v.getF pdfKey = JsVal.undef ∨ v.getF pdfKey = JsVal.str [])
    (hq : ∀ v2 : JsVal,
      jsonParse (replaceScan bareKeyPat (GS.cleanJson text)) = some v2 →
      v2.getF pdfKey = JsVal.undef ∨ v2.getF pdfKey = JsVal.str []) :
    GS.parseRobustJson text = GS.fuzzyStage (GS.cleanJson text) text ∧
    (hasSubCI (GS.cleanJson text) pdfKey = false →
     hasSubCI (GS.cleanJson text) excelKey = false →
     hasSubCI text exportPdfName = false →
     hasSubCI text exportExcelName = false →
     GS.parseRobustJson text = Except.error parseFailMsg) := by
  have ht1 := tryDirect_none_of_falsy_pdf hj hp
  have ht2 : GS.tryDirect (replaceScan bareKeyPat (GS.cleanJson text)) = none := by
    cases hj2 : jsonParse (replaceScan bareKeyPat (GS.cleanJson text)) with
    | none => rw [GS.tryDirect, hj2]
    | some v2 => exact tryDirect_none_of_falsy_pdf hj2 (hq v2 hj2)
  have hmain := parseRobustJson_fuzzy ht1 ht2
  refine ⟨hmain, fun m1 m2 m3 m4 => ?_⟩
  rw [hmain]
  exact fuzzyStage_error m1 m2 m3 m4

/-- C10 witness: the object `\x7b"a": 1\x7d` parses but has no `pdfMakeCode`,
and the pipeline ends in the parse-failure diagnostic. -/
theorem claim_C10_witness : GS.parseRobustJson c10text = Except.error parseFailMsg :=
  (claim_C10_falsy_pdf_falls_through c10text (JsVal.obj [(['a'], JsVal.num 1)]) (by rfl)
      (Or.inl (by rfl))
      (fun v2 hv => by
        have hx : some (JsVal.obj [(['a'], JsVal.num 1)]) = some v2 := hv
        cases Option.some.inj hx
        exact Or.inl rfl)).2
    (by decide) (by decide) (by decide) (by decide)

/-! ## Support for claim C2: the object-field algebra of `setF`/`getF` -/

theorem foldl_lookup_isSome (k : List Char) :
    ∀ (ms : List (List Char × JsVal)) (a : Option JsVal), a.isSome = true →
      (ms.foldl (fun acc kv => if kv.1 = k then some kv.2 else acc) a).isSome = true := by
  intro ms
  induction ms with
  | nil =>
    intro a h
    simpa using h
  | cons kv t ih =>
    intro a h
    rw [List.foldl_cons]
    by_cases hk : kv.1 = k
    · refine ih _ ?_
      rw [if_pos hk]
      rfl
    · exact ih _ (by rw [if_neg hk]; exact h)

theorem foldl_map_overwrite (k : List Char) (x : JsVal) :
    ∀ (ms : List (List Char × JsVal)) (a : Option JsVal),
      ((ms.map (fun kv => if kv.1 = k then (kv.1, x) else kv)).foldl
          (fun acc kv => if kv.1 = k then some kv.2 else acc) a)
      = if (ms.foldl (fun acc kv => if kv.1 = k then some kv.2 else acc) none).isSome
        then some x else a := by
  intro ms
  induction ms with
  | nil =>
    intro a
    simp
  | cons kv t ih =>
    intro a
    obtain ⟨k1, v1⟩ := kv
    by_cases hk : k1 = k
    · subst hk
      have hs : (t.foldl (fun acc kv => if kv.1 = k1 then some kv.2 else acc)
          (some v1)).isSome = true := foldl_lookup_isSome k1 t (some v1) rfl
      simp [List.map_cons, List.foldl_cons, ih, hs]
    · simp only [List.map_cons, List.foldl_cons, if_neg hk]
      exact ih a

theorem foldl_map_other (k k2 : List Char) (x : JsVal) (h : ¬ k = k2) :
    ∀ (ms : List (List Char × JsVal)) (a : Option JsVal),
      ((ms.map (fun kv => if kv.1 = k then (kv.1, x) else kv)).foldl
          (fun acc kv => if kv.1 = k2 then some kv.2 else acc) a)
      = ms.foldl (fun acc kv => if kv.1 = k2 then some kv.2 else acc) a := by
  intro ms
  induction ms with
  | nil =>
    intro a
    rfl
  | cons kv t ih =>
    intro a
    obtain ⟨k1, v1⟩ := kv
    by_cases hk : k1 = k
    · subst hk
      have hne : ¬ k1 = k2 := h
      simp [List.map_cons, List.foldl_cons, ih, hne]
    · simp [List.map_cons, List.foldl_cons, ih, hk]

theorem getF_setF_self (ms : List (List Char × JsVal)) (k : List Char) (x : JsVal) :
    ((JsVal.obj ms).setF k x).getF k = x := by
  rw [JsVal.setF]
  by_cases hs : (JsVal.lookupLast ms k).isSome = true
  · rw [if_pos hs]
    show (JsVal.lookupLast
      (ms.map (fun kv => if kv.1 = k then (kv.1, x) else kv)) k).getD .undef = x
    rw [JsVal.lookupLast, foldl_map_overwrite]
    rw [show (ms.foldl (fun acc kv => if kv.1 = k then some kv.2 else acc) none)
        = JsVal.lookupLast ms k from rfl]
    rw [if_pos hs]
    rfl
  · rw [if_neg hs]
    show (JsVal.lookupLast (ms ++ [(k, x)]) k).getD .undef = x
    rw [JsVal.lookupLast, List.foldl_append]
    simp

theorem getF_setF_ne (v : JsVal) {k k2 : List Char} (x : JsVal) (h : ¬ k = k2) :
    (v.setF k x).getF k2 = v.getF k2 := by
  cases v
  case obj ms =>
    rw [JsVal.setF]
    by_cases hs : (JsVal.lookupLast ms k).isSome = true
    · rw [if_pos hs]
      show (JsVal.lookupLast
        (ms.map (fun kv => if kv.1 = k then (kv.1, x) else kv)) k2).getD .undef
        = (JsVal.lookupLast ms k2).getD .undef
      rw [JsVal.lookupLast, JsVal.lookupLast, foldl_map_other k k2 x h]
    · rw [if_neg hs]
      show (JsVal.lookupLast (ms ++ [(k, x)]) k2).getD .undef
        = (JsVal.lookupLast ms k2).getD .undef
      rw [JsVal.lookupLast, JsVal.lookupLast, List.foldl_append]
      simp [h]
  all_goals rfl

theorem setF_obj (ms : List (List Char × JsVal)) (k : List Char) (x : JsVal) :
    ∃ ms2, (JsVal.obj ms).setF k x = JsVal.obj ms2 := by
  rw [JsVal.setF]
  by_cases hs : (JsVal.lookupLast ms k).isSome = true
  · exact ⟨_, by rw [if_pos hs]⟩
  · exact ⟨_, by rw [if_neg hs]⟩

theorem fixV_ok_falsy_or_str {v w : JsVal} (h : GS.fixEscapedNewlinesV v = .ok w) :
    w.isStr = true ∨ w.truthy = false := by
  rw [GS.fixEscapedNewlinesV.eq_def] at h
  cases hb : v.truthy
  · rw [if_pos (by rw [hb]; rfl)] at h
    injection h with h2
    subst h2
    exact Or.inr hb
  · rw [if_neg (by rw [hb]; simp)] at h
    cases v
    all_goals cases h
    all_goals exact Or.inl rfl

theorem fixV_truthy_str {v w : JsVal} (hv : v.truthy = true)
    (h : GS.fixEscapedNewlinesV v = .ok w) : w.isStr = true := by
  rw [GS.fixEscapedNewlinesV.eq_def] at h
  rw [if_neg (by rw [hv]; simp)] at h
  cases v
  all_goals cases h
  all_goals exact rfl

theorem tryDirect_some_shape {cs : List Char} {r : JsVal}
    (h : GS.tryDirect cs = some r) :
    (r.getF pdfKey).isStr = true ∧
    ((r.getF excelKey).isStr = true ∨ (r.getF excelKey).truthy = false) := by
  rw [GS.tryDirect] at h
  cases hj : jsonParse cs with
  | none =>
    rw [hj] at h
    cases h
  | some result =>
    rw [hj] at h
    dsimp only at h
    cases he : GS.jsGetField result pdfKey with
    | error m =>
      rw [he] at h
      cases h
    | ok pdfv =>
      rw [he] at h
      dsimp only at h
      by_cases htr : pdfv.truthy = true
      case neg =>
        rw [if_neg htr] at h
        cases h
      rw [if_pos htr] at h
      cases hf : GS.fixEscapedNewlinesV pdfv with
      | error m =>
        rw [hf] at h
        cases h
      | ok pdf2 =>
        rw [hf] at h
        dsimp only at h
        have hobj : ∃ ms, result = JsVal.obj ms := by
          cases result
          case obj ms => exact ⟨ms, rfl⟩
          all_goals rw [GS.jsGetField.eq_def] at he
          all_goals dsimp only at he
          case undef => cases he
          case null => cases he
          all_goals injection he with he2
          all_goals subst he2
          all_goals simp [JsVal.truthy] at htr
        obtain ⟨ms, hms⟩ := hobj
        subst hms
        cases hee : GS.jsGetField ((JsVal.obj ms).setF pdfKey pdf2) excelKey with
        | error m =>
          rw [hee] at h
          cases h
        | ok excelv =>
          rw [hee] at h
          dsimp only at h
          cases hfe : GS.fixEscapedNewlinesV excelv with
          | error m =>
            rw [hfe] at h
            cases h
          | ok ex2 =>
            rw [hfe] at h
            dsimp only at h
            have hp2 : (((JsVal.obj ms).setF pdfKey pdf2).setF excelKey ex2).getF pdfKey
                = pdf2 := by
              rw [getF_setF_ne ((JsVal.obj ms).setF pdfKey pdf2) ex2
                (show ¬ excelKey = pdfKey from by decide)]
              exact getF_setF_self ms pdfKey pdf2
            have he2 : (((JsVal.obj ms).setF pdfKey pdf2).setF excelKey ex2).getF excelKey
                = ex2 := by
              obtain ⟨ms1, e1⟩ := setF_obj ms pdfKey pdf2
              rw [e1]
              exact getF_setF_self ms1 excelKey ex2
            have hps : pdf2.isStr = true := fixV_truthy_str htr hf
            have hes := fixV_ok_falsy_or_str hfe
            split at h
            · injection h with h2
              subst h2
              constructor
              · rw [getF_setF_ne _ (JsVal.arr [])
                  (show ¬ dataKey = pdfKey from by decide), hp2]
                exact hps
              · rw [getF_setF_ne _ (JsVal.arr [])
                  (show ¬ dataKey = excelKey from by decide), he2]
                exact hes
            · injection h with h2
              subst h2
              constructor
              · rw [getF_setF_ne _ (JsVal.arr [])
                  (show ¬ dataKey = pdfKey from by decide), hp2]
                exact hps
              · rw [getF_setF_ne _ (JsVal.arr [])
                  (show ¬ dataKey = excelKey from by decide), he2]
                exact hes
            · injection h with h2
              subst h2
              exact ⟨by rw [hp2]; exact hps, by rw [he2]; exact hes⟩

theorem fuzzyStage_ok_shape {current text : List Char} {r : JsVal}
    (h : GS.fuzzyStage current text = .ok r) :
    (r.getF pdfKey).isStr = true ∧ (r.getF excelKey).isStr = true := by
  simp only [GS.fuzzyStage] at h
  repeat' split at h
  all_goals cases h
  all_goals exact ⟨rfl, rfl⟩

theorem errTransform_ok {e : Except (List Char) JsVal} {r : JsVal}
    (h : errTransform e = .ok r) : e = .ok r := by
  cases e with
  | ok v => simpa [errTransform] using h
  | error m =>
    rw [errTransform] at h
    by_cases h1 : (hasSub m msg400 || hasSub m msgInvalidArg) = true
    · rw [if_pos h1] at h
      by_cases h2 : hasSub m msgTokenCount = true
      · rw [if_pos h2] at h
        cases h
      · rw [if_neg h2] at h
        cases h
    · rw [if_neg h1] at h
      cases h

theorem sanitizeSummary_shape {parsed p : JsVal}
    (h : GS.sanitizeSummary parsed = .ok p) :
    p = parsed ∨ ∃ z, p = parsed.setF summaryKey z := by
  simp only [GS.sanitizeSummary, Bind.bind, Except.bind, Pure.pure, Except.pure,
    GS.jsSetField.eq_def] at h
  repeat' split at h
  all_goals cases h
  all_goals first
    | exact Or.inl rfl
    | exact Or.inr ⟨_, rfl⟩

theorem finalizeData_shape {parsed p : JsVal}
    (h : GS.finalizeData parsed = .ok p) :
    p = parsed ∨ p = parsed.setF dataKey (JsVal.arr []) := by
  simp only [GS.finalizeData, Bind.bind, Except.bind, Pure.pure, Except.pure,
    GS.jsSetField.eq_def] at h
  repeat' split at h
  all_goals cases h
  all_goals first
    | exact Or.inl rfl
    | exact Or.inr rfl

theorem validateParsed_preserve {parsed r : JsVal} {k : List Char}
    (h : GS.validateParsed parsed = .ok r)
    (hk1 : ¬ summaryKey = k) (hk2 : ¬ dataKey = k) :
    r.getF k = parsed.getF k := by
  simp only [GS.validateParsed, Bind.bind, Except.bind] at h
  cases h0 : GS.relaxedCheck parsed with
  | error m =>
    rw [h0] at h
    dsimp only at h
    cases h
  | ok u =>
    rw [h0] at h
    dsimp only at h
    cases h1 : GS.sanitizeSummary parsed with
    | error m =>
      rw [h1] at h
      dsimp only at h
      cases h
    | ok p1 =>
      rw [h1] at h
      dsimp only at h
      have e1 : p1.getF k = parsed.getF k := by
        rcases sanitizeSummary_shape h1 with hs | ⟨z, hs⟩
        · rw [hs]
        · rw [hs, getF_setF_ne parsed z hk1]
      rcases finalizeData_shape h with hf | hf
      · rw [hf, e1]
      · rw [hf, getF_setF_ne p1 (JsVal.arr []) hk2, e1]

theorem parseRobustJson_ok_shape {text : List Char} {r : JsVal}
    (h : GS.parseRobustJson text = .ok r) :
    (r.getF pdfKey).isStr = true ∧
    ((r.getF excelKey).isStr = true ∨ (r.getF excelKey).truthy = false) := by
  rw [GS.parseRobustJson] at h
  cases h1 : GS.tryDirect (GS.cleanJson text) with
  | some r0 =>
    rw [h1] at h
    dsimp only at h
    injection h with h2
    subst h2
    exact tryDirect_some_shape h1
  | none =>
    rw [h1] at h
    dsimp only at h
    cases h2 : GS.tryDirect (replaceScan bareKeyPat (GS.cleanJson text)) with
    | some r0 =>
      rw [h2] at h
      dsimp only at h
      injection h with h3
      subst h3
      exact tryDirect_some_shape h2
    | none =>
      rw [h2] at h
      dsimp only at h
      obtain ⟨ha, hb⟩ := fuzzyStage_ok_shape h
      exact ⟨ha, Or.inl hb⟩

/-! ## Claim C2 — code fields of the returned result -/

def c2text : List Char := "\x7b\"pdfMakeCode\": \"function f()\"\x7d".data

def c2result : JsVal :=
  JsVal.obj
    [(pdfKey, JsVal.str "function f()".data),
     (excelKey, JsVal.undef),
     (dataKey, JsVal.arr [])]

/-- C2 counterexample: on a direct-parse input with no `excelJSCode` member,
the pipeline returns a result whose `excelJSCode` is `undefined` — not a
string and not a sentinel comment. -/
theorem claim_C2_counterexample :
    analyzeParse c2text = Except.ok c2result ∧
    c2result.getF excelKey = JsVal.undef ∧
    (c2result.getF excelKey).isStr = false := by
  refine ⟨by rfl, by rfl, by rfl⟩

/-- C2 (amended): every result returned by the pipeline has `pdfMakeCode`
present as a string; `excelJSCode` is a string (a sentinel comment on the
fuzzy path when unrecoverable), except that on the direct path it keeps a
falsy parsed value — in particular `undefined` when absent. -/
theorem claim_C2_code_fields (text : List Char) (r : JsVal)
    (h : analyzeParse text = Except.ok r) :
    (r.getF pdfKey).isStr = true ∧
    ((r.getF excelKey).isStr = true ∨ (r.getF excelKey).truthy = false) := by
  rw [analyzeParse] at h
  have h1 := errTransform_ok h
  by_cases he : text.isEmpty = true
  · rw [if_pos he] at h1
    cases h1
  · rw [if_neg he] at h1
    cases hp : GS.parseRobustJson text with
    | error m =>
      rw [hp] at h1
      dsimp only at h1
      cases h1
    | ok parsed =>
      rw [hp] at h1
      dsimp only at h1
      obtain ⟨hpdf, hex⟩ := parseRobustJson_ok_shape hp
      have e1 : r.getF pdfKey = parsed.getF pdfKey :=
        validateParsed_preserve h1 (by decide) (by decide)
      have e2 : r.getF excelKey = parsed.getF excelKey :=
        validateParsed_preserve h1 (by decide) (by decide)
      rw [e1, e2]
      exact ⟨hpdf, hex⟩

/-- C2 witness: the amended theorem applied to the counterexample input. -/
theorem claim_C2_witness :
    (c2result.getF pdfKey).isStr = true ∧
    ((c2result.getF excelKey).isStr = true ∨ (c2result.getF excelKey).truthy = false) :=
  claim_C2_code_fields c2text c2result (by rfl)

/-! ## Support for claim C5: the validator postcondition on summary tables -/

theorem parseNum_isNum {l r : List Char} {v : JsVal}
    (h : JP.parseNum l = some (v, r)) : v.isNum = true := by
  rw [JP.parseNum] at h
  cases hs : JP.numSign l with
  | mk neg cs1 =>
    rw [hs] at h
    dsimp only at h
    cases hi : JP.intDigits cs1 with
    | none =>
      rw [hi] at h
      cases h
    | some p =>
      rw [hi] at h
      obtain ⟨ids, cs2⟩ := p
      dsimp only at h
      cases hf : JP.numFracPart cs2 with
      | none =>
        rw [hf] at h
        cases h
      | some q =>
        rw [hf] at h
        obtain ⟨fds, cs3⟩ := q
        dsimp only at h
        cases he : JP.numExpPart cs3 with
        | none =>
          rw [he] at h
          cases h
        | some w =>
          rw [he] at h
          obtain ⟨eds, cs4⟩ := w
          dsimp only at h
          split at h
          · injection h with h1
            injection h1 with h2 h3
            subst h2
            rfl
          · injection h with h1
            injection h1 with h2 h3
            subst h2
            rfl

theorem jsNumberOr0_isNum (v : JsVal) : (GS.jsNumberOr0 v).isNum = true := by
  rw [GS.jsNumberOr0.eq_def]
  cases v
  case str s =>
    dsimp only
    split
    · rfl
    · cases hp : JP.parseNum (jsTrim s) with
      | none => simp [hp, JsVal.isNum]
      | some p =>
        obtain ⟨v2, r2⟩ := p
        cases r2 with
        | nil => simpa [hp] using parseNum_isNum hp
        | cons c t => simp [hp, JsVal.isNum]
  all_goals rfl

theorem jsGetField_ok_val {v w : JsVal} {k : List Char}
    (h : GS.jsGetField v k = .ok w) : w = v.getF k := by
  cases v
  all_goals rw [GS.jsGetField.eq_def] at h
  all_goals dsimp only at h
  case undef => cases h
  case null => cases h
  all_goals injection h with h2
  all_goals exact h2.symm

theorem jsSetField_ok {v w x : JsVal} {k : List Char}
    (h : GS.jsSetField v k x = .ok w) : v.isObj = true ∧ w = v.setF k x := by
  cases v
  all_goals rw [GS.jsSetField.eq_def] at h
  all_goals dsimp only at h
  case obj ms =>
    injection h with h2
    exact ⟨rfl, h2.symm⟩
  all_goals cases h

theorem getF_nonobj {v : JsVal} (h : v.isObj = false) (k : List Char) :
    v.getF k = JsVal.undef := by
  cases v
  all_goals first
    | rfl
    | cases h

theorem isObj_of_getF_truthy {v : JsVal} {k : List Char}
    (h : ((v.getF k).truthy) = true) : v.isObj = true := by
  cases hv : v.isObj
  · rw [getF_nonobj hv] at h
    exact absurd h (by decide)
  · rfl

theorem isObj_exists {v : JsVal} (h : v.isObj = true) : ∃ ms, v = JsVal.obj ms := by
  cases v
  case obj ms => exact ⟨ms, rfl⟩
  all_goals cases h

theorem getF_setF_self_obj {v : JsVal} (h : v.isObj = true) (k : List Char) (x : JsVal) :
    (v.setF k x).getF k = x := by
  obtain ⟨ms, rfl⟩ := isObj_exists h
  exact getF_setF_self ms k x

theorem post_main {parsed sumv dtv2 : JsVal}
    (hpo : parsed.isObj = true) (hso : sumv.isObj = true)
    (hcnt : (dtv2.getF countKey).isNum = true)
    (hdims : (dtv2.getF dimsKey).isArr = true) :
    ((((parsed.setF summaryKey (sumv.setF dtKey dtv2)).getF summaryKey).getF
        dtKey).getF countKey).isNum = true ∧
    ((((parsed.setF summaryKey (sumv.setF dtKey dtv2)).getF summaryKey).getF
        dtKey).getF dimsKey).isArr = true := by
  rw [getF_setF_self_obj hpo, getF_setF_self_obj hso]
  exact ⟨hcnt, hdims⟩

theorem sanitizeSummary_post {parsed p1 : JsVal}
    (h : GS.sanitizeSummary parsed = .ok p1)
    (ht : ((p1.getF summaryKey).getF dtKey).truthy = true) :
    (((p1.getF summaryKey).getF dtKey).getF countKey).isNum = true ∧
    (((p1.getF summaryKey).getF dtKey).getF dimsKey).isArr = true := by
  simp only [GS.sanitizeSummary, Bind.bind, Except.bind, Pure.pure, Except.pure] at h
  repeat' split at h
  all_goals cases h
  all_goals try (solve | simp_all [JsVal.truthy, GS.jsGetField.eq_def])
  · rename_i a b hsum hn
    have hsv := jsGetField_ok_val hsum
    rw [← hsv] at ht
    exact absurd ht (by decide)
  · rename_i a b hsum c d
    have hsv := jsGetField_ok_val hsum
    rw [← hsv] at ht
    exact absurd ht (by decide)
  · rename_i a1 sumv hsum a2 a3 a4 a5 dtv hgdt hts a6 dims hgdims hna a7 dtv1 hsd
      a8 cnt hgc hnn a9 dtv2 hsc
    have hvd := jsGetField_ok_val hgdt
    have hso : sumv.isObj = true := isObj_of_getF_truthy (by rw [← hvd]; exact hts)
    have hst : sumv.truthy = true := by
      obtain ⟨sms, rfl⟩ := isObj_exists hso
      rfl
    have hsv := jsGetField_ok_val hsum
    have hpo : parsed.isObj = true := isObj_of_getF_truthy (by rw [← hsv]; exact hst)
    obtain ⟨hdo, he1⟩ := jsSetField_ok hsd
    obtain ⟨hd1o, he2⟩ := jsSetField_ok hsc
    refine post_main hpo hso ?_ ?_
    · rw [he2, getF_setF_self_obj hd1o]
      exact jsNumberOr0_isNum cnt
    · rw [he2, getF_setF_ne dtv1 (GS.jsNumberOr0 cnt)
        (show ¬ countKey = dimsKey from by decide)]
      rw [he1, getF_setF_self_obj hdo]
      split
      · rfl
      · rfl
  · rename_i a1 sumv hsum a2 a3 a4 a5 dtv hgdt hts a6 dims hgdims hna a7 dtv1 hsd
      a8 cnt hgc hnn
    have hvd := jsGetField_ok_val hgdt
    have hso : sumv.isObj = true := isObj_of_getF_truthy (by rw [← hvd]; exact hts)
    have hst : sumv.truthy = true := by
      obtain ⟨sms, rfl⟩ := isObj_exists hso
      rfl
    have hsv := jsGetField_ok_val hsum
    have hpo : parsed.isObj = true := isObj_of_getF_truthy (by rw [← hsv]; exact hst)
    obtain ⟨hdo, he1⟩ := jsSetField_ok hsd
    have hcv := jsGetField_ok_val hgc
    refine post_main hpo hso ?_ ?_
    · rw [← hcv]
      simpa using hnn
    · rw [he1, getF_setF_self_obj hdo]
      split
      · rfl
      · rfl
  · rename_i a1 sumv hsum a2 a3 a4 a5 dtv hgdt hts a6 dims hgdims ha a7 cnt hgc hnn
      a8 dtv2 hsc
    have hvd := jsGetField_ok_val hgdt
    have hso : sumv.isObj = true := isObj_of_getF_truthy (by rw [← hvd]; exact hts)
    have hst : sumv.truthy = true := by
      obtain ⟨sms, rfl⟩ := isObj_exists hso
      rfl
    have hsv := jsGetField_ok_val hsum
    have hpo : parsed.isObj = true := isObj_of_getF_truthy (by rw [← hsv]; exact hst)
    obtain ⟨hdo, he2⟩ := jsSetField_ok hsc
    refine post_main hpo hso ?_ ?_
    · rw [he2, getF_setF_self_obj hdo]
      exact jsNumberOr0_isNum cnt
    · rw [he2, getF_setF_ne dtv (GS.jsNumberOr0 cnt)
        (show ¬ countKey = dimsKey from by decide)]
      have hdv := jsGetField_ok_val hgdims
      rw [← hdv]
      simpa using ha
  · rename_i a1 sumv hsum a2 a3 a4 a5 dtv hgdt hts a6 dims hgdims ha a7 cnt hgc hnn
    have hvd := jsGetField_ok_val hgdt
    have hso : sumv.isObj = true := isObj_of_getF_truthy (by rw [← hvd]; exact hts)
    have hst : sumv.truthy = true := by
      obtain ⟨sms, rfl⟩ := isObj_exists hso
      rfl
    have hsv := jsGetField_ok_val hsum
    have hpo : parsed.isObj = true := isObj_of_getF_truthy (by rw [← hsv]; exact hst)
    have hcv := jsGetField_ok_val hgc
    have hdv := jsGetField_ok_val hgdims
    refine post_main hpo hso ?_ ?_
    · rw [← hcv]
      simpa using hnn
    · rw [← hdv]
      simpa using ha
  · rename_i a1 sumv hsum a2 a3 a4 a5 dtv hgdt hn hst a6 sumv1 hset
    obtain ⟨hso, he⟩ := jsSetField_ok hset
    have hsv := jsGetField_ok_val hsum
    have hpo : parsed.isObj = true := isObj_of_getF_truthy (by rw [← hsv]; exact hst)
    rw [he]
    exact post_main hpo hso (by rfl) (by rfl)
  · rename_i a1 sumv hsum a2 a3 a4 a5 dtv hgdt hn hns
    have hsv := jsGetField_ok_val hsum
    have hvd := jsGetField_ok_val hgdt
    rw [← hsv, ← hvd] at ht
    exact absurd ht hn

theorem finalizeData_post {parsed r : JsVal}
    (h : GS.finalizeData parsed = .ok r) :
    r.getF dataKey ≠ JsVal.undef ∧ r.getF dataKey ≠ JsVal.null := by
  simp only [GS.finalizeData, Bind.bind, Except.bind, Pure.pure, Except.pure,
    GS.jsSetField.eq_def] at h
  repeat' split at h
  all_goals cases h
  · rename_i a b c ms hget
    constructor
    · rw [getF_setF_self]
      exact fun hx => JsVal.noConfusion hx
    · rw [getF_setF_self]
      exact fun hx => JsVal.noConfusion hx
  · rename_i a b c ms hget
    constructor
    · rw [getF_setF_self]
      exact fun hx => JsVal.noConfusion hx
    · rw [getF_setF_self]
      exact fun hx => JsVal.noConfusion hx
  · rename_i a ed hget b hu hn
    have he := jsGetField_ok_val hget
    rw [← he]
    exact ⟨fun hx => hu hx, fun hx => hn hx⟩

theorem validateParsed_post {parsed r : JsVal}
    (h : GS.validateParsed parsed = .ok r) :
    (((r.getF summaryKey).getF dtKey).truthy = true →
      (((r.getF summaryKey).getF dtKey).getF countKey).isNum = true ∧
      (((r.getF summaryKey).getF dtKey).getF dimsKey).isArr = true) ∧
    r.getF dataKey ≠ JsVal.undef ∧ r.getF dataKey ≠ JsVal.null := by
  simp only [GS.validateParsed, Bind.bind, Except.bind] at h
  cases h0 : GS.relaxedCheck parsed with
  | error m =>
    rw [h0] at h
    dsimp only at h
    cases h
  | ok u =>
    rw [h0] at h
    dsimp only at h
    cases h1 : GS.sanitizeSummary parsed with
    | error m =>
      rw [h1] at h
      dsimp only at h
      cases h
    | ok p1 =>
      rw [h1] at h
      dsimp only at h
      refine ⟨?_, finalizeData_post h⟩
      intro ht
      have hsum : r.getF summaryKey = p1.getF summaryKey := by
        rcases finalizeData_shape h with hf | hf
        · rw [hf]
        · rw [hf, getF_setF_ne p1 (JsVal.arr []) (show ¬ dataKey = summaryKey from by decide)]
      rw [hsum] at ht ⊢
      exact sanitizeSummary_post h1 ht

theorem analyzeParse_post {text : List Char} {r : JsVal}
    (h : analyzeParse text = .ok r) :
    (((r.getF summaryKey).getF dtKey).truthy = true →
      (((r.getF summaryKey).getF dtKey).getF countKey).isNum = true ∧
      (((r.getF summaryKey).getF dtKey).getF dimsKey).isArr = true) ∧
    r.getF dataKey ≠ JsVal.undef ∧ r.getF dataKey ≠ JsVal.null := by
  rw [analyzeParse] at h
  have h1 := errTransform_ok h
  by_cases he : text.isEmpty = true
  · rw [if_pos he] at h1
    cases h1
  · rw [if_neg he] at h1
    cases hp : GS.parseRobustJson text with
    | error m =>
      rw [hp] at h1
      dsimp only at h1
      cases h1
    | ok parsed =>
      rw [hp] at h1
      dsimp only at h1
      exact validateParsed_post h1

/-! ## Claim C5 — the validator postcondition -/

def c5text : List Char :=
  ("\x7b\"pdfMakeCode\": \"function f()\", \"summary\": \x7b\"detectedTables\": " ++
   "\x7b\"count\": \"3\", \"dimensions\": \"4x5\"\x7d\x7d\x7d").data

def c5xtext : List Char := "\x7b\"pdfMakeCode\": \"function g()\"\x7d".data

def c5result : JsVal :=
  JsVal.obj
    [(pdfKey, JsVal.str "function f()".data),
     (summaryKey, JsVal.obj
       [(dtKey, JsVal.obj
         [(countKey, JsVal.num 3),
          (dimsKey, JsVal.arr [JsVal.str "4x5".data])])]),
     (excelKey, JsVal.undef),
     (dataKey, JsVal.arr [])]

def c5xresult : JsVal :=
  JsVal.obj
    [(pdfKey, JsVal.str "function g()".data),
     (excelKey, JsVal.undef),
     (dataKey, JsVal.arr [])]

/-- C5 counterexample: a summary-less direct-parse input keeps `summary`
absent in the returned result — no default with `fileType` unknown is
synthesized on this path. -/
theorem claim_C5_counterexample :
    analyzeParse c5xtext = Except.ok c5xresult ∧
    c5xresult.getF summaryKey = JsVal.undef := by
  exact ⟨by rfl, by rfl⟩

/-- C5 (amended): the validator coercions hold — on the concrete input with
`detectedTables` holding a string count "3" and scalar dimensions "4x5" the
result carries numeric count 3 and the wrapped array ["4x5"]; in general a
returned result has a numeric `count` and array `dimensions` whenever its
`summary.detectedTables` is truthy, and `extractedData` is never absent or
null — but an absent `summary` is not replaced by a default on the
direct-parse path. -/
theorem claim_C5_validator :
    (analyzeParse c5text = Except.ok c5result ∧
     ((c5result.getF summaryKey).getF dtKey).getF countKey = JsVal.num 3 ∧
     ((c5result.getF summaryKey).getF dtKey).getF dimsKey
       = JsVal.arr [JsVal.str "4x5".data]) ∧
    (∀ (text : List Char) (r : JsVal), analyzeParse text = .ok r →
      ((((r.getF summaryKey).getF dtKey).truthy = true →
        (((r.getF summaryKey).getF dtKey).getF countKey).isNum = true ∧
        (((r.getF summaryKey).getF dtKey).getF dimsKey).isArr = true) ∧
       r.getF dataKey ≠ JsVal.undef ∧ r.getF dataKey ≠ JsVal.null)) := by
  refine ⟨⟨by rfl, by rfl, by rfl⟩, ?_⟩
  intro text r h
  exact analyzeParse_post h

/-- C5 witness: the general postcondition applied to the concrete input. -/
theorem claim_C5_witness :
    (((c5result.getF summaryKey).getF dtKey).getF countKey).isNum = true ∧
    (((c5result.getF summaryKey).getF dtKey).getF dimsKey).isArr = true :=
  (claim_C5_validator.2 c5text c5result (by rfl)).1 (by rfl)

/-! ## Claim C6 — the direct-parse path on already-valid input -/

theorem foldl_no_key (k : List Char) :
    ∀ (t : List (List Char × JsVal)) (a : Option JsVal),
      (∀ kv ∈ t, kv.1 ≠ k) →
      t.foldl (fun acc kv => if kv.1 = k then some kv.2 else acc) a = a := by
  intro t
  induction t with
  | nil =>
    intro a h
    rfl
  | cons kv r ih =>
    intro a h
    rw [List.foldl_cons, if_neg (h kv (List.mem_cons_self kv r))]
    exact ih a (fun kv2 hm => h kv2 (List.mem_cons_of_mem kv hm))

theorem map_no_key (k : List Char) (x : JsVal) :
    ∀ (t : List (List Char × JsVal)), (∀ kv ∈ t, kv.1 ≠ k) →
      t.map (fun kv => if kv.1 = k then (kv.1, x) else kv) = t := by
  intro t
  induction t with
  | nil =>
    intro h
    rfl
  | cons kv r ih =>
    intro h
    rw [List.map_cons, if_neg (h kv (List.mem_cons_self kv r)),
      ih (fun kv2 hm => h kv2 (List.mem_cons_of_mem kv hm))]

theorem map_overwrite_id (k : List Char) (x : JsVal) :
    ∀ (ms : List (List Char × JsVal)), (ms.map Prod.fst).Nodup →
      JsVal.lookupLast ms k = some x →
      ms.map (fun kv => if kv.1 = k then (kv.1, x) else kv) = ms := by
  intro ms
  induction ms with
  | nil =>
    intro hnd hl
    rw [JsVal.lookupLast] at hl
    cases hl
  | cons kv t ih =>
    intro hnd hl
    obtain ⟨k1, v1⟩ := kv
    rw [JsVal.lookupLast, List.foldl_cons] at hl
    rw [List.map_cons] at hnd
    obtain ⟨hni, hndt⟩ := List.nodup_cons.mp hnd
    by_cases hk : (k1, v1).1 = k
    · rw [if_pos hk] at hl
      have hnk : ∀ kv2 ∈ t, kv2.1 ≠ k := by
        intro kv2 hm he
        refine hni ?_
        show k1 ∈ List.map Prod.fst t
        have hkk : k1 = kv2.1 := by
          have h1 : k1 = k := hk
          rw [h1, ← he]
        rw [hkk]
        exact List.mem_map_of_mem Prod.fst hm
      rw [foldl_no_key k t _ hnk] at hl
      injection hl with hx
      rw [List.map_cons, if_pos hk, map_no_key k x t hnk]
      rw [← hx]
    · rw [if_neg hk] at hl
      rw [List.map_cons, if_neg hk, ih hndt (show JsVal.lookupLast t k = some x from hl)]

theorem setF_lookup_id {ms : List (List Char × JsVal)} {k : List Char} {x : JsVal}
    (hnd : (ms.map Prod.fst).Nodup) (hl : JsVal.lookupLast ms k = some x) :
    (JsVal.obj ms).setF k x = JsVal.obj ms := by
  rw [JsVal.setF, if_pos (by rw [hl]; rfl)]
  rw [map_overwrite_id k x ms hnd hl]

theorem tryDirect_identity {cs : List Char} {ms : List (List Char × JsVal)}
    (hj : jsonParse cs = some (JsVal.obj ms))
    (hnd : (ms.map Prod.fst).Nodup)
    (hpdf : ∃ s, JsVal.lookupLast ms pdfKey = some (JsVal.str s) ∧ s ≠ [] ∧
      GS.fixEscapedNewlinesS s = s)
    (hex : ∃ s, JsVal.lookupLast ms excelKey = some (JsVal.str s) ∧
      GS.fixEscapedNewlinesS s = s)
    (hdata : ∃ d, JsVal.lookupLast ms dataKey = some d ∧ d ≠ JsVal.undef ∧
      d ≠ JsVal.null) :
    GS.tryDirect cs = some (JsVal.obj ms) := by
  obtain ⟨s, hls, hsne, hsfix⟩ := hpdf
  obtain ⟨es, hle, hefix⟩ := hex
  obtain ⟨d, hld, hdu, hdn⟩ := hdata
  rw [GS.tryDirect, hj]
  dsimp only
  rw [show GS.jsGetField (JsVal.obj ms) pdfKey
      = Except.ok ((JsVal.lookupLast ms pdfKey).getD JsVal.undef) from rfl]
  rw [hls]
  dsimp only [Option.getD]
  have hst : (JsVal.str s).truthy = true := by
    cases s with
    | nil => exact absurd rfl hsne
    | cons c t => rfl
  rw [if_pos hst]
  have hfv : GS.fixEscapedNewlinesV (JsVal.str s) = .ok (JsVal.str s) := by
    rw [GS.fixEscapedNewlinesV.eq_def, if_neg (by rw [hst]; simp)]
    dsimp only
    rw [hsfix]
  rw [hfv]
  dsimp only
  rw [setF_lookup_id hnd hls]
  rw [show GS.jsGetField (JsVal.obj ms) excelKey
      = Except.ok ((JsVal.lookupLast ms excelKey).getD JsVal.undef) from rfl]
  rw [hle]
  dsimp only [Option.getD]
  have hfe : GS.fixEscapedNewlinesV (JsVal.str es) = .ok (JsVal.str es) := by
    cases es with
    | nil => rfl
    | cons c t =>
      rw [GS.fixEscapedNewlinesV.eq_def, if_neg (by simp [JsVal.truthy])]
      dsimp only
      rw [hefix]
  rw [hfe]
  dsimp only
  rw [setF_lookup_id hnd hle]
  rw [show (JsVal.obj ms).getF dataKey
      = (JsVal.lookupLast ms dataKey).getD JsVal.undef from rfl]
  rw [hld]
  dsimp only [Option.getD]
  cases d
  case undef => exact absurd rfl hdu
  case null => exact absurd rfl hdn
  all_goals rfl

def c6text : List Char :=
  ("\x7b\"pdfMakeCode\": \"function f()\\\\ng()\", \"excelJSCode\": \"function e()\", " ++
   "\"extractedData\": []\x7d").data

def c6gtext : List Char :=
  ("\x7b\"pdfMakeCode\": \"function f()\", \"excelJSCode\": \"function e()\", " ++
   "\"extractedData\": []\x7d").data

def c6pdfRaw : List Char := "function f()\\ng()".data

def c6pdfFixed : List Char := "function f()\ng()".data

def c6ms : List (List Char × JsVal) :=
  [(pdfKey, JsVal.str "function f()".data),
   (excelKey, JsVal.str "function e()".data),
   (dataKey, JsVal.arr [])]

/-- C6 counterexample: a schema-valid input whose `pdfMakeCode` contains a
literal backslash-n is parsed, but the direct path returns it with a real
newline substituted — not the parsed value unchanged. -/
theorem claim_C6_counterexample :
    (∃ v, jsonParse (GS.cleanJson c6text) = some v ∧
      v.getF pdfKey = JsVal.str c6pdfRaw) ∧
    (∃ r, GS.parseRobustJson c6text = Except.ok r ∧
      r.getF pdfKey = JsVal.str c6pdfFixed) ∧
    c6pdfRaw ≠ c6pdfFixed := by
  refine ⟨⟨_, by rfl, by rfl⟩, ⟨_, by rfl, by rfl⟩, by decide⟩

/-- C6 (amended): on an input whose sanitized text parses to an object with
distinct keys, a nonempty `pdfMakeCode` string fixed by the newline passes,
an `excelJSCode` string likewise fixed, and a present non-null
`extractedData`, the direct-parse path returns the parsed value unchanged.
Inputs whose code strings contain a literal backslash-n are mutated
(see the counterexample). -/
theorem claim_C6_direct_identity (text : List Char) (ms : List (List Char × JsVal))
    (hj : jsonParse (GS.cleanJson text) = some (JsVal.obj ms))
    (hnd : (ms.map Prod.fst).Nodup)
    (hpdf : ∃ s, JsVal.lookupLast ms pdfKey = some (JsVal.str s) ∧ s ≠ [] ∧
      GS.fixEscapedNewlinesS s = s)
    (hex : ∃ s, JsVal.lookupLast ms excelKey = some (JsVal.str s) ∧
      GS.fixEscapedNewlinesS s = s)
    (hdata : ∃ d, JsVal.lookupLast ms dataKey = some d ∧ d ≠ JsVal.undef ∧
      d ≠ JsVal.null) :
    GS.parseRobustJson text = Except.ok (JsVal.obj ms) := by
  have htd := tryDirect_identity hj hnd hpdf hex hdata
  rw [GS.parseRobustJson]
  simp only [htd]

/-- C6 witness: the identity theorem applied to a concrete schema-valid
input with no escaped newlines. -/
theorem claim_C6_witness :
    GS.parseRobustJson c6gtext = Except.ok (JsVal.obj c6ms) :=
  claim_C6_direct_identity c6gtext c6ms (by rfl) (by decide)
    ⟨"function f()".data, by rfl, by decide, by rfl⟩
    ⟨"function e()".data, by rfl, by rfl⟩
    ⟨JsVal.arr [], by rfl, fun hx => JsVal.noConfusion hx, fun hx => JsVal.noConfusion hx⟩

/-! ## Claim C1 — the balanced-block scanner -/

theorem stringStep_ob (st : PB.BState) (c : Char) :
    (PB.stringStep st c).openBraces = st.openBraces ∧
    (PB.stringStep st c).foundStart = st.foundStart := by
  rw [PB.stringStep]
  repeat' split
  all_goals simp

theorem commentStep_ob (st1 : PB.BState) (c : Char) (next : Option Char) :
    ((PB.commentStep st1 c next).1).openBraces = st1.openBraces ∧
    ((PB.commentStep st1 c next).1).foundStart = st1.foundStart := by
  rw [PB.commentStep]
  repeat' split
  all_goals simp

theorem commentStep_extra {st1 : PB.BState} {c : Char} {next : Option Char}
    (h : (PB.commentStep st1 c next).2 = true) : c = '/' ∨ c = '*' := by
  rw [PB.commentStep] at h
  repeat' split at h
  all_goals simp_all

theorem braceStep_shape (st2 : PB.BState) (c : Char) :
    ((PB.braceStep st2 c).openBraces = st2.openBraces ∧
      (PB.braceStep st2 c).foundStart = st2.foundStart) ∨
    (c = '{' ∧ (PB.braceStep st2 c).openBraces = st2.openBraces + 1 ∧
      (PB.braceStep st2 c).foundStart = true) ∨
    (c = '}' ∧ (PB.braceStep st2 c).openBraces = st2.openBraces - 1 ∧
      (PB.braceStep st2 c).foundStart = st2.foundStart) := by
  rw [PB.braceStep]
  repeat' split
  all_goals simp_all

theorem stepChar_shape (st : PB.BState) (c : Char) (next : Option Char) :
    ((PB.stepChar st c next).1.openBraces = st.openBraces ∧
      (PB.stepChar st c next).1.foundStart = st.foundStart) ∨
    (c = '{' ∧ (PB.stepChar st c next).1.openBraces = st.openBraces + 1 ∧
      (PB.stepChar st c next).1.foundStart = true) ∨
    (c = '}' ∧ (PB.stepChar st c next).1.openBraces = st.openBraces - 1 ∧
      (PB.stepChar st c next).1.foundStart = st.foundStart ∧
      (PB.stepChar st c next).2 = false) := by
  rw [PB.stepChar]
  cases hcs : PB.commentStep (PB.stringStep st c) c next with
  | mk st2 extra =>
    dsimp only
    obtain ⟨hs1, hs2⟩ := stringStep_ob st c
    have hco := commentStep_ob (PB.stringStep st c) c next
    rw [hcs] at hco
    obtain ⟨hc1, hc2⟩ := hco
    rcases braceStep_shape st2 c with ⟨hb1, hb2⟩ | ⟨hc, hb1, hb2⟩ | ⟨hc, hb1, hb2⟩
    · exact Or.inl ⟨by rw [hb1, hc1, hs1], by rw [hb2, hc2, hs2]⟩
    · exact Or.inr (Or.inl ⟨hc, by rw [hb1, hc1, hs1], hb2⟩)
    · refine Or.inr (Or.inr ⟨hc, by rw [hb1, hc1, hs1], by rw [hb2, hc2, hs2], ?_⟩)
      cases hex : extra
      · rfl
      · have := commentStep_extra (by rw [hcs, hex])
        rcases this with h1 | h1
        · rw [hc] at h1
          cases h1
        · rw [hc] at h1
          cases h1


theorem take_cons_getLast {c : Char} {t : List Char} {m : Nat}
    (hm1 : 1 ≤ m) (hm2 : m ≤ t.length)
    (hm3 : (t.take m).getLast? = some '}') :
    ((c :: t).take (m + 1)).getLast? = some '}' := by
  rw [List.take_succ_cons]
  cases hm : t.take m with
  | nil =>
    exfalso
    have hlen := congrArg List.length hm
    simp only [List.length_take, List.length_nil] at hlen
    omega
  | cons x xs =>
    rw [hm] at hm3
    rw [List.getLast?_cons_cons]
    exact hm3

theorem scanAux_brace :
    ∀ (fuel : Nat) (st : PB.BState) (l : List Char) (n : Nat),
      st.foundStart = true → 1 ≤ st.openBraces →
      PB.scanAux st fuel l = some n →
      1 ≤ n ∧ n ≤ l.length ∧ (l.take n).getLast? = some '}' := by
  intro fuel
  induction fuel with
  | zero =>
    intro st l n hf hob h
    cases l with
    | nil => simp only [PB.scanAux] at h; cases h
    | cons c t => simp only [PB.scanAux] at h; cases h
  | succ f ih =>
    intro st l n hf hob h
    cases l with
    | nil => simp only [PB.scanAux] at h; cases h
    | cons c t =>
      simp only [PB.scanAux] at h
      split at h
      · -- escape branch: two characters consumed, state unchanged
        cases t with
        | nil => cases h
        | cons d t2 =>
          dsimp only at h
          cases hr : PB.scanAux st f t2 with
          | none =>
            rw [hr, Option.map_none'] at h
            cases h
          | some m =>
            rw [hr, Option.map_some'] at h
            injection h with h2
            subst h2
            obtain ⟨hm1, hm2, hm3⟩ := ih st t2 m hf hob hr
            refine ⟨by omega, ?_, ?_⟩
            · simp only [List.length_cons]
              omega
            · show ((c :: d :: t2).take (m + 2)).getLast? = some '}'
              rw [show m + 2 = (m + 1) + 1 from rfl]
              exact take_cons_getLast (by omega)
                (by simp only [List.length_cons]; omega)
                (take_cons_getLast hm1 hm2 hm3)
      · -- regular branch
        cases hsc : PB.stepChar st c t.head? with
        | mk st3 extra =>
          rw [hsc] at h
          dsimp only at h
          have hshape := stepChar_shape st c t.head?
          rw [hsc] at hshape
          dsimp only at hshape
          by_cases hstop : PB.stopCond st3 = true
          · rw [if_pos hstop] at h
            have hob3 : st3.openBraces = 0 := by
              rw [PB.stopCond] at hstop
              have := (Bool.and_eq_true _ _).mp hstop
              simpa using this.2
            rcases hshape with ⟨h1, h2⟩ | ⟨hc, h1, h2⟩ | ⟨hc, h1, h2, h3⟩
            · omega
            · omega
            · subst hc
              rw [h3] at h
              simp only [Bool.false_eq_true, if_false] at h
              injection h with h2x
              subst h2x
              refine ⟨by omega, by simp, by simp⟩
          · rw [if_neg hstop] at h
            have hfs3 : st3.foundStart = true := by
              rcases hshape with ⟨h1, h2⟩ | ⟨hc, h1, h2⟩ | ⟨hc, h1, h2, h3⟩
              · rw [h2]; exact hf
              · exact h2
              · rw [h2]; exact hf
            have hob3 : 1 ≤ st3.openBraces := by
              rcases hshape with ⟨h1, h2⟩ | ⟨hc, h1, h2⟩ | ⟨hc, h1, h2, h3⟩
              · omega
              · omega
              · by_cases hz : st3.openBraces = 0
                · exfalso
                  refine hstop ?_
                  rw [PB.stopCond, hfs3, hz]
                  rfl
                · omega
            cases hr : PB.scanAux st3 f (if extra = true then t.drop 1 else t) with
            | none =>
              rw [hr, Option.map_none'] at h
              cases h
            | some m =>
              rw [hr, Option.map_some'] at h
              injection h with h2
              subst h2
              obtain ⟨hm1, hm2, hm3⟩ := ih st3 _ m hfs3 hob3 hr
              cases extra
              · simp only [Bool.false_eq_true, if_false] at hm2 hm3 ⊢
                refine ⟨by omega, ?_, ?_⟩
                · simp only [List.length_cons]
                  omega
                · exact take_cons_getLast hm1 hm2 hm3
              · simp only [eq_self_iff_true, if_true] at hm2 hm3 ⊢
                cases t with
                | nil =>
                  exfalso
                  simp only [List.drop_nil, List.length_nil] at hm2
                  omega
                | cons d t2 =>
                  simp only [List.drop_succ_cons, List.drop_zero] at hm2 hm3
                  refine ⟨by omega, ?_, ?_⟩
                  · simp only [List.length_cons]
                    omega
                  · show ((c :: d :: t2).take (m + 2)).getLast? = some '}'
                    rw [show m + 2 = (m + 1) + 1 from rfl]
                    exact take_cons_getLast (by omega)
                      (by simp only [List.length_cons]; omega)
                      (take_cons_getLast hm1 hm2 hm3)

theorem scanAux_head_brace (fuel : Nat) (t : List Char) :
    PB.scanAux PB.initState (fuel + 1) ('{' :: t)
      = (PB.scanAux (PB.BState.mk 1 true none none) fuel t).map (· + 1) := rfl

theorem extractBalancedBlock_closes (source : List Char) (startIdx : Nat) (out : List Char)
    (hh : (source.drop startIdx).head? = some '{')
    (h : PB.extractBalancedBlock source startIdx = some out) :
    out.head? = some '{' ∧ out.getLast? = some '}' ∧
    ∃ n, 1 ≤ n ∧ n ≤ (source.drop startIdx).length ∧
      out = (source.drop startIdx).take n := by
  rw [PB.extractBalancedBlock] at h
  cases hl : source.drop startIdx with
  | nil =>
    rw [hl] at hh
    cases hh
  | cons c t =>
    rw [hl] at hh h
    injection hh with hc
    subst hc
    rw [show ('{' :: t).length = t.length + 1 from rfl, scanAux_head_brace] at h
    cases hr : PB.scanAux (PB.BState.mk 1 true none none) t.length t with
    | none =>
      rw [hr, Option.map_none'] at h
      cases h
    | some m =>
      rw [hr, Option.map_some'] at h
      dsimp only at h
      injection h with h2
      obtain ⟨hm1, hm2, hm3⟩ :=
        scanAux_brace t.length (PB.BState.mk 1 true none none) t m rfl (le_refl 1) hr
      subst h2
      refine ⟨?_, ?_, m + 1, by omega, by simp only [List.length_cons]; omega, rfl⟩
      · rw [List.take_succ_cons]
        rfl
      · exact take_cons_getLast hm1 hm2 hm3

def c1btext : List Char := "\x7d\x7b".data
def c1ex1 : List Char := "\x7ba: \"\x7d\", b: \x7b\x7d\x7d".data
def c1ex2 : List Char := "\x7b // comment with \x7d inside\n x: 1 \x7d".data
def c1ex3 : List Char := "\x7ba".data

/-- C1 counterexample: on the source `}{` starting at index 0 the scanner
returns the whole span, which ends at an opening brace — there is no closing
brace returning the depth to zero after an opening brace was seen, yet the
result is not NotFound. -/
theorem claim_C1_counterexample :
    PB.extractBalancedBlock c1btext 0 = some c1btext ∧
    c1btext.getLast? = some '{' := ⟨by decide, by decide⟩

/-- C1 (amended): the scanner returns the claim's two example spans whole
and NotFound on truncated input; and whenever the scan starts at an opening
brace, the returned block is a prefix of the scanned suffix that starts with
`{` and ends with the closing `}` whose step first satisfies the stop
condition.  Without that head hypothesis the stop condition can be reached
at an opening brace (see the counterexample). -/
theorem claim_C1_balanced_scanner :
    (PB.extractBalancedBlock c1ex1 0 = some c1ex1 ∧
     PB.extractBalancedBlock c1ex2 0 = some c1ex2 ∧
     PB.extractBalancedBlock c1ex3 0 = none) ∧
    (∀ (source : List Char) (startIdx : Nat) (out : List Char),
      (source.drop startIdx).head? = some '{' →
      PB.extractBalancedBlock source startIdx = some out →
      out.head? = some '{' ∧ out.getLast? = some '}' ∧
      ∃ n, 1 ≤ n ∧ n ≤ (source.drop startIdx).length ∧
        out = (source.drop startIdx).take n) := by
  refine ⟨⟨by decide, by decide, by decide⟩, ?_⟩
  intro source startIdx out hh h
  exact extractBalancedBlock_closes source startIdx out hh h

/-- C1 witness: the general statement applied to the first example. -/
theorem claim_C1_witness :
    c1ex1.head? = some '{' ∧ c1ex1.getLast? = some '}' ∧
    ∃ n, 1 ≤ n ∧ n ≤ (c1ex1.drop 0).length ∧ c1ex1 = (c1ex1.drop 0).take n :=
  claim_C1_balanced_scanner.2 c1ex1 0 c1ex1 (by decide) (by decide)

namespace RJ

/-! ## Specification-level definitions for the truncation-repair claim

`renderF`/`cleanValF` are written from the claim's words ("well-formed
structured text"), not from the repository: they give the minified JSON
rendering of a value and a cleanliness predicate (no arrays, object root
via the claim theorem, plain strings, canonical nonnegative integers) under
which the rendering is unambiguous for bracket counting.  They are compared
against the source functions (`P04.cleanJson`, `P04.repairStep`,
`jsonParse`) in the claim's theorems. -/

/-- The decimal digit character. -/
def digCh : Nat → Char
  | 0 => '0'
  | 1 => '1'
  | 2 => '2'
  | 3 => '3'
  | 4 => '4'
  | 5 => '5'
  | 6 => '6'
  | 7 => '7'
  | 8 => '8'
  | _ => '9'

def natDigitsAux : Nat → Nat → List Char
  | 0, _ => []
  | fuel + 1, n =>
    if n < 10 then [digCh n]
    else natDigitsAux fuel (n / 10) ++ [digCh (n % 10)]

/-- Decimal rendering of a natural number. -/
def natDigits (n : Nat) : List Char := natDigitsAux (n + 1) n

/-- Characters allowed in a clean string: no quote, no backslash, no
structural bracket, no control character, no whitespace (so trimming cannot
touch a rendering), and no backtick (so fence stripping cannot). -/
def strOKc (c : Char) : Bool :=
  !(c == '"') && !(c == '\\') && !(c == '{') && !(c == '}') &&
  !(c == '[') && !(c == ']') && decide (0x20 ≤ c.toNat) &&
  !(isWsBig c) && !(c == bt)

mutual

/-- Minified JSON rendering (fuel-indexed; arrays and non-JSON values render
empty and are excluded by `cleanValF`). -/
def renderF : Nat → JsVal → List Char
  | 0, _ => []
  | _ + 1, JsVal.null => "null".data
  | _ + 1, JsVal.bool true => "true".data
  | _ + 1, JsVal.bool false => "false".data
  | _ + 1, JsVal.num n => natDigits n.toNat
  | _ + 1, JsVal.str s => '"' :: s ++ ['"']
  | f + 1, JsVal.obj ms => '{' :: renderMemsF f ms ++ ['}']
  | _ + 1, _ => []

def renderMemsF : Nat → List (List Char × JsVal) → List Char
  | 0, _ => []
  | _ + 1, [] => []
  | f + 1, (k, w) :: [] => '"' :: k ++ '"' :: ':' :: renderF f w
  | f + 1, (k, w) :: t =>
    ('"' :: k ++ '"' :: ':' :: renderF f w) ++ ',' :: renderMemsF f t

end

mutual

/-- Cleanliness: `null`, booleans, nonnegative integers, nonempty plain
strings, and objects of clean members with nonempty plain keys. -/
def cleanValF : Nat → JsVal → Bool
  | 0, _ => false
  | _ + 1, JsVal.null => true
  | _ + 1, JsVal.bool _ => true
  | _ + 1, JsVal.num n => decide (0 ≤ n)
  | _ + 1, JsVal.str s => !s.isEmpty && s.all strOKc
  | f + 1, JsVal.obj ms => cleanMemsF f ms
  | _ + 1, _ => false

def cleanMemsF : Nat → List (List Char × JsVal) → Bool
  | 0, _ => false
  | _ + 1, [] => true
  | f + 1, (k, w) :: t =>
    (!k.isEmpty && k.all strOKc) && cleanValF f w && cleanMemsF f t

end

/-- A list on which a rendered number may stop: empty, or starting with
none of digit, dot, exponent letter. -/
def numStopOK : List Char → Bool
  | [] => true
  | c :: _ => !(isDigitC c) && !(c == '.') && !(c == 'e') && !(c == 'E')

end RJ

/-! ## Digit and number lemmas for the renderer -/

theorem digCh_toNat {d : Nat} (h : d < 10) : (RJ.digCh d).toNat = 48 + d := by
  interval_cases d <;> rfl

theorem digCh_digit {d : Nat} (h : d < 10) : isDigitC (RJ.digCh d) = true := by
  interval_cases d <;> rfl

theorem digCh_ne_zero {d : Nat} (h1 : 1 ≤ d) (h : d < 10) : RJ.digCh d ≠ '0' := by
  interval_cases d <;> decide

theorem natDigitsAux_mem {c : Char} :
    ∀ {f n : Nat}, c ∈ RJ.natDigitsAux f n → ∃ d, d < 10 ∧ c = RJ.digCh d := by
  intro f
  induction f with
  | zero =>
    intro n h
    rw [RJ.natDigitsAux] at h
    cases h
  | succ f2 ih =>
    intro n h
    rw [RJ.natDigitsAux] at h
    split at h
    · next hlt =>
      rcases List.mem_singleton.mp h with rfl
      exact ⟨n, hlt, rfl⟩
    · rcases List.mem_append.mp h with h1 | h1
      · exact ih h1
      · rcases List.mem_singleton.mp h1 with rfl
        exact ⟨n % 10, Nat.mod_lt n (by omega), rfl⟩

theorem natDigitsAux_digits {c : Char} {f n : Nat}
    (h : c ∈ RJ.natDigitsAux f n) : isDigitC c = true := by
  obtain ⟨d, hd, rfl⟩ := natDigitsAux_mem h
  exact digCh_digit hd

theorem digitsToNat_append_one (A : List Char) (c : Char) :
    JP.digitsToNat (A ++ [c]) = JP.digitsToNat A * 10 + (c.toNat - '0'.toNat) := by
  rw [JP.digitsToNat, JP.digitsToNat, List.foldl_append]
  rfl

theorem digitsToNat_natDigitsAux :
    ∀ (f n : Nat), n < f → JP.digitsToNat (RJ.natDigitsAux f n) = n := by
  intro f
  induction f with
  | zero =>
    intro n h
    omega
  | succ f2 ih =>
    intro n h
    rw [RJ.natDigitsAux]
    split
    · next hlt =>
      show JP.digitsToNat ([] ++ [RJ.digCh n]) = n
      rw [digitsToNat_append_one]
      rw [digCh_toNat hlt]
      show 0 * 10 + (48 + n - '0'.toNat) = n
      have : '0'.toNat = 48 := rfl
      omega
    · next hlt =>
      rw [digitsToNat_append_one]
      rw [ih (n / 10) (by omega)]
      rw [digCh_toNat (Nat.mod_lt n (by omega))]
      have : '0'.toNat = 48 := rfl
      omega

theorem digitsToNat_natDigits (m : Nat) : JP.digitsToNat (RJ.natDigits m) = m :=
  digitsToNat_natDigitsAux (m + 1) m (by omega)

theorem natDigitsAux_head :
    ∀ (f n : Nat), 1 ≤ n → n < f →
      ∃ d t, RJ.natDigitsAux f n = RJ.digCh d :: t ∧ 1 ≤ d ∧ d < 10 := by
  intro f
  induction f with
  | zero =>
    intro n h1 h
    omega
  | succ f2 ih =>
    intro n h1 h
    rw [RJ.natDigitsAux]
    split
    · next hlt => exact ⟨n, [], rfl, h1, hlt⟩
    · next hlt =>
      obtain ⟨d, t, he, hd1, hd2⟩ := ih (n / 10) (by omega) (by omega)
      exact ⟨d, t ++ [RJ.digCh (n % 10)], by rw [he]; rfl, hd1, hd2⟩

theorem natDigits_head (m : Nat) :
    ∃ d t, RJ.natDigits m = RJ.digCh d :: t ∧ d < 10 := by
  cases m with
  | zero => exact ⟨0, [], rfl, by omega⟩
  | succ m2 =>
    obtain ⟨d, t, he, h1, h2⟩ := natDigitsAux_head (m2 + 2) (m2 + 1) (by omega) (by omega)
    exact ⟨d, t, he, h2⟩

theorem takeDigits_stop {rest : List Char} (h : RJ.numStopOK rest = true) :
    JP.takeDigits rest = ([], rest) := by
  cases rest with
  | nil => rfl
  | cons c r =>
    rw [JP.takeDigits]
    rw [RJ.numStopOK] at h
    rw [if_neg (by simp_all)]

theorem takeDigits_all :
    ∀ (A rest : List Char), (∀ c ∈ A, isDigitC c = true) → RJ.numStopOK rest = true →
      JP.takeDigits (A ++ rest) = (A, rest) := by
  intro A
  induction A with
  | nil =>
    intro rest h1 h2
    exact takeDigits_stop h2
  | cons c t ih =>
    intro rest h1 h2
    rw [List.cons_append, JP.takeDigits]
    rw [if_pos (h1 c (List.mem_cons_self c t))]
    rw [ih rest (fun d hd => h1 d (List.mem_cons_of_mem c hd)) h2]

theorem intDigits_natDigits (m : Nat) {rest : List Char}
    (hrest : RJ.numStopOK rest = true) :
    JP.intDigits (RJ.natDigits m ++ rest) = some (RJ.natDigits m, rest) := by
  by_cases hm : m < 10
  · have he : RJ.natDigits m = [RJ.digCh m] := by
      rw [RJ.natDigits, RJ.natDigitsAux, if_pos hm]
    rw [he]
    by_cases hz : m = 0
    · subst hz
      cases rest with
      | nil => rfl
      | cons c r =>
        show JP.intDigits ('0' :: c :: r) = some (['0'], c :: r)
        rw [JP.intDigits]
        rw [RJ.numStopOK] at hrest
        rw [if_neg (by simp_all)]
    · have h1 : 1 ≤ m := by omega
      rw [List.singleton_append, JP.intDigits.eq_def]
      split
      · next c r heq =>
        exfalso
        injection heq with he1 he2
        exact digCh_ne_zero h1 hm he1
      · next heq =>
        exfalso
        have := congrArg List.length heq
        simp at this
        cases rest with
        | nil =>
          injection heq with he1 he2
          exact digCh_ne_zero h1 hm he1
        | cons c r => simp at this
      · next c r heq =>
        injection heq with he1 he2
        subst he1
        subst he2
        rw [if_pos (digCh_digit hm)]
        rw [takeDigits_stop hrest]
      · next heq =>
        exfalso
        simp at heq
  · have hsplit : RJ.natDigits m
        = RJ.natDigitsAux m (m / 10) ++ [RJ.digCh (m % 10)] := by
      rw [RJ.natDigits, RJ.natDigitsAux, if_neg hm]
    obtain ⟨d, t, he, hd1, hd2⟩ := natDigitsAux_head m (m / 10) (by omega) (by omega)
    rw [hsplit, he]
    rw [List.cons_append, List.cons_append, JP.intDigits.eq_def]
    split
    · next c r heq =>
      exfalso
      injection heq with he1 he2
      exact digCh_ne_zero hd1 hd2 he1
    · next heq =>
      exfalso
      have := congrArg List.length heq
      simp at this
    · next c r heq =>
      injection heq with he1 he2
      subst he1
      subst he2
      rw [if_pos (digCh_digit hd2)]
      have hall : ∀ c2 ∈ t ++ [RJ.digCh (m % 10)], isDigitC c2 = true := by
        intro c2 hc2
        rcases List.mem_append.mp hc2 with h1 | h1
        · have hmem : c2 ∈ RJ.natDigitsAux m (m / 10) := by
            rw [he]
            exact List.mem_cons_of_mem _ h1
          exact natDigitsAux_digits hmem
        · rcases List.mem_singleton.mp h1 with rfl
          exact digCh_digit (Nat.mod_lt m (by omega))
      rw [show (t ++ [RJ.digCh (m % 10)]) ++ rest
          = (t ++ [RJ.digCh (m % 10)]) ++ rest from rfl]
      rw [takeDigits_all _ rest hall hrest]
    · next heq =>
      exfalso
      simp at heq

theorem numSign_not_dash {c : Char} (h : ¬ c = '-') (l : List Char) :
    JP.numSign (c :: l) = (false, c :: l) := by
  rw [JP.numSign.eq_def]
  split
  · next r heq =>
    exfalso
    injection heq with he1 he2
    exact h he1
  · rfl

theorem numFracPart_stop {rest : List Char} (h : RJ.numStopOK rest = true) :
    JP.numFracPart rest = some ([], rest) := by
  cases rest with
  | nil => rfl
  | cons c r =>
    rw [JP.numFracPart.eq_def]
    split
    · next r2 heq =>
      exfalso
      injection heq with he1 he2
      rw [RJ.numStopOK] at h
      subst he1
      simp at h
    · rfl

theorem numExpPart_stop {rest : List Char} (h : RJ.numStopOK rest = true) :
    JP.numExpPart rest = some ([], rest) := by
  cases rest with
  | nil => rfl
  | cons c r =>
    rw [JP.numExpPart.eq_def]
    rw [RJ.numStopOK] at h
    split
    · next r2 heq =>
      exfalso
      injection heq with he1 he2
      subst he1
      simp at h
    · next r2 heq =>
      exfalso
      injection heq with he1 he2
      subst he1
      simp at h
    · rfl

theorem parseNum_natDigits (m : Nat) {rest : List Char}
    (hrest : RJ.numStopOK rest = true) :
    JP.parseNum (RJ.natDigits m ++ rest) = some (JsVal.num (m : Int), rest) := by
  obtain ⟨d, t, he, hd⟩ := natDigits_head m
  rw [JP.parseNum]
  rw [he, List.cons_append]
  rw [numSign_not_dash (by interval_cases d <;> decide) (t ++ rest)]
  rw [← List.cons_append, ← he]
  dsimp only
  rw [intDigits_natDigits m hrest]
  dsimp only
  rw [numFracPart_stop hrest]
  dsimp only
  rw [numExpPart_stop hrest]
  dsimp only
  rw [if_pos (show (([] : List Char).isEmpty && ([] : List Char).isEmpty) = true from rfl)]
  rw [digitsToNat_natDigits m]
  rfl

theorem skipWs_cons {c : Char} (h : isWsJson c = false) (l : List Char) :
    JP.skipWs (c :: l) = c :: l := by
  rw [JP.skipWs, if_neg (by simp [h])]

theorem strBody_char {c : Char} (h1 : ¬ c = '"') (h2 : ¬ c = '\\')
    (h3 : ¬ c.toNat < 0x20) (acc l : List Char) :
    JP.strBody acc (c :: l) = JP.strBody (c :: acc) l := by
  rw [JP.strBody.eq_def]
  split
  · next heq =>
    exfalso
    injection heq with he1
    exact h1 he1
  · next heq =>
    exfalso
    injection heq with he1
    exact h2 he1
  · next heq =>
    exfalso
    injection heq with he1
    exact h2 he1
  · next heq =>
    exfalso
    injection heq with he1
    exact h2 he1
  · next c2 r heq =>
    injection heq with he1 he2
    subst he1
    subst he2
    rw [if_neg (by simpa using h3)]
  · next heq =>
    exfalso
    simp at heq

theorem strBody_append :
    ∀ (s acc rest : List Char), s.all RJ.strOKc = true →
      JP.strBody acc (s ++ '"' :: rest) = some (acc.reverse ++ s, rest) := by
  intro s
  induction s with
  | nil =>
    intro acc rest h
    simp [JP.strBody]
  | cons c t ih =>
    intro acc rest h
    rw [List.all_cons, Bool.and_eq_true] at h
    obtain ⟨hc, ht⟩ := h
    rw [RJ.strOKc] at hc
    simp only [Bool.and_eq_true, Bool.not_eq_true', beq_eq_false_iff_ne, ne_eq,
      decide_eq_true_eq] at hc
    rw [List.cons_append]
    rw [strBody_char hc.1.1.1.1.1.1.1.1 hc.1.1.1.1.1.1.1.2 (by omega) acc (t ++ '"' :: rest)]
    rw [ih (c :: acc) rest ht]
    simp

theorem renderF_head {f : Nat} {v : JsVal} (h : RJ.cleanValF f v = true) :
    ∃ c t, RJ.renderF f v = c :: t ∧ isWsJson c = false := by
  cases f with
  | zero =>
    rw [RJ.cleanValF] at h
    cases h
  | succ f2 =>
    cases v
    case null => exact ⟨'n', ['u', 'l', 'l'], rfl, rfl⟩
    case bool b =>
      cases b
      · exact ⟨'f', ['a', 'l', 's', 'e'], rfl, rfl⟩
      · exact ⟨'t', ['r', 'u', 'e'], rfl, rfl⟩
    case num n =>
      obtain ⟨d, t, he, hd⟩ := natDigits_head n.toNat
      exact ⟨RJ.digCh d, t, he, by interval_cases d <;> rfl⟩
    case str s => exact ⟨'"', s ++ ['"'], rfl, rfl⟩
    case obj ms => exact ⟨'{', RJ.renderMemsF f2 ms ++ ['}'], rfl, rfl⟩
    all_goals exact Bool.noConfusion (show false = true from h)

theorem renderMemsF_head {f : Nat} {ms : List (List Char × JsVal)}
    (h : RJ.cleanMemsF f ms = true) (hne : ms ≠ []) :
    ∃ r, RJ.renderMemsF f ms = '"' :: r := by
  cases f with
  | zero =>
    rw [RJ.cleanMemsF] at h
    cases h
  | succ f2 =>
    cases ms with
    | nil => exact absurd rfl hne
    | cons kw t =>
      obtain ⟨k, w⟩ := kw
      cases t with
      | nil => exact ⟨k ++ '"' :: ':' :: RJ.renderF f2 w, rfl⟩
      | cons kw2 t2 =>
        exact ⟨(k ++ '"' :: ':' :: RJ.renderF f2 w) ++ ',' :: RJ.renderMemsF f2 (kw2 :: t2),
          rfl⟩

theorem parseVal_head_digCh {g : Nat} {d : Nat} (hd : d < 10) (l : List Char) :
    JP.parseVal (g + 1) (RJ.digCh d :: l) = JP.parseNum (RJ.digCh d :: l) := by
  interval_cases d <;> rfl

theorem rt_main :
    ∀ (g : Nat),
      (∀ (f : Nat) (v : JsVal) (rest : List Char), RJ.cleanValF f v = true →
        (RJ.renderF f v).length < g → RJ.numStopOK rest = true →
        JP.parseVal g (RJ.renderF f v ++ rest) = some (v, rest)) ∧
      (∀ (f : Nat) (ms : List (List Char × JsVal)) (rest : List Char),
        RJ.cleanMemsF f ms = true → ms ≠ [] →
        (RJ.renderMemsF f ms).length < g →
        JP.parseMembers g (RJ.renderMemsF f ms ++ '}' :: rest) = some (ms, rest)) := by
  intro g
  induction g with
  | zero =>
    constructor
    · intro f v rest hc hlen hstop
      omega
    · intro f ms rest hc hne hlen
      omega
  | succ g2 ih =>
    obtain ⟨ih1, ih2⟩ := ih
    constructor
    · intro f v rest hc hlen hstop
      cases f with
      | zero => exact Bool.noConfusion (show false = true from hc)
      | succ f2 =>
        cases v
        case null => exact rfl
        case bool b => cases b <;> rfl
        case num n =>
          have hn : 0 ≤ n := of_decide_eq_true (show decide (0 ≤ n) = true from hc)
          obtain ⟨d, t, he, hd⟩ := natDigits_head n.toNat
          show JP.parseVal (g2 + 1) (RJ.natDigits n.toNat ++ rest) = some (JsVal.num n, rest)
          rw [he, List.cons_append, parseVal_head_digCh hd, ← List.cons_append, ← he]
          rw [parseNum_natDigits n.toNat hstop]
          rw [Int.toNat_of_nonneg hn]
        case str s =>
          have hs : s.all RJ.strOKc = true :=
            ((Bool.and_eq_true _ _).mp
              (show (!s.isEmpty && s.all RJ.strOKc) = true from hc)).2
          show JP.parseVal (g2 + 1) (('"' :: s ++ ['"']) ++ rest) = some (JsVal.str s, rest)
          rw [show ('"' :: s ++ ['"']) ++ rest = '"' :: (s ++ '"' :: rest) from by simp]
          rw [show JP.parseVal (g2 + 1) ('"' :: (s ++ '"' :: rest))
              = (match JP.strBody [] (s ++ '"' :: rest) with
                 | some (s2, r2) => some (JsVal.str s2, r2)
                 | none => none) from rfl]
          rw [strBody_append s [] rest hs]
          dsimp only [List.reverse_nil, List.nil_append]
        case obj ms =>
          have hm : RJ.cleanMemsF f2 ms = true := hc
          cases ms with
          | nil =>
            cases f2 with
            | zero => exact Bool.noConfusion (show false = true from hm)
            | succ f3 => exact rfl
          | cons kw t =>
            obtain ⟨r, hr⟩ := renderMemsF_head hm (by simp)
            have hlen2 : (RJ.renderMemsF f2 (kw :: t)).length < g2 := by
              have h1 : ('{' :: RJ.renderMemsF f2 (kw :: t) ++ ['}']).length < g2 + 1 := hlen
              simp only [List.length_cons, List.length_append] at h1
              omega
            show JP.parseVal (g2 + 1)
                (('{' :: RJ.renderMemsF f2 (kw :: t) ++ ['}']) ++ rest)
              = some (JsVal.obj (kw :: t), rest)
            rw [show ('{' :: RJ.renderMemsF f2 (kw :: t) ++ ['}']) ++ rest
                = '{' :: (RJ.renderMemsF f2 (kw :: t) ++ '}' :: rest) from by simp]
            rw [hr, List.cons_append]
            rw [show JP.parseVal (g2 + 1) ('{' :: '"' :: (r ++ '}' :: rest))
                = (match JP.parseMembers g2 ('"' :: (r ++ '}' :: rest)) with
                   | some (ms2, r3) => some (JsVal.obj ms2, r3)
                   | none => none) from rfl]
            rw [← List.cons_append, ← hr]
            rw [ih2 f2 (kw :: t) rest hm (by simp) hlen2]
        all_goals exact Bool.noConfusion (show false = true from hc)
    · intro f ms rest hc hne hlen
      cases f with
      | zero => exact Bool.noConfusion (show false = true from hc)
      | succ f2 =>
        cases ms with
        | nil => exact absurd rfl hne
        | cons kw t =>
          obtain ⟨k, w⟩ := kw
          have htriple : ((!k.isEmpty && k.all RJ.strOKc) && RJ.cleanValF f2 w
              && RJ.cleanMemsF f2 t) = true := hc
          rw [Bool.and_eq_true, Bool.and_eq_true] at htriple
          obtain ⟨⟨hk, hw⟩, ht⟩ := htriple
          have hkall : k.all RJ.strOKc = true := ((Bool.and_eq_true _ _).mp hk).2
          obtain ⟨cv, tv, hev, hwsv⟩ := renderF_head hw
          cases t with
          | nil =>
            have hlen2 : ('"' :: k ++ '"' :: ':' :: RJ.renderF f2 w).length < g2 + 1 := hlen
            simp only [List.length_cons, List.length_append] at hlen2
            have hlenw : (RJ.renderF f2 w).length < g2 := by omega
            show JP.parseMembers (g2 + 1)
                (('"' :: k ++ '"' :: ':' :: RJ.renderF f2 w) ++ '}' :: rest)
              = some ([(k, w)], rest)
            rw [show ('"' :: k ++ '"' :: ':' :: RJ.renderF f2 w) ++ '}' :: rest
                = '"' :: (k ++ '"' :: (':' :: (RJ.renderF f2 w ++ '}' :: rest)))
                from by simp]
            rw [show JP.parseMembers (g2 + 1)
                ('"' :: (k ++ '"' :: (':' :: (RJ.renderF f2 w ++ '}' :: rest))))
                = (match JP.strBody []
                    (k ++ '"' :: (':' :: (RJ.renderF f2 w ++ '}' :: rest))) with
                   | none => none
                   | some (key, r1) =>
                     match JP.skipWs r1 with
                     | ':' :: r2 =>
                       (match JP.parseVal g2 (JP.skipWs r2) with
                        | none => none
                        | some (v, r3) =>
                          match JP.skipWs r3 with
                          | ',' :: r4 =>
                            (match JP.parseMembers g2 (JP.skipWs r4) with
                             | some (ms2, r5) => some ((key, v) :: ms2, r5)
                             | none => none)
                          | '}' :: r4 => some ([(key, v)], r4)
                          | _ => none)
                     | _ => none) from rfl]
            rw [strBody_append k [] _ hkall]
            dsimp only [List.reverse_nil, List.nil_append]
            rw [skipWs_cons (show isWsJson ':' = false from rfl)]
            split
            · next r2 heq =>
              injection heq with q1 q2
              subst q2
              rw [hev, List.cons_append, skipWs_cons hwsv, ← List.cons_append, ← hev]
              rw [ih1 f2 w ('}' :: rest) hw hlenw (by rfl)]
              dsimp only
              rw [skipWs_cons (show isWsJson '}' = false from rfl)]
              split
              · next r4 heq2 =>
                exfalso
                injection heq2 with q3 q4
                simp at q3
              · next r4 heq2 =>
                injection heq2 with q3 q4
                subst q4
                rfl
              · next h1 h2 =>
                exact (h2 rest rfl).elim
            · next h1 =>
              exact (h1 _ rfl).elim
          | cons kw2 t2 =>
            have hlen2 : ((('"' :: k ++ '"' :: ':' :: RJ.renderF f2 w)
                ++ ',' :: RJ.renderMemsF f2 (kw2 :: t2))).length < g2 + 1 := hlen
            simp only [List.length_cons, List.length_append] at hlen2
            have hlenw : (RJ.renderF f2 w).length < g2 := by omega
            have hlenM : (RJ.renderMemsF f2 (kw2 :: t2)).length < g2 := by omega
            obtain ⟨r2m, hr2⟩ := renderMemsF_head ht (by simp)
            show JP.parseMembers (g2 + 1)
                ((('"' :: k ++ '"' :: ':' :: RJ.renderF f2 w)
                  ++ ',' :: RJ.renderMemsF f2 (kw2 :: t2)) ++ '}' :: rest)
              = some ((k, w) :: kw2 :: t2, rest)
            rw [show (('"' :: k ++ '"' :: ':' :: RJ.renderF f2 w)
                  ++ ',' :: RJ.renderMemsF f2 (kw2 :: t2)) ++ '}' :: rest
                = '"' :: (k ++ '"' :: (':' :: (RJ.renderF f2 w
                    ++ ',' :: (RJ.renderMemsF f2 (kw2 :: t2) ++ '}' :: rest))))
                from by simp]
            rw [show JP.parseMembers (g2 + 1)
                ('"' :: (k ++ '"' :: (':' :: (RJ.renderF f2 w
                  ++ ',' :: (RJ.renderMemsF f2 (kw2 :: t2) ++ '}' :: rest)))))
                = (match JP.strBody []
                    (k ++ '"' :: (':' :: (RJ.renderF f2 w
                      ++ ',' :: (RJ.renderMemsF f2 (kw2 :: t2) ++ '}' :: rest)))) with
                   | none => none
                   | some (key, r1) =>
                     match JP.skipWs r1 with
                     | ':' :: r2 =>
                       (match JP.parseVal g2 (JP.skipWs r2) with
                        | none => none
                        | some (v, r3) =>
                          match JP.skipWs r3 with
                          | ',' :: r4 =>
                            (match JP.parseMembers g2 (JP.skipWs r4) with
                             | some (ms2, r5) => some ((key, v) :: ms2, r5)
                             | none => none)
                          | '}' :: r4 => some ([(key, v)], r4)
                          | _ => none)
                     | _ => none) from rfl]
            rw [strBody_append k [] _ hkall]
            dsimp only [List.reverse_nil, List.nil_append]
            rw [skipWs_cons (show isWsJson ':' = false from rfl)]
            split
            · next r2 heq =>
              injection heq with q1 q2
              subst q2
              rw [hev, List.cons_append, skipWs_cons hwsv, ← List.cons_append, ← hev]
              rw [ih1 f2 w (',' :: (RJ.renderMemsF f2 (kw2 :: t2) ++ '}' :: rest))
                hw hlenw (by rfl)]
              dsimp only
              rw [skipWs_cons (show isWsJson ',' = false from rfl)]
              split
              · next r4 heq2 =>
                injection heq2 with q3 q4
                subst q4
                rw [hr2, List.cons_append,
                  skipWs_cons (show isWsJson '"' = false from rfl),
                  ← List.cons_append, ← hr2]
                rw [ih2 f2 (kw2 :: t2) rest ht (by simp) hlenM]
              · next r4 heq2 =>
                exfalso
                injection heq2 with q3 q4
                simp at q3
              · next h1 h2 =>
                exact (h1 _ rfl).elim
            · next h1 =>
              exact (h1 _ rfl).elim

theorem jsonParse_renderF {f : Nat} {v : JsVal} (h : RJ.cleanValF f v = true) :
    jsonParse (RJ.renderF f v) = some v := by
  rw [jsonParse]
  have h1 := (rt_main ((RJ.renderF f v).length + 1)).1 f v [] h (by omega) rfl
  rw [show RJ.renderF f v ++ ([] : List Char) = RJ.renderF f v from by simp] at h1
  rw [h1]
  rfl

/-! ## Bracket counting over the rendering -/

theorem countCh_append (x : Char) (a b : List Char) :
    countCh x (a ++ b) = countCh x a + countCh x b := by
  simp [countCh, List.filter_append]

theorem countCh_cons (x c : Char) (l : List Char) :
    countCh x (c :: l) = (if c == x then 1 else 0) + countCh x l := by
  rw [countCh, List.filter_cons]
  split
  · rw [List.length_cons, countCh]
    omega
  · rw [countCh]
    omega

theorem countCh_nil (x : Char) : countCh x [] = 0 := rfl

theorem countCh_eq_zero {x : Char} {l : List Char} (h : ∀ c ∈ l, ¬ c = x) :
    countCh x l = 0 := by
  rw [countCh]
  have : l.filter (fun c => c == x) = [] := by
    rw [List.filter_eq_nil_iff]
    intro a ha
    simp [h a ha]
  rw [this]
  rfl

theorem countCh_repC_self (k : Nat) (c : Char) : countCh c (repC k c) = k := by
  induction k with
  | zero => rfl
  | succ k2 ih =>
    rw [repC, List.replicate_succ, countCh_cons, if_pos (by simp)]
    rw [show List.replicate k2 c = repC k2 c from rfl, ih]
    omega

theorem strOK_no_struct {s : List Char} (h : s.all RJ.strOKc = true) :
    countCh '{' s = 0 ∧ countCh '}' s = 0 ∧ countCh '[' s = 0 ∧ countCh ']' s = 0 := by
  refine ⟨countCh_eq_zero ?_, countCh_eq_zero ?_, countCh_eq_zero ?_, countCh_eq_zero ?_⟩
  all_goals
    intro c hc hcx
  all_goals
    have hall := List.all_eq_true.mp h c hc
  all_goals
    subst hcx
  all_goals
    exact absurd hall (by decide)

theorem natDigits_no_struct (m : Nat) :
    countCh '{' (RJ.natDigits m) = 0 ∧ countCh '}' (RJ.natDigits m) = 0 ∧
    countCh '[' (RJ.natDigits m) = 0 ∧ countCh ']' (RJ.natDigits m) = 0 := by
  refine ⟨countCh_eq_zero ?_, countCh_eq_zero ?_, countCh_eq_zero ?_, countCh_eq_zero ?_⟩
  all_goals
    intro c hc hcx
  all_goals
    obtain ⟨d, hd, rfl⟩ := natDigitsAux_mem hc
  all_goals
    revert hcx
  all_goals
    interval_cases d <;> decide

theorem render_balance :
    ∀ (f : Nat),
      (∀ v, RJ.cleanValF f v = true →
        countCh '{' (RJ.renderF f v) = countCh '}' (RJ.renderF f v) ∧
        countCh '[' (RJ.renderF f v) = 0 ∧ countCh ']' (RJ.renderF f v) = 0) ∧
      (∀ ms, RJ.cleanMemsF f ms = true →
        countCh '{' (RJ.renderMemsF f ms) = countCh '}' (RJ.renderMemsF f ms) ∧
        countCh '[' (RJ.renderMemsF f ms) = 0 ∧
        countCh ']' (RJ.renderMemsF f ms) = 0) := by
  intro f
  induction f with
  | zero =>
    constructor
    · intro v h
      exact absurd h (by rw [RJ.cleanValF]; simp)
    · intro ms h
      exact absurd h (by rw [RJ.cleanMemsF]; simp)
  | succ f2 ih =>
    obtain ⟨ih1, ih2⟩ := ih
    constructor
    · intro v h
      cases v
      case null => exact ⟨rfl, rfl, rfl⟩
      case bool b => cases b <;> exact ⟨rfl, rfl, rfl⟩
      case num n =>
        obtain ⟨h1, h2, h3, h4⟩ := natDigits_no_struct n.toNat
        exact ⟨by rw [show RJ.renderF (f2+1) (JsVal.num n) = RJ.natDigits n.toNat from rfl,
            h1, h2], by exact h3, by exact h4⟩
      case str s =>
        have hs : s.all RJ.strOKc = true :=
          ((Bool.and_eq_true _ _).mp
            (show (!s.isEmpty && s.all RJ.strOKc) = true from h)).2
        obtain ⟨h1, h2, h3, h4⟩ := strOK_no_struct hs
        show countCh '{' ('"' :: s ++ ['"']) = countCh '}' ('"' :: s ++ ['"']) ∧
          countCh '[' ('"' :: s ++ ['"']) = 0 ∧ countCh ']' ('"' :: s ++ ['"']) = 0
        refine ⟨?_, ?_, ?_⟩ <;>
          (simp only [List.cons_append, countCh_cons, countCh_append, countCh_nil]
           simp
           omega)
      case obj ms =>
        obtain ⟨h1, h2, h3⟩ := ih2 ms (show RJ.cleanMemsF f2 ms = true from h)
        show countCh '{' ('{' :: RJ.renderMemsF f2 ms ++ ['}'])
            = countCh '}' ('{' :: RJ.renderMemsF f2 ms ++ ['}']) ∧
          countCh '[' ('{' :: RJ.renderMemsF f2 ms ++ ['}']) = 0 ∧
          countCh ']' ('{' :: RJ.renderMemsF f2 ms ++ ['}']) = 0
        refine ⟨?_, ?_, ?_⟩ <;>
          (simp only [List.cons_append, countCh_cons, countCh_append, countCh_nil]
           simp
           omega)
      all_goals exact Bool.noConfusion (show false = true from h)
    · intro ms h
      cases ms with
      | nil => exact ⟨rfl, rfl, rfl⟩
      | cons kw t =>
        obtain ⟨k, w⟩ := kw
        have htriple : ((!k.isEmpty && k.all RJ.strOKc) && RJ.cleanValF f2 w
            && RJ.cleanMemsF f2 t) = true := h
        rw [Bool.and_eq_true, Bool.and_eq_true] at htriple
        obtain ⟨⟨hk, hw⟩, ht⟩ := htriple
        have hkall : k.all RJ.strOKc = true := ((Bool.and_eq_true _ _).mp hk).2
        obtain ⟨k1, k2, k3, k4⟩ := strOK_no_struct hkall
        obtain ⟨w1, w2, w3⟩ := ih1 w hw
        cases t with
        | nil =>
          show countCh '{' ('"' :: k ++ '"' :: ':' :: RJ.renderF f2 w)
              = countCh '}' ('"' :: k ++ '"' :: ':' :: RJ.renderF f2 w) ∧
            countCh '[' ('"' :: k ++ '"' :: ':' :: RJ.renderF f2 w) = 0 ∧
            countCh ']' ('"' :: k ++ '"' :: ':' :: RJ.renderF f2 w) = 0
          refine ⟨?_, ?_, ?_⟩ <;>
            (simp only [List.cons_append, countCh_cons, countCh_append, countCh_nil]
             simp
             omega)
        | cons kw2 t2 =>
          obtain ⟨t1x, t2x, t3x⟩ := ih2 (kw2 :: t2) ht
          show countCh '{' (('"' :: k ++ '"' :: ':' :: RJ.renderF f2 w)
                ++ ',' :: RJ.renderMemsF f2 (kw2 :: t2))
              = countCh '}' (('"' :: k ++ '"' :: ':' :: RJ.renderF f2 w)
                ++ ',' :: RJ.renderMemsF f2 (kw2 :: t2)) ∧
            countCh '[' (('"' :: k ++ '"' :: ':' :: RJ.renderF f2 w)
                ++ ',' :: RJ.renderMemsF f2 (kw2 :: t2)) = 0 ∧
            countCh ']' (('"' :: k ++ '"' :: ':' :: RJ.renderF f2 w)
                ++ ',' :: RJ.renderMemsF f2 (kw2 :: t2)) = 0
          refine ⟨?_, ?_, ?_⟩ <;>
            (simp only [List.cons_append, countCh_cons, countCh_append, countCh_nil]
             simp
             omega)

theorem endsWithL_decomp {l p : List Char} (h : endsWithL l p = true) :
    l = l.take (l.length - p.length) ++ p := by
  rw [endsWithL] at h
  by_cases hlen : p.length ≤ l.length
  · rw [if_pos hlen] at h
    obtain ⟨t, ht⟩ := (startsWithL_iff p _).mp h
    have hlt : (l.drop (l.length - p.length)).length = p.length := by
      simp only [List.length_drop]
      omega
    have ht2 : t = [] := by
      have hlen2 := congrArg List.length ht
      rw [hlt, List.length_append] at hlen2
      exact List.length_eq_zero.mp (by omega)
    rw [ht2, List.append_nil] at ht
    conv_lhs => rw [← List.take_append_drop (l.length - p.length) l]
    rw [ht]
  · rw [if_neg hlen] at h
    cases h

theorem mem_repC {c x : Char} {k : Nat} (h : c ∈ repC k x) : c = x := by
  rw [repC] at h
  exact (List.mem_replicate.mp h).2

/-! ## Sanitizer-identity and parse-failure lemmas for the repair claim -/

/-- No two adjacent double quotes. -/
def noQQ : List Char → Bool
  | a :: b :: t => !(a == '"' && b == '"') && noQQ (b :: t)
  | _ => true

theorem noQQ_tail {c : Char} {t : List Char} (h : noQQ (c :: t) = true) :
    noQQ t = true := by
  cases t with
  | nil => rfl
  | cons b t2 =>
    rw [noQQ, Bool.and_eq_true] at h
    exact h.2

theorem noQQ_cons_left {a : Char} {l : List Char} (h : (a == '"') = false) :
    noQQ (a :: l) = noQQ l := by
  cases l with
  | nil => rfl
  | cons b t =>
    rw [noQQ, h, Bool.false_and, Bool.not_false, Bool.true_and]

theorem noQQ_cons_right {a : Char} {l : List Char} (h : l.head? = some '"' → False) :
    noQQ (a :: l) = noQQ l := by
  cases l with
  | nil => rfl
  | cons b t =>
    have hb : (b == '"') = false := by
      cases hbe : b == '"'
      · rfl
      · exact absurd (by rw [beq_iff_eq.mp hbe]; rfl) h
    rw [noQQ, hb, Bool.and_false, Bool.not_false, Bool.true_and]

theorem noQQ_append_left_ne {l r : List Char} (h : ∀ c ∈ l, (c == '"') = false) :
    noQQ (l ++ r) = noQQ r := by
  induction l with
  | nil => rw [List.nil_append]
  | cons a t ih =>
    rw [List.cons_append, noQQ_cons_left (h a (List.mem_cons_self a t)),
      ih (fun c hc => h c (List.mem_cons_of_mem a hc))]

theorem noQQ_take {l : List Char} (h : noQQ l = true) :
    ∀ n, noQQ (l.take n) = true := by
  induction l with
  | nil =>
    intro n
    rw [List.take_nil]
    exact h
  | cons a t ih =>
    intro n
    cases n with
    | zero => rfl
    | succ m =>
      rw [List.take_succ_cons]
      cases t with
      | nil =>
        cases m <;> rfl
      | cons b t2 =>
        rw [noQQ, Bool.and_eq_true] at h
        cases m with
        | zero => rfl
        | succ m2 =>
          rw [List.take_succ_cons, noQQ, Bool.and_eq_true]
          refine ⟨h.1, ?_⟩
          have h2 := ih h.2 (m2 + 1)
          rw [List.take_succ_cons] at h2
          exact h2

theorem qqPat_none_of_noQQ {l : List Char} (h : noQQ l = true) : qqPat l = none := by
  rw [qqPat.eq_def]
  split
  · exfalso
    rw [noQQ] at h
    simp at h
  · rfl

theorem replaceScanAux_qq : ∀ (fuel : Nat) (l : List Char), noQQ l = true →
    replaceScanAux qqPat fuel l = l := by
  intro fuel
  induction fuel with
  | zero =>
    intro l h
    cases l <;> rfl
  | succ fu ih =>
    intro l h
    cases l with
    | nil => rfl
    | cons c t =>
      rw [replaceScanAux, qqPat_none_of_noQQ h]
      rw [ih t (noQQ_tail h)]

theorem replaceScan_qq {l : List Char} (h : noQQ l = true) :
    replaceScan qqPat l = l := by
  rw [replaceScan]
  exact replaceScanAux_qq _ _ h

theorem strOKc_ne_quote {c : Char} (h : RJ.strOKc c = true) : (c == '"') = false := by
  rw [RJ.strOKc] at h
  simp only [Bool.and_eq_true, Bool.not_eq_true'] at h
  exact h.1.1.1.1.1.1.1.1

theorem digit_ne_quote {c : Char} (h : isDigitC c = true) : (c == '"') = false := by
  cases hq : c == '"'
  · rfl
  · rw [beq_iff_eq.mp hq] at h
    exact absurd h (by decide)

theorem render_noQQ : ∀ (f : Nat),
    (∀ (v : JsVal) (tail : List Char), RJ.cleanValF f v = true →
      (tail.head? = some '"' → False) →
      noQQ (RJ.renderF f v ++ tail) = noQQ tail) ∧
    (∀ (ms : List (List Char × JsVal)) (tail : List Char), RJ.cleanMemsF f ms = true →
      (tail.head? = some '"' → False) →
      noQQ (RJ.renderMemsF f ms ++ tail) = noQQ tail) := by
  intro f
  induction f with
  | zero =>
    refine ⟨?_, ?_⟩
    · intro v tail h htail
      rw [RJ.cleanValF] at h
      cases h
    · intro ms tail h htail
      rw [RJ.cleanMemsF] at h
      cases h
  | succ f2 ih =>
    obtain ⟨ihv, ihm⟩ := ih
    refine ⟨?_, ?_⟩
    · intro v tail h htail
      cases v with
      | null =>
        rw [show RJ.renderF (f2 + 1) JsVal.null = ['n', 'u', 'l', 'l'] from rfl]
        exact noQQ_append_left_ne (by decide)
      | bool b =>
        cases b
        · rw [show RJ.renderF (f2 + 1) (JsVal.bool false)
            = ['f', 'a', 'l', 's', 'e'] from rfl]
          exact noQQ_append_left_ne (by decide)
        · rw [show RJ.renderF (f2 + 1) (JsVal.bool true)
            = ['t', 'r', 'u', 'e'] from rfl]
          exact noQQ_append_left_ne (by decide)
      | num n =>
        rw [show RJ.renderF (f2 + 1) (JsVal.num n) = RJ.natDigits n.toNat from rfl]
        exact noQQ_append_left_ne
          (fun c hc => digit_ne_quote (natDigitsAux_digits
            (show c ∈ RJ.natDigitsAux (n.toNat + 1) n.toNat from hc)))
      | str s =>
        have hs : (!s.isEmpty && s.all RJ.strOKc) = true := h
        rw [Bool.and_eq_true] at hs
        obtain ⟨s0, st, rfl⟩ : ∃ s0 st, s = s0 :: st := by
          cases s with
          | nil => simp at hs
          | cons s0 st => exact ⟨s0, st, rfl⟩
        have hall : ∀ c ∈ s0 :: st, (c == '"') = false :=
          fun c hc => strOKc_ne_quote (List.all_eq_true.mp hs.2 c hc)
        show noQQ (('"' :: (s0 :: st) ++ ['"']) ++ tail) = noQQ tail
        rw [show ('"' :: (s0 :: st) ++ ['"']) ++ tail
          = '"' :: ((s0 :: st) ++ '"' :: tail) by simp]
        rw [noQQ_cons_right (by
          intro hh
          rw [List.cons_append] at hh
          exact absurd (Option.some.inj hh) (by
            intro he
            exact absurd (hall s0 (List.mem_cons_self _ _)) (by rw [he]; decide)))]
        rw [noQQ_append_left_ne hall]
        rw [noQQ_cons_right htail]
      | obj ms =>
        have hm : RJ.cleanMemsF f2 ms = true := h
        show noQQ (('{' :: RJ.renderMemsF f2 ms ++ ['}']) ++ tail) = noQQ tail
        rw [show ('{' :: RJ.renderMemsF f2 ms ++ ['}']) ++ tail
          = '{' :: (RJ.renderMemsF f2 ms ++ '}' :: tail) by simp]
        rw [noQQ_cons_left (by decide)]
        rw [ihm ms ('}' :: tail) hm (by intro hh; simp at hh)]
        rw [noQQ_cons_left (by decide)]
      | undef => exact Bool.noConfusion (show false = true from h)
      | numF s => exact Bool.noConfusion (show false = true from h)
      | arr es => exact Bool.noConfusion (show false = true from h)
    · intro ms tail h htail
      cases ms with
      | nil =>
        rw [show RJ.renderMemsF (f2 + 1) [] = [] from rfl, List.nil_append]
      | cons m t =>
        obtain ⟨k, w⟩ := m
        have htr : ((!k.isEmpty && k.all RJ.strOKc) && RJ.cleanValF f2 w
            && RJ.cleanMemsF f2 t) = true := h
        simp only [Bool.and_eq_true] at htr
        obtain ⟨⟨⟨hkne, hkall⟩, hw⟩, ht⟩ := htr
        obtain ⟨k0, kt, rfl⟩ : ∃ k0 kt, k = k0 :: kt := by
          cases k with
          | nil => simp at hkne
          | cons k0 kt => exact ⟨k0, kt, rfl⟩
        have hkq : ∀ c ∈ k0 :: kt, (c == '"') = false :=
          fun c hc => strOKc_ne_quote (List.all_eq_true.mp hkall c hc)
        have hk0 : ∀ (r : List Char), ((k0 :: kt) ++ r).head? = some '"' → False := by
          intro r hh
          rw [List.cons_append] at hh
          exact absurd (hkq k0 (List.mem_cons_self _ _))
            (by rw [Option.some.inj hh]; decide)
        cases t with
        | nil =>
          show noQQ (('"' :: (k0 :: kt) ++ '"' :: ':' :: RJ.renderF f2 w) ++ tail)
            = noQQ tail
          rw [show ('"' :: (k0 :: kt) ++ '"' :: ':' :: RJ.renderF f2 w) ++ tail
            = '"' :: ((k0 :: kt) ++ '"' :: ':' :: (RJ.renderF f2 w ++ tail)) by simp]
          rw [noQQ_cons_right (hk0 _)]
          rw [noQQ_append_left_ne hkq]
          rw [noQQ_cons_right (by intro hh; simp at hh)]
          rw [noQQ_cons_left (by decide)]
          exact ihv w tail hw htail
        | cons m2 t2 =>
          show noQQ ((('"' :: (k0 :: kt) ++ '"' :: ':' :: RJ.renderF f2 w)
              ++ ',' :: RJ.renderMemsF f2 (m2 :: t2)) ++ tail) = noQQ tail
          rw [show (('"' :: (k0 :: kt) ++ '"' :: ':' :: RJ.renderF f2 w)
              ++ ',' :: RJ.renderMemsF f2 (m2 :: t2)) ++ tail
            = '"' :: ((k0 :: kt) ++ '"' :: ':' :: (RJ.renderF f2 w
              ++ ',' :: (RJ.renderMemsF f2 (m2 :: t2) ++ tail))) by simp]
          rw [noQQ_cons_right (hk0 _)]
          rw [noQQ_append_left_ne hkq]
          rw [noQQ_cons_right (by intro hh; simp at hh)]
          rw [noQQ_cons_left (by decide)]
          rw [ihv w (',' :: (RJ.renderMemsF f2 (m2 :: t2) ++ tail)) hw
            (by intro hh; simp at hh)]
          rw [noQQ_cons_left (by decide)]
          exact ihm (m2 :: t2) tail ht htail

theorem head?_take {l : List Char} {n : Nat} (h : 0 < n) :
    (l.take n).head? = l.head? := by
  cases l with
  | nil => rw [List.take_nil]
  | cons a t =>
    cases n with
    | zero => exact absurd h (by omega)
    | succ m => rw [List.take_succ_cons]; rfl

theorem indexOfChar_eq_none {l : List Char} {x : Char} (h : x ∉ l) :
    indexOfChar l x = none := by
  induction l with
  | nil => rfl
  | cons c t ih =>
    rw [indexOfChar]
    rw [if_neg (by
      intro hc
      exact h (by rw [← beq_iff_eq.mp hc]; exact List.mem_cons_self _ _))]
    rw [ih (fun hm => h (List.mem_cons_of_mem _ hm))]
    rfl

theorem getLast?_mem {l : List Char} {c : Char} (h : l.getLast? = some c) : c ∈ l := by
  induction l with
  | nil => cases h
  | cons a t ih =>
    cases t with
    | nil =>
      rw [List.getLast?_singleton] at h
      rw [Option.some.inj h]
      exact List.mem_cons_self _ _
    | cons b t2 =>
      rw [List.getLast?_cons_cons] at h
      exact List.mem_cons_of_mem _ (ih h)

theorem cleanJson_id_of_good {t : List Char}
    (hgood : ∀ c ∈ '{' :: t, isWsBig c = false ∧ c ≠ bt)
    (hnb : '}' ∉ '{' :: t) (hq : noQQ ('{' :: t) = true) :
    P04.cleanJson ('{' :: t) = '{' :: t := by
  have htrim : jsTrim ('{' :: t) = '{' :: t :=
    jsTrim_eq_self
      (fun c hc => by
        rw [show ('{' :: t).head? = some '{' from rfl] at hc
        rw [← Option.some.inj hc]
        rfl)
      (fun c hc => (hgood c (getLast?_mem hc)).1)
  have hf1 : startsWithL ('{' :: t) fenceJsonLit = false := by
    rw [show fenceJsonLit = bt :: "\x60\x60json".data from rfl]
    exact startsWithL_false_of_head (by decide)
  have hf2 : startsWithL ('{' :: t) fenceLit = false := by
    rw [show fenceLit = bt :: "\x60\x60".data from rfl]
    exact startsWithL_false_of_head (by decide)
  have hf3 : endsWithL ('{' :: t) fenceLit = false := by
    cases he : endsWithL ('{' :: t) fenceLit
    · rfl
    · exfalso
      have hd := endsWithL_decomp he
      have hbt : bt ∈ '{' :: t := by
        rw [hd]
        refine List.mem_append.mpr (Or.inr ?_)
        rw [show fenceLit = [bt, bt, bt] from rfl]
        exact List.mem_cons_self _ _
      exact (hgood bt hbt).2 rfl
  have hfence : P04.fenceStrip04 ('{' :: t) = '{' :: t := by
    rw [P04.fenceStrip04]
    simp only [hf1, hf2, hf3, Bool.false_eq_true, if_false]
  have hcut : GS.braceCut ('{' :: t) = '{' :: t := by
    rw [GS.braceCut]
    rw [show indexOfChar ('{' :: t) '{' = some 0 by rw [indexOfChar]; simp]
    rw [show lastIndexOfChar ('{' :: t) '}' = none by
      rw [lastIndexOfChar, indexOfChar_eq_none (by
        intro hm
        exact hnb (List.mem_reverse.mp hm))]
      rfl]
  have hqq : replaceScan qqPat ('{' :: t) = '{' :: t := replaceScan_qq hq
  rw [P04.cleanJson, htrim, hfence, hcut, hqq, htrim]

theorem strOKc_good {c : Char} (h : RJ.strOKc c = true) :
    isWsBig c = false ∧ c ≠ bt := by
  rw [RJ.strOKc] at h
  simp only [Bool.and_eq_true, Bool.not_eq_true', beq_eq_false_iff_ne] at h
  exact ⟨h.1.2, h.2⟩

theorem render_good : ∀ (f : Nat),
    (∀ (v : JsVal), RJ.cleanValF f v = true →
      ∀ c ∈ RJ.renderF f v, isWsBig c = false ∧ c ≠ bt) ∧
    (∀ (ms : List (List Char × JsVal)), RJ.cleanMemsF f ms = true →
      ∀ c ∈ RJ.renderMemsF f ms, isWsBig c = false ∧ c ≠ bt) := by
  intro f
  induction f with
  | zero =>
    refine ⟨?_, ?_⟩
    · intro v h
      exact Bool.noConfusion (show false = true from h)
    · intro ms h
      exact Bool.noConfusion (show false = true from h)
  | succ f2 ih =>
    obtain ⟨ihv, ihm⟩ := ih
    refine ⟨?_, ?_⟩
    · intro v h c hc
      cases v with
      | null =>
        rw [show RJ.renderF (f2 + 1) JsVal.null = ['n', 'u', 'l', 'l'] from rfl] at hc
        simp only [List.mem_cons, List.not_mem_nil, or_false] at hc
        rcases hc with rfl | rfl | rfl | rfl <;> exact ⟨by decide, by decide⟩
      | bool b =>
        cases b
        · rw [show RJ.renderF (f2 + 1) (JsVal.bool false)
            = ['f', 'a', 'l', 's', 'e'] from rfl] at hc
          simp only [List.mem_cons, List.not_mem_nil, or_false] at hc
          rcases hc with rfl | rfl | rfl | rfl | rfl <;> exact ⟨by decide, by decide⟩
        · rw [show RJ.renderF (f2 + 1) (JsVal.bool true)
            = ['t', 'r', 'u', 'e'] from rfl] at hc
          simp only [List.mem_cons, List.not_mem_nil, or_false] at hc
          rcases hc with rfl | rfl | rfl | rfl <;> exact ⟨by decide, by decide⟩
      | num n =>
        rw [show RJ.renderF (f2 + 1) (JsVal.num n)
          = RJ.natDigits n.toNat from rfl] at hc
        obtain ⟨d, hd, rfl⟩ := natDigitsAux_mem
          (show c ∈ RJ.natDigitsAux (n.toNat + 1) n.toNat from hc)
        interval_cases d <;> exact ⟨by decide, by decide⟩
      | str s =>
        have hs : (!s.isEmpty && s.all RJ.strOKc) = true := h
        rw [Bool.and_eq_true] at hs
        rw [show RJ.renderF (f2 + 1) (JsVal.str s) = '"' :: s ++ ['"'] from rfl] at hc
        simp only [List.cons_append, List.mem_cons, List.mem_append,
          List.mem_singleton, List.not_mem_nil, or_false] at hc
        rcases hc with rfl | hc2 | rfl
        · exact ⟨by decide, by decide⟩
        · exact strOKc_good (List.all_eq_true.mp hs.2 c hc2)
        · exact ⟨by decide, by decide⟩
      | obj ms =>
        have hm : RJ.cleanMemsF f2 ms = true := h
        rw [show RJ.renderF (f2 + 1) (JsVal.obj ms)
          = '{' :: RJ.renderMemsF f2 ms ++ ['}'] from rfl] at hc
        simp only [List.cons_append, List.mem_cons, List.mem_append,
          List.mem_singleton, List.not_mem_nil, or_false] at hc
        rcases hc with rfl | hc2 | rfl
        · exact ⟨by decide, by decide⟩
        · exact ihm ms hm c hc2
        · exact ⟨by decide, by decide⟩
      | undef => exact Bool.noConfusion (show false = true from h)
      | numF s => exact Bool.noConfusion (show false = true from h)
      | arr es => exact Bool.noConfusion (show false = true from h)
    · intro ms h c hc
      cases ms with
      | nil =>
        rw [show RJ.renderMemsF (f2 + 1) [] = [] from rfl] at hc
        cases hc
      | cons m t =>
        obtain ⟨k, w⟩ := m
        have htr : ((!k.isEmpty && k.all RJ.strOKc) && RJ.cleanValF f2 w
            && RJ.cleanMemsF f2 t) = true := h
        simp only [Bool.and_eq_true] at htr
        obtain ⟨⟨⟨hkne, hkall⟩, hw⟩, ht⟩ := htr
        cases t with
        | nil =>
          rw [show RJ.renderMemsF (f2 + 1) [(k, w)]
            = '"' :: k ++ '"' :: ':' :: RJ.renderF f2 w from rfl] at hc
          simp only [List.cons_append, List.mem_cons, List.mem_append,
            List.not_mem_nil, or_false] at hc
          rcases hc with rfl | hc2 | rfl | rfl | hc2
          · exact ⟨by decide, by decide⟩
          · exact strOKc_good (List.all_eq_true.mp hkall c hc2)
          · exact ⟨by decide, by decide⟩
          · exact ⟨by decide, by decide⟩
          · exact ihv w hw c hc2
        | cons m2 t2 =>
          rw [show RJ.renderMemsF (f2 + 1) ((k, w) :: m2 :: t2)
            = ('"' :: k ++ '"' :: ':' :: RJ.renderF f2 w)
              ++ ',' :: RJ.renderMemsF f2 (m2 :: t2) from rfl] at hc
          simp only [List.cons_append, List.append_assoc, List.mem_cons,
            List.mem_append, List.not_mem_nil, or_false] at hc
          rcases hc with rfl | hc2 | rfl | rfl | hc2 | rfl | hc2
          · exact ⟨by decide, by decide⟩
          · exact strOKc_good (List.all_eq_true.mp hkall c hc2)
          · exact ⟨by decide, by decide⟩
          · exact ⟨by decide, by decide⟩
          · exact ihv w hw c hc2
          · exact ⟨by decide, by decide⟩
          · exact ihm (m2 :: t2) ht c hc2

theorem mem_takeDigits : ∀ {l ds r : List Char}, JP.takeDigits l = (ds, r) →
    ∀ x ∈ r, x ∈ l := by
  intro l
  induction l with
  | nil =>
    intro ds r h x hx
    rw [JP.takeDigits] at h
    cases h
    cases hx
  | cons c t ih =>
    intro ds r h x hx
    rw [JP.takeDigits] at h
    split at h
    · rcases htd : JP.takeDigits t with ⟨ds0, r0⟩
      rw [htd] at h
      dsimp only at h
      cases h
      exact List.mem_cons_of_mem _ (ih htd x hx)
    · cases h
      exact hx

theorem mem_numSign {l r : List Char} {b : Bool} (h : JP.numSign l = (b, r)) :
    ∀ x ∈ r, x ∈ l := by
  intro x hx
  rw [JP.numSign.eq_def] at h
  split at h
  · cases h
    exact List.mem_cons_of_mem _ hx
  · cases h
    exact hx

theorem mem_intDigits {l ds r : List Char} (h : JP.intDigits l = some (ds, r)) :
    ∀ x ∈ r, x ∈ l := by
  intro x hx
  rw [JP.intDigits.eq_def] at h
  split at h
  · split at h
    · cases h
    · cases h
      exact List.mem_cons_of_mem _ hx
  · cases h
    cases hx
  · split at h
    · rcases htd : JP.takeDigits _ with ⟨ds0, r0⟩
      rw [htd] at h
      dsimp only at h
      cases h
      exact List.mem_cons_of_mem _ (mem_takeDigits htd x hx)
    · cases h
  · cases h

theorem mem_numFracPart {l ds r : List Char} (h : JP.numFracPart l = some (ds, r)) :
    ∀ x ∈ r, x ∈ l := by
  intro x hx
  rw [JP.numFracPart.eq_def] at h
  split at h
  · split at h
    · cases h
    · next heq =>
      cases h
      exact List.mem_cons_of_mem _ (mem_takeDigits heq x hx)
  · cases h
    exact hx

theorem mem_numExpSign {l r sgn : List Char}
    (h : JP.numExpSign l = (sgn, r)) : ∀ x ∈ r, x ∈ l := by
  intro x hx
  rw [JP.numExpSign.eq_def] at h
  split at h
  · cases h
    exact List.mem_cons_of_mem _ hx
  · cases h
    exact List.mem_cons_of_mem _ hx
  · cases h
    exact hx

theorem mem_numExpPart {l ds r : List Char} (h : JP.numExpPart l = some (ds, r)) :
    ∀ x ∈ r, x ∈ l := by
  intro x hx
  rw [JP.numExpPart.eq_def] at h
  split at h
  · rcases hs : JP.numExpSign _ with ⟨sgn, rr⟩
    rw [hs] at h
    dsimp only at h
    rcases htd : JP.takeDigits rr with ⟨ds0, r0⟩
    cases ds0 with
    | nil =>
      rw [htd] at h
      dsimp only at h
      cases h
    | cons d0 ds1 =>
      rw [htd] at h
      dsimp only at h
      cases h
      exact List.mem_cons_of_mem _ (mem_numExpSign hs x (mem_takeDigits htd x hx))
  · rcases hs : JP.numExpSign _ with ⟨sgn, rr⟩
    rw [hs] at h
    dsimp only at h
    rcases htd : JP.takeDigits rr with ⟨ds0, r0⟩
    cases ds0 with
    | nil =>
      rw [htd] at h
      dsimp only at h
      cases h
    | cons d0 ds1 =>
      rw [htd] at h
      dsimp only at h
      cases h
      exact List.mem_cons_of_mem _ (mem_numExpSign hs x (mem_takeDigits htd x hx))
  · cases h
    exact hx

theorem mem_parseNum {l : List Char} {v : JsVal} {r : List Char}
    (h : JP.parseNum l = some (v, r)) : ∀ x ∈ r, x ∈ l := by
  intro x hx
  rw [JP.parseNum] at h
  rcases hs : JP.numSign l with ⟨neg, l1⟩
  rw [hs] at h
  dsimp only at h
  rcases hi : JP.intDigits l1 with _ | ⟨ids, l2⟩
  · rw [hi] at h
    cases h
  · rw [hi] at h
    dsimp only at h
    rcases hf : JP.numFracPart l2 with _ | ⟨fds, l3⟩
    · rw [hf] at h
      cases h
    · rw [hf] at h
      dsimp only at h
      rcases he : JP.numExpPart l3 with _ | ⟨eds, l4⟩
      · rw [he] at h
        cases h
      · rw [he] at h
        dsimp only at h
        have hr : r = l4 := by
          split at h
          · cases h
            rfl
          · cases h
            rfl
        subst hr
        exact mem_numSign hs x (mem_intDigits hi x (mem_numFracPart hf x
          (mem_numExpPart he x hx)))

theorem mem_strBody : ∀ (n : Nat) (l acc s r : List Char), l.length ≤ n →
    JP.strBody acc l = some (s, r) → ∀ x ∈ r, x ∈ l := by
  intro n
  induction n with
  | zero =>
    intro l acc s r hlen h x hx
    cases l with
    | nil =>
      rw [JP.strBody] at h
      cases h
    | cons c t => simp at hlen
  | succ n2 ih =>
    intro l acc s r hlen h x hx
    rw [JP.strBody.eq_def] at h
    split at h
    · cases h
      exact List.mem_cons_of_mem _ hx
    · split at h
      · have h1 := ih _ _ _ _ (by
          simp only [List.length_cons] at hlen
          omega) h x hx
        simp [h1]
      · cases h
    · cases h
    · split at h
      · have h1 := ih _ _ _ _ (by
          simp only [List.length_cons] at hlen
          omega) h x hx
        simp [h1]
      · cases h
    · split at h
      · cases h
      · have h1 := ih _ _ _ _ (by
          simp only [List.length_cons] at hlen
          omega) h x hx
        simp [h1]
    · cases h

theorem mem_skipWs_eq {x : Char} {l r : List Char} (heq : JP.skipWs l = r)
    (hx : x ∈ r) : x ∈ l :=
  mem_skipWs (heq ▸ hx)

theorem mem_skipWs_tail {x c : Char} {l r : List Char} (heq : JP.skipWs l = c :: r)
    (hx : x ∈ r) : x ∈ l :=
  mem_skipWs (heq ▸ List.mem_cons_of_mem _ hx)

theorem parse_mem_main : ∀ (g : Nat),
    (∀ (cs : List Char) (v : JsVal) (r : List Char),
      JP.parseVal g cs = some (v, r) → ∀ x ∈ r, x ∈ cs) ∧
    (∀ (cs : List Char) (es : List JsVal) (r : List Char),
      JP.parseElems g cs = some (es, r) → ∀ x ∈ r, x ∈ cs) ∧
    (∀ (cs : List Char) (ms : List (List Char × JsVal)) (r : List Char),
      JP.parseMembers g cs = some (ms, r) → ∀ x ∈ r, x ∈ cs) := by
  intro g
  induction g with
  | zero =>
    refine ⟨?_, ?_, ?_⟩
    · intro cs v r h
      rw [JP.parseVal] at h
      cases h
    · intro cs es r h
      rw [JP.parseElems] at h
      cases h
    · intro cs ms r h
      rw [JP.parseMembers] at h
      cases h
  | succ g2 ih =>
    obtain ⟨ihv, ihe, ihm⟩ := ih
    refine ⟨?_, ?_, ?_⟩
    · intro cs v r h x hx
      rw [JP.parseVal] at h
      split at h
      · next heq =>
        cases h
        exact mem_skipWs_eq heq (by simp [hx])
      · next heq =>
        cases h
        exact mem_skipWs_eq heq (by simp [hx])
      · next heq =>
        cases h
        exact mem_skipWs_eq heq (by simp [hx])
      · next heq =>
        split at h
        · next hsb =>
          cases h
          exact mem_skipWs_tail heq (mem_strBody _ _ _ _ _ le_rfl hsb x hx)
        · cases h
      · next heq =>
        split at h
        · next heq2 =>
          cases h
          exact mem_skipWs_tail heq (mem_skipWs_tail heq2 hx)
        · split at h
          · next hpe =>
            cases h
            exact mem_skipWs_tail heq (mem_skipWs (ihe _ _ _ hpe x hx))
          · cases h
      · next heq =>
        split at h
        · next heq2 =>
          cases h
          exact mem_skipWs_tail heq (mem_skipWs_tail heq2 hx)
        · split at h
          · next hpm =>
            cases h
            exact mem_skipWs_tail heq (mem_skipWs (ihm _ _ _ hpm x hx))
          · cases h
      · next heq =>
        split at h
        · exact mem_skipWs_eq heq (mem_parseNum h x hx)
        · cases h
      · next heq =>
        cases h
    · intro cs es r h x hx
      rw [JP.parseElems] at h
      split at h
      · cases h
      · next hpv =>
        split at h
        · next heq2 =>
          split at h
          · next hpe =>
            cases h
            exact ihv _ _ _ hpv x (mem_skipWs_tail heq2 (mem_skipWs (ihe _ _ _ hpe x hx)))
          · cases h
        · next heq2 =>
          cases h
          exact ihv _ _ _ hpv x (mem_skipWs_tail heq2 hx)
        · cases h
    · intro cs ms r h x hx
      rw [JP.parseMembers] at h
      split at h
      · next heq =>
        split at h
        · cases h
        · next hsb =>
          split at h
          · next heq3 =>
            split at h
            · cases h
            · next hpv =>
              split at h
              · next heq5 =>
                split at h
                · next hpm =>
                  cases h
                  exact mem_skipWs_tail heq (mem_strBody _ _ _ _ _ le_rfl hsb x
                    (mem_skipWs_tail heq3 (mem_skipWs (ihv _ _ _ hpv x
                      (mem_skipWs_tail heq5 (mem_skipWs (ihm _ _ _ hpm x hx)))))))
                · cases h
              · next heq5 =>
                cases h
                exact mem_skipWs_tail heq (mem_strBody _ _ _ _ _ le_rfl hsb x
                  (mem_skipWs_tail heq3 (mem_skipWs (ihv _ _ _ hpv x
                    (mem_skipWs_tail heq5 hx)))))
              · cases h
          · cases h
      · cases h

theorem parse_close_main : ∀ (g : Nat),
    (∀ (cs t : List Char) (v : JsVal) (r : List Char),
      JP.skipWs cs = '{' :: t → JP.parseVal g cs = some (v, r) → '}' ∈ cs) ∧
    (∀ (cs : List Char) (ms : List (List Char × JsVal)) (r : List Char),
      JP.parseMembers g cs = some (ms, r) → '}' ∈ cs) := by
  intro g
  induction g with
  | zero =>
    refine ⟨?_, ?_⟩
    · intro cs t v r hskip h
      rw [JP.parseVal] at h
      cases h
    · intro cs ms r h
      rw [JP.parseMembers] at h
      cases h
  | succ g2 ih =>
    obtain ⟨ihv, ihm⟩ := ih
    refine ⟨?_, ?_⟩
    · intro cs t v r hskip h
      rw [JP.parseVal] at h
      split at h
      · next heq => rw [hskip] at heq; simp at heq
      · next heq => rw [hskip] at heq; simp at heq
      · next heq => rw [hskip] at heq; simp at heq
      · next heq => rw [hskip] at heq; simp at heq
      · next heq => rw [hskip] at heq; simp at heq
      · next heq =>
        rw [hskip] at heq
        injection heq with h1 h2
        subst h2
        split at h
        · next heq2 =>
          exact mem_skipWs_eq hskip (List.mem_cons_of_mem _
            (mem_skipWs (heq2 ▸ List.mem_cons_self _ _)))
        · split at h
          · next hpm =>
            exact mem_skipWs_eq hskip (List.mem_cons_of_mem _
              (mem_skipWs (ihm _ _ _ hpm)))
          · cases h
      · next heq =>
        rw [hskip] at heq
        injection heq with h1 h2
        subst h1
        subst h2
        rw [if_neg (by decide)] at h
        cases h
      · next heq =>
        rw [hskip] at heq
        cases heq
    · intro cs ms r h
      rw [JP.parseMembers] at h
      split at h
      · next heq =>
        split at h
        · cases h
        · next hsb =>
          split at h
          · next heq3 =>
            split at h
            · cases h
            · next hpv =>
              split at h
              · next heq5 =>
                split at h
                · next hpm =>
                  exact mem_skipWs_tail heq (mem_strBody _ _ _ _ _ le_rfl hsb _
                    (mem_skipWs_tail heq3 (mem_skipWs ((parse_mem_main g2).1 _ _ _ hpv _
                      (mem_skipWs_tail heq5 (mem_skipWs (ihm _ _ _ hpm)))))))
                · cases h
              · next heq5 =>
                exact mem_skipWs_tail heq (mem_strBody _ _ _ _ _ le_rfl hsb _
                  (mem_skipWs_tail heq3 (mem_skipWs ((parse_mem_main g2).1 _ _ _ hpv _
                    (mem_skipWs (heq5 ▸ List.mem_cons_self _ _))))))
              · cases h
          · cases h
      · cases h

theorem jsonParse_none_of_open {t : List Char} (hnb : '}' ∉ '{' :: t) :
    jsonParse ('{' :: t) = none := by
  rw [jsonParse]
  cases hp : JP.parseVal (('{' :: t).length + 1) ('{' :: t) with
  | none => rfl
  | some p =>
    obtain ⟨v, r⟩ := p
    exact absurd ((parse_close_main _).1 _ t v r
      (by rw [JP.skipWs, if_neg (by decide)]) hp) hnb


def c3xtext : List Char := "\x7b\"a\": [1, 2".data

def c3goodtext : List Char := "\x7b\"a\": [1, 2]\x7d".data

def c3retext : List Char := "\x7b\"a\":\x7b\"b\":1\x7d,\"c\":2".data

def c3refull : List Char := "\x7b\"a\":\x7b\"b\":1\x7d,\"c\":2\x7d".data

/-- C3 counterexample, two failure modes of the original claim.  First, a
missing `]`: the good text `\x7b"a": [1, 2]\x7d` parses; dropping its last two
closers (`]` and `\x7d`, so k = 2, within the schema depth) and running the
Structural Repairer appends the deficit in `\x7d`-then-`]` order, producing
`\x7b"a": [1, 2\x7d]`, and the whole `parseRobustJson` throws.  Second, a
retained inner brace: the good text `\x7b"a":\x7b"b":1\x7d,"c":2\x7d` parses to a
two-member object, but on its k = 1 truncation the sanitizer re-cuts at the
inner `\x7d`, the repair yields `\x7b"a":\x7b"b":1\x7d\x7d`, and `parseRobustJson`
returns a one-member object: repair "succeeds" with a different value. -/
theorem claim_C3_counterexample :
    P04.parseRobustJson c3xtext = Except.error msg04 ∧
    (jsonParse c3goodtext).isSome = true ∧
    c3goodtext.take (c3goodtext.length - 2) = c3xtext ∧
    (jsonParse c3refull).isSome = true ∧
    c3refull.take (c3refull.length - 1) = c3retext ∧
    P04.parseRobustJson c3retext
      = Except.ok (JsVal.obj [("a".data, JsVal.obj [("b".data, JsVal.num 1)])]) ∧
    jsonParse c3refull
      = some (JsVal.obj [("a".data, JsVal.obj [("b".data, JsVal.num 1)]),
          ("c".data, JsVal.num 2)]) ∧
    JsVal.obj [("a".data, JsVal.obj [("b".data, JsVal.num 1)])]
      ≠ JsVal.obj [("a".data, JsVal.obj [("b".data, JsVal.num 1)]),
          ("c".data, JsVal.num 2)] := by
  refine ⟨by rfl, by rfl, by decide, by rfl, by decide, by rfl, by rfl, by
    intro h
    simp at h⟩

/-- C3 (amended): the bracket-counting repair, restricted to the truncations
it actually fixes.  For a clean object value (no arrays, nonempty plain keys
and strings, nonnegative integer, boolean and null leaves) whose minified
rendering is truncated by dropping its final `k ≥ 1` closing braces such
that no `\x7d` remains in the truncation, the truncation is a fixed point of
the `part_004` sanitizer, the direct parse of the truncation fails, the
repair appends exactly the `k` missing braces reconstructing the full
rendering, and `parseRobustJson` returns the original value.  Truncations
outside this class can lose members or fail (see the counterexample). -/
theorem claim_C3_truncation_repair (f : Nat) (ms : List (List Char × JsVal)) (k : Nat)
    (hc : RJ.cleanValF f (JsVal.obj ms) = true)
    (hk : 1 ≤ k)
    (hend : endsWithL (RJ.renderF f (JsVal.obj ms)) (repC k '}') = true)
    (hnob : '}' ∉ (RJ.renderF f (JsVal.obj ms)).take
        ((RJ.renderF f (JsVal.obj ms)).length - k)) :
    P04.cleanJson ((RJ.renderF f (JsVal.obj ms)).take
        ((RJ.renderF f (JsVal.obj ms)).length - k))
      = (RJ.renderF f (JsVal.obj ms)).take
        ((RJ.renderF f (JsVal.obj ms)).length - k) ∧
    jsonParse ((RJ.renderF f (JsVal.obj ms)).take
        ((RJ.renderF f (JsVal.obj ms)).length - k)) = none ∧
    P04.repairStep ((RJ.renderF f (JsVal.obj ms)).take
        ((RJ.renderF f (JsVal.obj ms)).length - k)) = RJ.renderF f (JsVal.obj ms) ∧
    P04.parseRobustJson ((RJ.renderF f (JsVal.obj ms)).take
        ((RJ.renderF f (JsVal.obj ms)).length - k)) = Except.ok (JsVal.obj ms) := by
  have hdecomp : RJ.renderF f (JsVal.obj ms)
      = (RJ.renderF f (JsVal.obj ms)).take
          ((RJ.renderF f (JsVal.obj ms)).length - k) ++ repC k '}' := by
    have h1 := endsWithL_decomp hend
    rw [show (repC k '}').length = k from by simp [repC]] at h1
    exact h1
  obtain ⟨hb1, hb2, hb3⟩ := (render_balance f).1 (JsVal.obj ms) hc
  obtain ⟨t0, ht0⟩ : ∃ t0, RJ.renderF f (JsVal.obj ms) = '{' :: t0 := by
    cases f with
    | zero => exact Bool.noConfusion (show false = true from hc)
    | succ f2 => exact ⟨_, rfl⟩
  obtain ⟨pt, hP⟩ : ∃ pt, (RJ.renderF f (JsVal.obj ms)).take
      ((RJ.renderF f (JsVal.obj ms)).length - k) = '{' :: pt := by
    cases hPc : (RJ.renderF f (JsVal.obj ms)).take
        ((RJ.renderF f (JsVal.obj ms)).length - k) with
    | nil =>
      exfalso
      rw [hPc, List.nil_append, ht0] at hdecomp
      cases k with
      | zero => omega
      | succ k2 =>
        rw [show repC (k2 + 1) '}' = '}' :: repC k2 '}' from rfl] at hdecomp
        injection hdecomp with h1 h2
        exact absurd h1 (by decide)
    | cons p0 pt =>
      refine ⟨pt, ?_⟩
      rw [hPc, ht0, List.cons_append] at hdecomp
      injection hdecomp with h1 h2
      rw [h1]
  rw [hP] at hdecomp hnob
  have hgoodR := (render_good f).1 (JsVal.obj ms) hc
  have hgoodP : ∀ c ∈ '{' :: pt, isWsBig c = false ∧ c ≠ bt := by
    intro c hcm
    exact hgoodR c (mem_take (hP ▸ hcm))
  have hqR : noQQ (RJ.renderF f (JsVal.obj ms)) = true := by
    have h1 := (render_noQQ f).1 (JsVal.obj ms) [] hc (by intro hh; cases hh)
    rw [List.append_nil] at h1
    exact h1.trans rfl
  have hqP : noQQ ('{' :: pt) = true := by
    rw [← hP]
    exact noQQ_take hqR _
  have hcid : P04.cleanJson ('{' :: pt) = '{' :: pt :=
    cleanJson_id_of_good hgoodP hnob hqP
  have hjp : jsonParse ('{' :: pt) = none := jsonParse_none_of_open hnob
  have hcb : countCh '}' ('{' :: pt) = 0 :=
    countCh_eq_zero (fun c hcm hx => hnob (by rw [← hx]; exact hcm))
  have hz1 : countCh '{' (repC k '}') = 0 := countCh_eq_zero (fun c hcm hx => by
    rw [hx] at hcm
    exact absurd (mem_repC hcm) (by decide))
  have hz3 : countCh '[' (repC k '}') = 0 := countCh_eq_zero (fun c hcm hx => by
    rw [hx] at hcm
    exact absurd (mem_repC hcm) (by decide))
  have hz4 : countCh ']' (repC k '}') = 0 := countCh_eq_zero (fun c hcm hx => by
    rw [hx] at hcm
    exact absurd (mem_repC hcm) (by decide))
  have e1 := congrArg (countCh '{') hdecomp
  rw [countCh_append, hz1] at e1
  have e2 := congrArg (countCh '}') hdecomp
  rw [countCh_append, countCh_repC_self, hcb] at e2
  have e3 := congrArg (countCh '[') hdecomp
  rw [countCh_append, hz3] at e3
  have e4 := congrArg (countCh ']') hdecomp
  rw [countCh_append, hz4] at e4
  have hrep : P04.repairStep ('{' :: pt) = RJ.renderF f (JsVal.obj ms) := by
    simp only [P04.repairStep, hcid]
    rw [if_neg (by omega)]
    rw [if_pos (by omega)]
    rw [show countCh '{' ('{' :: pt) - countCh '}' ('{' :: pt) = k from by omega]
    exact hdecomp.symm
  rw [hP]
  refine ⟨hcid, hjp, hrep, ?_⟩
  rw [P04.parseRobustJson, hcid, hjp]
  dsimp only
  rw [hrep, jsonParse_renderF hc]

def c3wms : List (List Char × JsVal) :=
  [("a".data, JsVal.obj [("b".data, JsVal.obj [("c".data, JsVal.num 1)])])]

theorem claim_C3_witness :
    RJ.cleanValF 10 (JsVal.obj c3wms) = true ∧
    P04.parseRobustJson ((RJ.renderF 10 (JsVal.obj c3wms)).take
        ((RJ.renderF 10 (JsVal.obj c3wms)).length - 3))
      = Except.ok (JsVal.obj c3wms) :=
  ⟨by decide, (claim_C3_truncation_repair 10 c3wms 3
      (by decide) (by decide) (by decide) (by decide)).2.2.2⟩
